import Mathlib

/-!
# Shared-visitor analyzer (`compilerplugins/clang/sharedvisitor/analyzer.cxx`)

A shallow embedding of the analyzer: the declaration of a class as the Clang
front end hands it over, the process-wide state the scan reads and writes
(standard output, standard error, the merge set `traverseFunctions`, the flag
`foundSomething`), the class scan, and the driver (`readSourceFile`, the loop
of `main` over the file arguments).
Standard output and standard error are lists of lines: every `<< endl` of the
source ends one element. `abort()` is the `Except.error` result, which carries
the state at the moment of the abort (all output written so far is flushed by
`endl`).
-/

namespace Analyzer

/-! ## Strings -/

/-- The test `StringRef::startswith`: the string `s` begins with `p`. -/
def startswith (s p : String) : Bool := p.data.isPrefixOf s.data

/-- The call `StringRef::substr(n)`: `s` without its first `n` characters (all of the
prefixes cut off by the analyzer are ASCII, one byte per character). -/
def substr (s : String) (n : Nat) : String := ⟨s.data.drop n⟩

/-! ## Declarations supplied by the front end -/

/-- Access specifier of a member (`clang::AccessSpecifier`). -/
inductive AccessSpecifier where
  | AS_public
  | AS_protected
  | AS_private
  | AS_none
deriving DecidableEq

/-- What the scan reads off a `CXXMethodDecl`. `params` holds, per parameter,
`getTypeSourceInfo()->getType().getAsString()`. -/
structure CXXMethodDecl where
  name : String
  isIdentifier : Bool
  isStatic : Bool
  access : AccessSpecifier
  params : List String
deriving DecidableEq

/-- The call `getNumParams()`. -/
def CXXMethodDecl.getNumParams (m : CXXMethodDecl) : Nat := m.params.length

/-- Type string of `getParamDecl( i )`. -/
def CXXMethodDecl.getParamType (m : CXXMethodDecl) (i : Nat) : String :=
  (m.params.get? i).getD ""

/-- A class the scan may meet as a base: its name and the namespaces around
it, innermost first, up to the global namespace. -/
structure BaseDecl where
  name : String
  namespaces : List String
deriving DecidableEq

/-- What the scan reads off a `CXXRecordDecl`: its name, the classes the
ancestor query ranges over (what the class transitively derives from, as the
front end reports it), and its methods in declaration order. -/
structure CXXRecordDecl where
  name : String
  ancestors : List BaseDecl
  methods : List CXXMethodDecl
deriving DecidableEq

/-! ## The merge set -/

/-- Info about a `Traverse*` function in a plugin. -/
structure TraverseFunctionInfo where
  name : String
  argument : String := ""
  hasPre : Bool := false
  hasPost : Bool := false
deriving DecidableEq

/-- The comparison `TraverseFunctionInfoLess`: records are ordered by name alone
(`std::string` order, character by character). -/
def TraverseFunctionInfoLess (l r : TraverseFunctionInfo) : Prop := l.name < r.name

instance (l r : TraverseFunctionInfo) : Decidable (TraverseFunctionInfoLess l r) :=
  decidable_of_iff (l.name.toList < r.name.toList) String.lt_iff_toList_lt.symm

/-- A `std::set< TraverseFunctionInfo, TraverseFunctionInfoLess >`, as the
list of its elements in iteration order. -/
abbrev TraverseSet := List TraverseFunctionInfo

/-- The call `set::find`: the element equivalent to `x` (neither less than the other),
if there is one. -/
def TraverseSet.find (x : TraverseFunctionInfo) : TraverseSet → Option TraverseFunctionInfo
  | [] => none
  | y :: ys =>
    if ¬ TraverseFunctionInfoLess x y ∧ ¬ TraverseFunctionInfoLess y x then some y
    else TraverseSet.find x ys

/-- The call `set::erase` at the position `find` returned for `x`: the element
equivalent to `x` is removed. -/
def TraverseSet.erase (x : TraverseFunctionInfo) : TraverseSet → TraverseSet
  | [] => []
  | y :: ys =>
    if ¬ TraverseFunctionInfoLess x y ∧ ¬ TraverseFunctionInfoLess y x then ys
    else y :: TraverseSet.erase x ys

/-- The call `set::insert`: `x` is put at its place in the order, unless an equivalent
element is already there. -/
def TraverseSet.insert (x : TraverseFunctionInfo) : TraverseSet → TraverseSet
  | [] => [x]
  | y :: ys =>
    if TraverseFunctionInfoLess x y then x :: y :: ys
    else if TraverseFunctionInfoLess y x then y :: TraverseSet.insert x ys
    else y :: ys

/-! ## Process state -/

deriving instance DecidableEq for Except


/-- The state a class scan works on: the lines written to standard output and
to standard error, and the two file-level statics of the analyzer. -/
structure State where
  cout : List String
  cerr : List String
  traverseFunctions : TraverseSet
  foundSomething : Bool
deriving DecidableEq

/-- The function `findOrCreateTraverseFunctionInfo`: the record stored under `name`, taken
out of the set, or a fresh one. -/
def findOrCreateTraverseFunctionInfo (name : String) (traverseFunctions : TraverseSet) :
    TraverseFunctionInfo × TraverseSet :=
  let info : TraverseFunctionInfo := { name := name }
  match TraverseSet.find info traverseFunctions with
  | some foundInfo => (foundInfo, TraverseSet.erase foundInfo traverseFunctions)
  | none => (info, traverseFunctions)

/-- The text `cout << b` writes for a `bool`: `1` or `0`. -/
def boolDigit (b : Bool) : String := if b then "1" else "0"

/-! ## The class scan -/

/-- Modelled from the spec: `isDerivedFrom` of `check.cxx`, the ancestor-set
membership query: some class the declaration transitively derives from
satisfies the check. -/
def isDerivedFrom (decl : CXXRecordDecl) (check : BaseDecl → Bool) : Bool :=
  decl.ancestors.any check

/-- The check `inheritsPluginClassCheck`: the class is `FilteringPlugin` or
`FilteringRewritePlugin` of namespace `loplugin` of the global namespace
(`DeclCheck( decl ).Class( n ).Namespace( "loplugin" ).GlobalNamespace()`: a
class named `n` directly inside a namespace `loplugin` that is directly inside
the global namespace). -/
def inheritsPluginClassCheck (decl : BaseDecl) : Bool :=
  (decl.name == "FilteringPlugin" && decl.namespaces == ["loplugin"])
    || (decl.name == "FilteringRewritePlugin" && decl.namespaces == ["loplugin"])

/-- One turn of the loop over `decl->methods()` (the loop body). -/
def scanMethod (className : String) (method : CXXMethodDecl) (s : State) :
    Except State State :=
  if !method.isIdentifier then .ok s
  else if method.isStatic || method.access != AccessSpecifier.AS_public then .ok s
  else if startswith method.name "Visit" then
    if method.getNumParams = 1 then
      .ok { s with cout := s.cout ++
        [ "VisitFunctionStart",
          "VisitFunctionName:" ++ method.name,
          "VisitFunctionArgument:" ++ method.getParamType 0,
          "VisitFunctionEnd" ] }
    else
      .error { s with cerr := s.cerr ++
        [ "Unhandled Visit* function: " ++ className ++ "::" ++ method.name ] }
  else if startswith method.name "Traverse" then
    if method.getNumParams = 1 then
      let r := findOrCreateTraverseFunctionInfo method.name s.traverseFunctions
      let traverseInfo := { r.1 with argument := method.getParamType 0 }
      .ok { s with traverseFunctions := TraverseSet.insert traverseInfo r.2 }
    else
      .error { s with cerr := s.cerr ++
        [ "Unhandled Traverse* function: " ++ className ++ "::" ++ method.name ] }
  else if startswith method.name "PreTraverse" then
    let r := findOrCreateTraverseFunctionInfo (substr method.name 3) s.traverseFunctions
    let traverseInfo := { r.1 with hasPre := true }
    .ok { s with traverseFunctions := TraverseSet.insert traverseInfo r.2 }
  else if startswith method.name "PostTraverse" then
    let r := findOrCreateTraverseFunctionInfo (substr method.name 4) s.traverseFunctions
    let traverseInfo := { r.1 with hasPost := true }
    .ok { s with traverseFunctions := TraverseSet.insert traverseInfo r.2 }
  else if method.name = "shouldVisitTemplateInstantiations" then
    .ok { s with cout := s.cout ++ [ "ShouldVisitTemplateInstantiations:1" ] }
  else if method.name = "shouldVisitImplicitCode" then
    .ok { s with cout := s.cout ++ [ "ShouldVisitImplicitCode:1" ] }
  else if startswith method.name "WalkUp" then
    .error { s with cerr := s.cerr ++
      [ "WalkUp function not supported for shared visitor: " ++ className ++ "::"
          ++ method.name ] }
  else .ok s

/-- The loop `for( const CXXMethodDecl* method : decl->methods())`: the
methods are taken in declaration order, an abort ends the scan. -/
def scanMethods (className : String) : List CXXMethodDecl → State → Except State State
  | [], s => .ok s
  | method :: rest, s =>
    match scanMethod className method s with
    | .ok s1 => scanMethods className rest s1
    | .error s1 => .error s1

/-- The lines of one traverse block, written for one element of the merge
set. -/
def traverseBlock (traverseFunction : TraverseFunctionInfo) : List String :=
  [ "TraverseFunctionStart",
    "TraverseFunctionName:" ++ traverseFunction.name,
    "TraverseFunctionArgument:" ++ traverseFunction.argument,
    "TraverseFunctionHasPre:" ++ boolDigit traverseFunction.hasPre,
    "TraverseFunctionHasPost:" ++ boolDigit traverseFunction.hasPost,
    "TraverseFunctionEnd" ]

/-- The loop `for( const auto& traverseFunction : traverseFunctions )`. -/
def emitTraverseFunctions : TraverseSet → List String
  | [] => []
  | traverseFunction :: rest => traverseBlock traverseFunction ++ emitTraverseFunctions rest

/-- The visit `CheckFileVisitor::VisitCXXRecordDecl`. A normal return (the source
always returns `true`) is `.ok` with the new state; `abort()` is `.error`. -/
def VisitCXXRecordDecl (decl : CXXRecordDecl) (s : State) : Except State State :=
  if !isDerivedFrom decl inheritsPluginClassCheck then .ok s
  else if decl.name = "FilteringPlugin" ∨ decl.name = "FilteringRewritePlugin" then .ok s
  else
    let s1 : State := { s with cout := s.cout ++
      [ "# This file is autogenerated. Do not modify.",
        "# Generated by compilerplugins/clang/sharedvisitor/analyzer.cxx .",
        "InfoVersion:1",
        "ClassName:" ++ decl.name ] }
    let s2 : State := { s1 with traverseFunctions := [] }
    match scanMethods decl.name decl.methods s2 with
    | .error s3 => .error s3
    | .ok s3 =>
      let s4 : State := { s3 with cout := s3.cout ++ emitTraverseFunctions s3.traverseFunctions }
      let s5 : State := { s4 with cout := s4.cout ++ [ "InfoEnd" ] }
      .ok { s5 with foundSomething := true }

/-! ## Vocabulary of the claims -/

/-- A method the loop does not skip: named by a plain identifier, not static,
public. -/
def eligible (m : CXXMethodDecl) : Bool :=
  m.isIdentifier && !m.isStatic && decide (m.access = AccessSpecifier.AS_public)

/-- A method on which the loop aborts: eligible, and a `Visit*` or `Traverse*`
method whose parameter count is not 1, or a `WalkUp*` method. -/
def isFatal (m : CXXMethodDecl) : Bool :=
  eligible m &&
    ((startswith m.name "Visit" && decide (m.getNumParams ≠ 1))
      || (startswith m.name "Traverse" && decide (m.getNumParams ≠ 1))
      || startswith m.name "WalkUp")

/-- The diagnostic written to standard error before the abort on a fatal
method. -/
def fatalMessage (className : String) (m : CXXMethodDecl) : String :=
  if startswith m.name "Visit" then
    "Unhandled Visit* function: " ++ className ++ "::" ++ m.name
  else if startswith m.name "Traverse" then
    "Unhandled Traverse* function: " ++ className ++ "::" ++ m.name
  else "WalkUp function not supported for shared visitor: " ++ className ++ "::" ++ m.name

/-- The lines a method on which the loop does not abort adds to standard
output: a visit block, a flag line, or nothing. -/
def methodLines (m : CXXMethodDecl) : List String :=
  if eligible m then
    if startswith m.name "Visit" then
      [ "VisitFunctionStart",
        "VisitFunctionName:" ++ m.name,
        "VisitFunctionArgument:" ++ m.getParamType 0,
        "VisitFunctionEnd" ]
    else if m.name = "shouldVisitTemplateInstantiations" then
      [ "ShouldVisitTemplateInstantiations:1" ]
    else if m.name = "shouldVisitImplicitCode" then
      [ "ShouldVisitImplicitCode:1" ]
    else []
  else []

/-- Look up or create the record named `n`, change it with `f`, put it
back. -/
def upsert (n : String) (f : TraverseFunctionInfo → TraverseFunctionInfo)
    (tf : TraverseSet) : TraverseSet :=
  TraverseSet.insert (f (findOrCreateTraverseFunctionInfo n tf).1)
    (findOrCreateTraverseFunctionInfo n tf).2

/-- What a method on which the loop does not abort does to the merge set. -/
def mergeMethod (m : CXXMethodDecl) (tf : TraverseSet) : TraverseSet :=
  if eligible m then
    if startswith m.name "Traverse" then
      upsert m.name (fun r => { r with argument := m.getParamType 0 }) tf
    else if startswith m.name "PreTraverse" then
      upsert (substr m.name 3) (fun r => { r with hasPre := true }) tf
    else if startswith m.name "PostTraverse" then
      upsert (substr m.name 4) (fun r => { r with hasPost := true }) tf
    else tf
  else tf

/-- The merge set after the methods `ms`, starting from `tf`. -/
def mergeMethods (ms : List CXXMethodDecl) (tf : TraverseSet) : TraverseSet :=
  ms.foldl (fun acc m => mergeMethod m acc) tf

/-- The name starts with `Traverse`, `PreTraverse` or `PostTraverse`. -/
def isTraverseName (n : String) : Bool :=
  startswith n "Traverse" || startswith n "PreTraverse" || startswith n "PostTraverse"

/-- Canonical traverse name: the name without a leading `Pre` (3 characters)
of `PreTraverse...` or `Post` (4 characters) of `PostTraverse...`. -/
def canonicalName (n : String) : String :=
  if startswith n "PreTraverse" then substr n 3
  else if startswith n "PostTraverse" then substr n 4
  else n

/-- Parameter type of the last eligible method named `N` in declaration
order, the empty string if there is none. -/
def lastArgument (ms : List CXXMethodDecl) (N : String) : String :=
  (((ms.filter (fun m => eligible m && decide (m.name = N))).getLast?).map
    (fun m => m.getParamType 0)).getD ""

/-- The record the claims expect under the canonical name `N`. -/
def expectedRecord (ms : List CXXMethodDecl) (N : String) : TraverseFunctionInfo :=
  { name := N,
    argument := lastArgument ms N,
    hasPre := ms.any (fun m => eligible m && decide (m.name = "Pre" ++ N)),
    hasPost := ms.any (fun m => eligible m && decide (m.name = "Post" ++ N)) }

/-- The canonical names of the eligible methods whose names start with
`Traverse`, `PreTraverse` or `PostTraverse`, in declaration order. -/
def canonicalNames (ms : List CXXMethodDecl) : List String :=
  (ms.filter (fun m => eligible m && isTraverseName m.name)).map (fun m => canonicalName m.name)

/-- The merge set holds, in strictly increasing order of name, exactly the
expected records of the canonical names of `ms`. -/
def MergeInv (ms : List CXXMethodDecl) (tf : TraverseSet) : Prop :=
  tf.Pairwise TraverseFunctionInfoLess ∧
    ∀ r, r ∈ tf ↔ r.name ∈ canonicalNames ms ∧ r = expectedRecord ms r.name

/-- Plugin class (spec 4.2): the ancestor query reports a recognized base, and
the class is not named as one of the two bases. -/
def isPluginClass (decl : CXXRecordDecl) : Bool :=
  isDerivedFrom decl inheritsPluginClassCheck
    && decide (decl.name ≠ "FilteringPlugin") && decide (decl.name ≠ "FilteringRewritePlugin")

/-- A name none of the branches of the loop reacts to. -/
def unknownName (n : String) : Bool :=
  !startswith n "Visit" && !startswith n "Traverse" && !startswith n "PreTraverse"
    && !startswith n "PostTraverse" && !startswith n "WalkUp"
    && decide (n ≠ "shouldVisitTemplateInstantiations")
    && decide (n ≠ "shouldVisitImplicitCode")

/-- The lines written to standard output between the states `s` and `s1`. -/
def emitted (s s1 : State) : List String := s1.cout.drop s.cout.length

/-- The four lines that open the record of a class. -/
def headerLines (className : String) : List String :=
  [ "# This file is autogenerated. Do not modify.",
    "# Generated by compilerplugins/clang/sharedvisitor/analyzer.cxx .",
    "InfoVersion:1",
    "ClassName:" ++ className ]

/-- A public, non-static method named by the identifier `n`, with the
parameter types `ps`. -/
def publicMethod (n : String) (ps : List String) : CXXMethodDecl :=
  { name := n, isIdentifier := true, isStatic := false, access := AccessSpecifier.AS_public,
    params := ps }

/-- A state with nothing written yet. -/
def initialState : State :=
  { cout := [], cerr := [], traverseFunctions := [], foundSomething := false }

/-- The three traverse methods of the example scenario of the specification,
in its order: `PreTraverseStmt()`, `TraverseStmt(Stmt&)`,
`PostTraverseStmt()`, in a class `Foo` derived from
`loplugin::FilteringPlugin`. -/
def stmtClass : CXXRecordDecl :=
  { name := "Foo", ancestors := [⟨"FilteringPlugin", ["loplugin"]⟩],
    methods := [publicMethod "PreTraverseStmt" [], publicMethod "TraverseStmt" ["Stmt&"],
      publicMethod "PostTraverseStmt" []] }

/-- The state the scan of `stmtClass` ends in, started on `initialState`. -/
def stmtFinal : State :=
  { cout :=
      [ "# This file is autogenerated. Do not modify.",
        "# Generated by compilerplugins/clang/sharedvisitor/analyzer.cxx .",
        "InfoVersion:1",
        "ClassName:Foo",
        "TraverseFunctionStart",
        "TraverseFunctionName:TraverseStmt",
        "TraverseFunctionArgument:Stmt&",
        "TraverseFunctionHasPre:1",
        "TraverseFunctionHasPost:1",
        "TraverseFunctionEnd",
        "InfoEnd" ],
    cerr := [],
    traverseFunctions :=
      [{ name := "TraverseStmt", argument := "Stmt&", hasPre := true, hasPost := true }],
    foundSomething := true }

/-- A plugin class whose only method is a private `WalkUpStmt()`. -/
def privateWalkUpClass : CXXRecordDecl :=
  { name := "Foo", ancestors := [⟨"FilteringPlugin", ["loplugin"]⟩],
    methods := [{ name := "WalkUpStmt", isIdentifier := true, isStatic := false,
                  access := AccessSpecifier.AS_private, params := [] }] }

/-- The example scenario of the specification with a second visit method and
the two flag methods: a class `Foo` derived from `loplugin::FilteringPlugin`
with `VisitDecl(Decl&)`, `shouldVisitImplicitCode()`, `PreTraverseStmt()`,
`TraverseStmt(Stmt&)`, `PostTraverseStmt()`, `VisitStmt(Stmt*)`,
`shouldVisitTemplateInstantiations()`. -/
def scenarioClass : CXXRecordDecl :=
  { name := "Foo", ancestors := [⟨"FilteringPlugin", ["loplugin"]⟩],
    methods := [publicMethod "VisitDecl" ["Decl&"], publicMethod "shouldVisitImplicitCode" [],
      publicMethod "PreTraverseStmt" [], publicMethod "TraverseStmt" ["Stmt&"],
      publicMethod "PostTraverseStmt" [], publicMethod "VisitStmt" ["Stmt*"],
      publicMethod "shouldVisitTemplateInstantiations" []] }

/-- The methods of `scenarioClass` in the reverse order. -/
def scenarioClassReversed : CXXRecordDecl :=
  { scenarioClass with methods := scenarioClass.methods.reverse }

/-- The state a run ended in, normally or by `abort()`. -/
def stateOf : Except State State → State
  | .ok s => s
  | .error s => s

/-- The lines of one visit block, for a method name and a parameter type. -/
def visitBlock (v : String × String) : List String :=
  [ "VisitFunctionStart",
    "VisitFunctionName:" ++ v.1,
    "VisitFunctionArgument:" ++ v.2,
    "VisitFunctionEnd" ]

/-- The fixed field order of the report grammar (spec 4.5 and 6), in the
words of the specification: the header lines with the class name, then at
most one `ShouldVisitTemplateInstantiations:1` line, then at most one
`ShouldVisitImplicitCode:1` line, then visit blocks, then traverse blocks,
then `InfoEnd`. -/
def FixedFieldOrder (className : String) (ls : List String) : Prop :=
  ∃ (t i : List String) (visits : List (String × String)) (travs : List TraverseFunctionInfo),
    (t = [] ∨ t = ["ShouldVisitTemplateInstantiations:1"]) ∧
    (i = [] ∨ i = ["ShouldVisitImplicitCode:1"]) ∧
    ls = headerLines className ++ t ++ i ++ visits.flatMap visitBlock
      ++ emitTraverseFunctions travs ++ ["InfoEnd"]

/-- A plugin class that declares `VisitDecl(Decl&)` and then
`shouldVisitTemplateInstantiations()`. -/
def flagAfterVisitClass : CXXRecordDecl :=
  { name := "Foo", ancestors := [⟨"FilteringPlugin", ["loplugin"]⟩],
    methods := [publicMethod "VisitDecl" ["Decl&"],
      publicMethod "shouldVisitTemplateInstantiations" []] }

/-- The state the scan of `flagAfterVisitClass` ends in, started on
`initialState`. -/
def flagAfterVisitFinal : State :=
  { cout :=
      [ "# This file is autogenerated. Do not modify.",
        "# Generated by compilerplugins/clang/sharedvisitor/analyzer.cxx .",
        "InfoVersion:1",
        "ClassName:Foo",
        "VisitFunctionStart",
        "VisitFunctionName:VisitDecl",
        "VisitFunctionArgument:Decl&",
        "VisitFunctionEnd",
        "ShouldVisitTemplateInstantiations:1",
        "InfoEnd" ],
    cerr := [],
    traverseFunctions := [],
    foundSomething := true }

/-- A class `Foo` derived from `loplugin::FilteringPlugin` whose only method
is a public `WalkUpStmt()`. -/
def walkUpClass : CXXRecordDecl :=
  { name := "Foo", ancestors := [⟨"FilteringPlugin", ["loplugin"]⟩],
    methods := [publicMethod "WalkUpStmt" []] }

/-! ## Reading a report back -/

/-- A traverse block as it stands in the report: the text after each of the
four keys. -/
structure TraverseRecord where
  name : String
  argument : String
  hasPre : String
  hasPost : String
deriving DecidableEq

/-- The visit records of a report, in order: for every `VisitFunctionStart`
line, the texts after `VisitFunctionName:` and `VisitFunctionArgument:` of the
two lines that follow it. -/
def readVisitRecords : List String → List (String × String)
  | [] => []
  | l :: rest =>
    if l = "VisitFunctionStart" then
      match rest with
      | n :: a :: _ :: rest1 =>
        (substr n "VisitFunctionName:".length, substr a "VisitFunctionArgument:".length)
          :: readVisitRecords rest1
      | _ => []
    else readVisitRecords rest

/-- The traverse records of a report, in order: for every
`TraverseFunctionStart` line, the texts after the keys of the four lines that
follow it. -/
def readTraverseRecords : List String → List TraverseRecord
  | [] => []
  | l :: rest =>
    if l = "TraverseFunctionStart" then
      match rest with
      | n :: a :: pre :: post :: _ :: rest1 =>
        { name := substr n "TraverseFunctionName:".length,
          argument := substr a "TraverseFunctionArgument:".length,
          hasPre := substr pre "TraverseFunctionHasPre:".length,
          hasPost := substr post "TraverseFunctionHasPost:".length }
          :: readTraverseRecords rest1
      | _ => []
    else readTraverseRecords rest

/-- How a record of the merge set reads in the report. -/
def TraverseFunctionInfo.asRecord (r : TraverseFunctionInfo) : TraverseRecord :=
  { name := r.name, argument := r.argument,
    hasPre := boolDigit r.hasPre, hasPost := boolDigit r.hasPost }

/-- The state in which the loop over the methods of a plugin class starts:
the four opening lines are written and the merge set is cleared. -/
def loopStart (decl : CXXRecordDecl) (s : State) : State :=
  { s with cout := s.cout ++ headerLines decl.name, traverseFunctions := [] }

/-- A plugin class that declares `TraverseStmt(Stmt&)`, `PreTraverseStmt()`
and then `TraverseStmt(Expr*)`. -/
def overwriteClass : CXXRecordDecl :=
  { name := "Foo", ancestors := [⟨"FilteringPlugin", ["loplugin"]⟩],
    methods := [publicMethod "TraverseStmt" ["Stmt&"], publicMethod "PreTraverseStmt" [],
      publicMethod "TraverseStmt" ["Expr*"]] }

/-- A plugin class that declares `VisitDecl(Decl&)`, `PreTraverseStmt()`, a
`TraverseStmt()` without parameter, and `VisitStmt(Stmt*)`. -/
def abortingClass : CXXRecordDecl :=
  { name := "Foo", ancestors := [⟨"FilteringPlugin", ["loplugin"]⟩],
    methods := [publicMethod "VisitDecl" ["Decl&"], publicMethod "PreTraverseStmt" [],
      publicMethod "TraverseStmt" [], publicMethod "VisitStmt" ["Stmt*"]] }

/-! ## The driver -/

/-- The run ended in `abort()`. -/
def aborted : Except State State → Bool
  | .ok _ => false
  | .error _ => true

/-- What the driver meets for one file argument: its name, whether `ifstream`
can open it, the lines successive `getline` calls yield, whether the stream
is at end of file when `getline` stops (`false`: a read error), and what the
declaration source does with the file: the class declarations on which it
calls the visitor, in encounter order, and the value
`tooling::runToolOnCodeWithArgs` returns. -/
structure SourceFile where
  filename : String
  canOpen : Bool
  lines : List String
  eof : Bool
  classes : List CXXRecordDecl
  toolOk : Bool
deriving DecidableEq

/-- The marker `readSourceFile` looks for at the start of a line. -/
def guardMarker : String := "#ifndef LO_CLANG_SHARED_PLUGINS"

/-- The loop `while( getline( stream, line ))` of `readSourceFile`, on the
pair of `contents` and `hasIfdef`. -/
def readLines : List String → String × Bool → String × Bool
  | [], acc => acc
  | line :: rest, acc =>
    readLines rest
      ((acc.1 ++ line) ++ "\n", if startswith line guardMarker then true else acc.2)

/-- The function `readSourceFile`. The result `.error` is `exit( 1 )`, with
the state at that moment; `.ok` is the returned string. -/
def readSourceFile (f : SourceFile) (s : State) : Except State String :=
  if !f.canOpen then
    .error { s with cerr := s.cerr ++ [ "Failed to open: " ++ f.filename ] }
  else
    let r := readLines f.lines ("", false)
    if f.eof && r.2 then .ok r.1 else .ok ""

/-- The traversal `visitor.TraverseDecl( context.getTranslationUnitDecl())` of
`HandleTranslationUnit`: the visitor is called on every class declaration in
encounter order; every visit returns `true`, so the traversal goes on unless
a visit aborts. -/
def TraverseDecl : List CXXRecordDecl → State → Except State State
  | [], s => .ok s
  | decl :: rest, s =>
    match VisitCXXRecordDecl decl s with
    | .ok s1 => TraverseDecl rest s1
    | .error s1 => .error s1

/-- The call `tooling::runToolOnCodeWithArgs` on the contents of a file: the
declaration source runs the traversal over the classes of the file and
returns its verdict. -/
def runToolOnCodeWithArgs (f : SourceFile) (s : State) : Except State (State × Bool) :=
  match TraverseDecl f.classes s with
  | .ok s1 => .ok (s1, f.toolOk)
  | .error s1 => .error s1

/-- The loop over the file arguments of `main` and its return (the `-arg=`
options ahead of the files only go to the declaration source). The result
`.ok (s, n)` is the end of the process with exit status `n` in state `s`
(`return 0`, `return 2`, or the `exit( 1 )` of `readSourceFile`); `.error` is
`abort()` inside a class scan. -/
def main : List SourceFile → State → Except State (State × Nat)
  | [], s => .ok (s, 0)
  | f :: rest, s =>
    match readSourceFile f s with
    | .error s1 => .ok (s1, 1)
    | .ok contents =>
      if contents = "" then main rest s
      else
        match runToolOnCodeWithArgs f { s with foundSomething := false } with
        | .error s2 => .error s2
        | .ok (s2, ok) =>
          if !ok then
            .ok ({ s2 with cerr := s2.cerr ++ [ "Failed to analyze: " ++ f.filename ] }, 2)
          else if !s2.foundSomething then
            .ok ({ s2 with cerr := s2.cerr ++ [ "Failed to find code: " ++ f.filename ] }, 2)
          else main rest s2

/-- The file can be opened and read to its end. -/
def readable (f : SourceFile) : Bool := f.canOpen && f.eof

/-- Some line of the file begins with the marker. -/
def hasMarker (f : SourceFile) : Bool := f.lines.any (fun l => startswith l guardMarker)

/-- The file passes the gate: it is readable and has the marker. -/
def passesGate (f : SourceFile) : Bool := readable f && hasMarker f

/-- The fatal condition of a file, as an exit status: 1 if it cannot be
opened; 2 if it passes the gate and the declaration source reports failure or
none of its classes is a plugin class; none otherwise. -/
def fileFatal (f : SourceFile) : Option Nat :=
  if !f.canOpen then some 1
  else if passesGate f && (!f.toolOk || !f.classes.any isPluginClass) then some 2
  else none

/-- No class scan of the file aborts: no plugin class of the file has a fatal
method. -/
def noAbort (f : SourceFile) : Prop :=
  ∀ decl ∈ f.classes, isPluginClass decl = true → ∀ m ∈ decl.methods, isFatal m = false

instance (f : SourceFile) : Decidable (noAbort f) :=
  inferInstanceAs (Decidable
    (∀ decl ∈ f.classes, isPluginClass decl = true → ∀ m ∈ decl.methods, isFatal m = false))

/-- The text made of every line followed by a newline. -/
def linesText : List String → String
  | [] => ""
  | line :: rest => (line ++ "\n") ++ linesText rest

/-- A state and another that differ at most in the merge set. -/
def sameButMergeSet (s t : State) : Prop :=
  s.cout = t.cout ∧ s.cerr = t.cerr ∧ s.foundSomething = t.foundSomething

/-- Two results of a class scan that end the same way with the same output,
diagnostics and flag. -/
def sameOutcome : Except State State → Except State State → Prop
  | .ok s, .ok t => sameButMergeSet s t
  | .error s, .error t => sameButMergeSet s t
  | _, _ => False

/-- Two results of a run that end the same way (same exit status, or both by
`abort()`) with the same output, diagnostics and flag. -/
def sameRun : Except State (State × Nat) → Except State (State × Nat) → Prop
  | .ok (s, n), .ok (t, k) => sameButMergeSet s t ∧ n = k
  | .error s, .error t => sameButMergeSet s t
  | _, _ => False

/-- A file with the marker and the class of the example scenario. -/
def pluginFile : SourceFile :=
  { filename := "foo.cxx", canOpen := true,
    lines := ["#ifndef LO_CLANG_SHARED_PLUGINS", "class Foo;", "#endif"], eof := true,
    classes := [scenarioClass], toolOk := true }

/-- A readable file without the marker. -/
def plainFile : SourceFile :=
  { filename := "bar.cxx", canOpen := true, lines := ["#include <vector>", "int x;"],
    eof := true, classes := [], toolOk := true }

/-- A file with the marker in which no class is a plugin class. -/
def emptyPluginFile : SourceFile :=
  { filename := "baz.cxx", canOpen := true,
    lines := ["#ifndef LO_CLANG_SHARED_PLUGINS", "#endif"], eof := true,
    classes := [], toolOk := true }

/-- A file that cannot be opened. -/
def missingFile : SourceFile :=
  { filename := "missing.cxx", canOpen := false, lines := [], eof := false,
    classes := [], toolOk := false }

/-- The run ended in `abort()` inside a class scan. -/
def runAborted : Except State (State × Nat) → Bool
  | .ok _ => false
  | .error _ => true

/-- A file with the marker whose only class is `walkUpClass`, a plugin class
with a public `WalkUpStmt()`. -/
def walkFile : SourceFile :=
  { filename := "walk.cxx", canOpen := true,
    lines := ["#ifndef LO_CLANG_SHARED_PLUGINS", "class Foo;", "#endif"], eof := true,
    classes := [walkUpClass], toolOk := true }

/-- A readable file without the marker whose only class is `walkUpClass`. -/
def walkNoMarkerFile : SourceFile :=
  { filename := "walk2.cxx", canOpen := true, lines := ["class Foo;"], eof := true,
    classes := [walkUpClass], toolOk := true }

/-! ## Strings: prefixes -/

theorem startswith_iff (s p : String) :
    startswith s p = true ↔ ∃ t, s.data = p.data ++ t := by
  unfold startswith
  rw [ List.isPrefixOf_iff_prefix]
  constructor
  · rintro ⟨t, ht⟩; exact ⟨t, ht.symm⟩
  · rintro ⟨t, ht⟩; exact ⟨t, ht.symm⟩

/-- Two prefixes of one string: one is a prefix of the other. -/
theorem startswith_comparable {s p q : String} (hp : startswith s p = true)
    (hq : startswith s q = true) : startswith q p = true ∨ startswith p q = true := by
  simp only [startswith, List.isPrefixOf_iff_prefix] at *
  exact List.prefix_or_prefix_of_prefix hp hq

theorem startswith_excl {s p q : String} (hp : startswith s p = true)
    (hpq : (startswith q p || startswith p q) = false) : startswith s q = false := by
  cases hq : startswith s q with
  | false => rfl
  | true =>
    rcases startswith_comparable hp hq with h | h <;> simp [h] at hpq

theorem ne_of_startswith {n p c : String} (h : startswith n p = true)
    (hc : startswith c p = false) : n ≠ c := by
  intro e; rw [e, hc] at h; cases h

/-! ## The loop body as a function of the method -/

theorem scanMethod_eq (className : String) (m : CXXMethodDecl) (s : State) :
    scanMethod className m s =
      if isFatal m then
        .error { s with cerr := s.cerr ++ [fatalMessage className m] }
      else
        .ok { s with cout := s.cout ++ methodLines m,
                     traverseFunctions := mergeMethod m s.traverseFunctions } := by
  by_cases hE : eligible m = true
  swap
  · have hE1 : eligible m = false := by simpa using hE
    have : (!m.isIdentifier) = true ∨ (m.isStatic || m.access != AccessSpecifier.AS_public) = true := by
      unfold eligible at hE1
      cases h1 : m.isIdentifier <;> cases h2 : m.isStatic <;>
        by_cases h3 : m.access = AccessSpecifier.AS_public <;> simp_all
    rcases this with h | h
    · simp [scanMethod, isFatal, methodLines, mergeMethod, hE1, h]
    · by_cases h1 : (!m.isIdentifier) = true
      · simp [scanMethod, isFatal, methodLines, mergeMethod, hE1, h1]
      · simp [scanMethod, isFatal, methodLines, mergeMethod, hE1, h1, h]
  · have h1 : (!m.isIdentifier) = false := by
      unfold eligible at hE; cases h1 : m.isIdentifier <;> simp_all
    have h2 : (m.isStatic || m.access != AccessSpecifier.AS_public) = false := by
      unfold eligible at hE
      cases h2 : m.isStatic <;> by_cases h3 : m.access = AccessSpecifier.AS_public <;> simp_all
    by_cases hV : startswith m.name "Visit" = true
    · have hT := startswith_excl (q := "Traverse") hV (by decide)
      have hW := startswith_excl (q := "WalkUp") hV (by decide)
      have hP := startswith_excl (q := "PreTraverse") hV (by decide)
      have hQ := startswith_excl (q := "PostTraverse") hV (by decide)
      have n1 : m.name ≠ "shouldVisitTemplateInstantiations" := by
        intro h; rw [h] at hV; revert hV; decide
      have n2 : m.name ≠ "shouldVisitImplicitCode" := by
        intro h; rw [h] at hV; revert hV; decide
      by_cases hN : m.getNumParams = 1 <;>
        simp [scanMethod, isFatal, methodLines, mergeMethod, fatalMessage, hE, h1, h2, hV, hT, hW,
          hP, hQ, hN]
    · have hV1 : startswith m.name "Visit" = false := by simpa using hV
      by_cases hT : startswith m.name "Traverse" = true
      · have hW := startswith_excl (q := "WalkUp") hT (by decide)
        have n1 : m.name ≠ "shouldVisitTemplateInstantiations" := ne_of_startswith hT (by decide)
        have n2 : m.name ≠ "shouldVisitImplicitCode" := ne_of_startswith hT (by decide)
        by_cases hN : m.getNumParams = 1 <;>
          simp [scanMethod, isFatal, methodLines, mergeMethod, fatalMessage, upsert, hE, h1, h2,
            hV1, hT, hW, hN, n1, n2]
      · have hT1 : startswith m.name "Traverse" = false := by simpa using hT
        by_cases hP : startswith m.name "PreTraverse" = true
        · have hW := startswith_excl (q := "WalkUp") hP (by decide)
          have n1 : m.name ≠ "shouldVisitTemplateInstantiations" := ne_of_startswith hP (by decide)
          have n2 : m.name ≠ "shouldVisitImplicitCode" := ne_of_startswith hP (by decide)
          simp [scanMethod, isFatal, methodLines, mergeMethod, fatalMessage, upsert, hE, h1, h2,
            hV1, hT1, hP, hW, n1, n2]
        · have hP1 : startswith m.name "PreTraverse" = false := by simpa using hP
          by_cases hQ : startswith m.name "PostTraverse" = true
          · have hW := startswith_excl (q := "WalkUp") hQ (by decide)
            have n1 : m.name ≠ "shouldVisitTemplateInstantiations" :=
              ne_of_startswith hQ (by decide)
            have n2 : m.name ≠ "shouldVisitImplicitCode" := ne_of_startswith hQ (by decide)
            simp [scanMethod, isFatal, methodLines, mergeMethod, fatalMessage, upsert, hE, h1, h2,
              hV1, hT1, hP1, hQ, hW, n1, n2]
          · have hQ1 : startswith m.name "PostTraverse" = false := by simpa using hQ
            by_cases n1 : m.name = "shouldVisitTemplateInstantiations"
            · have hW : startswith m.name "WalkUp" = false := by rw [n1]; decide
              rw [n1] at hV1 hT1 hP1 hQ1 hW
              simp [scanMethod, isFatal, methodLines, mergeMethod, fatalMessage, hE, h1, h2,
                hV1, hT1, hP1, hQ1, hW, n1]
            · by_cases n2 : m.name = "shouldVisitImplicitCode"
              · have hW : startswith m.name "WalkUp" = false := by rw [n2]; decide
                rw [n2] at hV1 hT1 hP1 hQ1 hW
                simp [scanMethod, isFatal, methodLines, mergeMethod, fatalMessage, hE, h1, h2,
                  hV1, hT1, hP1, hQ1, hW, n2]
              · by_cases hW : startswith m.name "WalkUp" = true <;>
                  simp [scanMethod, isFatal, methodLines, mergeMethod, fatalMessage, hE, h1, h2,
                    hV1, hT1, hP1, hQ1, hW, n1, n2]

/-! ## The loop as a function of the method list -/

theorem scanMethods_ok (className : String) (ms : List CXXMethodDecl) (s : State)
    (h : ∀ m ∈ ms, isFatal m = false) :
    scanMethods className ms s =
      .ok { s with cout := s.cout ++ ms.flatMap methodLines,
                   traverseFunctions := mergeMethods ms s.traverseFunctions } := by
  induction ms generalizing s with
  | nil => simp [scanMethods, mergeMethods]
  | cons m rest ih =>
    have hm : isFatal m = false := h m (List.mem_cons_self _ _)
    have hr : ∀ x ∈ rest, isFatal x = false := fun x hx => h x (List.mem_cons_of_mem _ hx)
    simp only [scanMethods, scanMethod_eq, hm]
    simp [ih _ hr, mergeMethods, List.append_assoc]

theorem scanMethods_abort (className : String) (ms1 : List CXXMethodDecl) (m : CXXMethodDecl)
    (ms2 : List CXXMethodDecl) (s : State)
    (h : ∀ x ∈ ms1, isFatal x = false) (hm : isFatal m = true) :
    scanMethods className (ms1 ++ m :: ms2) s =
      .error { s with cout := s.cout ++ ms1.flatMap methodLines,
                      cerr := s.cerr ++ [fatalMessage className m],
                      traverseFunctions := mergeMethods ms1 s.traverseFunctions } := by
  induction ms1 generalizing s with
  | nil => simp [scanMethods, scanMethod_eq, hm, mergeMethods]
  | cons x rest ih =>
    have hx : isFatal x = false := h x (List.mem_cons_self _ _)
    have hr : ∀ y ∈ rest, isFatal y = false := fun y hy => h y (List.mem_cons_of_mem _ hy)
    simp only [List.cons_append, scanMethods, scanMethod_eq, hx]
    simp [ih _ hr, mergeMethods, List.append_assoc]

/-- A list with a fatal method splits at its first fatal method. -/
theorem exists_first_fatal (ms : List CXXMethodDecl) (h : ∃ m ∈ ms, isFatal m = true) :
    ∃ ms1 m ms2, ms = ms1 ++ m :: ms2 ∧ (∀ x ∈ ms1, isFatal x = false) ∧ isFatal m = true := by
  induction ms with
  | nil => obtain ⟨m, hm, _⟩ := h; cases hm
  | cons x rest ih =>
    cases hx : isFatal x with
    | true => exact ⟨[], x, rest, rfl, by simp, hx⟩
    | false =>
      have : ∃ m ∈ rest, isFatal m = true := by
        obtain ⟨m, hm, hf⟩ := h
        rcases List.mem_cons.1 hm with e | e
        · subst e; rw [hx] at hf; cases hf
        · exact ⟨m, e, hf⟩
      obtain ⟨ms1, m, ms2, e, h1, h2⟩ := ih this
      refine ⟨x :: ms1, m, ms2, by simp [e], ?_, h2⟩
      intro y hy
      rcases List.mem_cons.1 hy with e1 | e1
      · subst e1; exact hx
      · exact h1 y e1

/-- The loop aborts exactly when some method is fatal. -/
theorem scanMethods_error_iff (className : String) (ms : List CXXMethodDecl) (s : State) :
    (∃ s1, scanMethods className ms s = .error s1) ↔ ∃ m ∈ ms, isFatal m = true := by
  constructor
  · rintro ⟨s1, h1⟩
    by_contra hne
    have : ∀ m ∈ ms, isFatal m = false := by
      intro m hm
      cases hf : isFatal m with
      | false => rfl
      | true => exact absurd ⟨m, hm, hf⟩ hne
    rw [scanMethods_ok className ms s this] at h1
    cases h1
  · intro h
    obtain ⟨ms1, m, ms2, e, h1, h2⟩ := exists_first_fatal ms h
    exact ⟨_, by rw [e]; exact scanMethods_abort className ms1 m ms2 s h1 h2⟩

/-! ## The merge set: order and membership -/

theorem less_iff (x y : TraverseFunctionInfo) : TraverseFunctionInfoLess x y ↔ x.name < y.name :=
  Iff.rfl

theorem equivalent_iff (x y : TraverseFunctionInfo) :
    (¬ TraverseFunctionInfoLess x y ∧ ¬ TraverseFunctionInfoLess y x) ↔ x.name = y.name := by
  simp only [less_iff]
  constructor
  · rintro ⟨h1, h2⟩
    rcases lt_trichotomy x.name y.name with h | h | h
    · exact absurd h h1
    · exact h
    · exact absurd h h2
  · intro h; rw [h]; exact ⟨lt_irrefl _, lt_irrefl _⟩

theorem find_some {x y : TraverseFunctionInfo} {l : TraverseSet}
    (h : TraverseSet.find x l = some y) : y ∈ l ∧ y.name = x.name := by
  induction l with
  | nil => cases h
  | cons z zs ih =>
    unfold TraverseSet.find at h
    split at h
    · rename_i hz
      cases h
      exact ⟨List.mem_cons_self _ _, ((equivalent_iff _ _).1 hz).symm⟩
    · exact ⟨List.mem_cons_of_mem _ (ih h).1, (ih h).2⟩

theorem find_none {x : TraverseFunctionInfo} {l : TraverseSet}
    (h : TraverseSet.find x l = none) : ∀ y ∈ l, y.name ≠ x.name := by
  induction l with
  | nil => intro y hy; cases hy
  | cons z zs ih =>
    unfold TraverseSet.find at h
    split at h
    · cases h
    · rename_i hz
      intro y hy
      rcases List.mem_cons.1 hy with e | e
      · subst e; intro e2; exact hz ((equivalent_iff _ _).2 e2.symm)
      · exact ih h y e

theorem erase_sublist (x : TraverseFunctionInfo) (l : TraverseSet) :
    List.Sublist (TraverseSet.erase x l) l := by
  induction l with
  | nil => exact List.Sublist.refl _
  | cons z zs ih =>
    unfold TraverseSet.erase
    split
    · exact List.sublist_cons_self _ _
    · exact List.Sublist.cons₂ _ ih

theorem mem_erase {x : TraverseFunctionInfo} {l : TraverseSet}
    (hs : l.Pairwise TraverseFunctionInfoLess) (z : TraverseFunctionInfo) :
    z ∈ TraverseSet.erase x l ↔ z ∈ l ∧ z.name ≠ x.name := by
  induction l with
  | nil => simp [TraverseSet.erase]
  | cons y ys ih =>
    have hy := List.pairwise_cons.1 hs
    unfold TraverseSet.erase
    split
    · rename_i he
      have e : x.name = y.name := (equivalent_iff _ _).1 he
      constructor
      · intro hz
        refine ⟨List.mem_cons_of_mem _ hz, ?_⟩
        have : y.name < z.name := hy.1 z hz
        rw [e]; exact ne_of_gt this
      · rintro ⟨hz, hne⟩
        rcases List.mem_cons.1 hz with e1 | e1
        · subst e1; exact absurd e.symm hne
        · exact e1
    · rename_i he
      have e : x.name ≠ y.name := fun e => he ((equivalent_iff _ _).2 e)
      rw [List.mem_cons, ih hy.2, List.mem_cons]
      constructor
      · rintro (h | ⟨h1, h2⟩)
        · subst h; exact ⟨Or.inl rfl, fun e1 => e e1.symm⟩
        · exact ⟨Or.inr h1, h2⟩
      · rintro ⟨h | h, h2⟩
        · exact Or.inl h
        · exact Or.inr ⟨h, h2⟩

theorem mem_insert {x : TraverseFunctionInfo} {l : TraverseSet}
    (hx : ∀ y ∈ l, y.name ≠ x.name) (z : TraverseFunctionInfo) :
    z ∈ TraverseSet.insert x l ↔ z = x ∨ z ∈ l := by
  induction l with
  | nil => simp [TraverseSet.insert]
  | cons y ys ih =>
    have hys : ∀ w ∈ ys, w.name ≠ x.name := fun w hw => hx w (List.mem_cons_of_mem _ hw)
    unfold TraverseSet.insert
    split
    · simp
    · split
      · rw [List.mem_cons, ih hys, List.mem_cons]
        constructor
        · rintro (h | h | h)
          · exact Or.inr (Or.inl h)
          · exact Or.inl h
          · exact Or.inr (Or.inr h)
        · rintro (h | h | h)
          · exact Or.inr (Or.inl h)
          · exact Or.inl h
          · exact Or.inr (Or.inr h)
      · rename_i h1 h2
        exact absurd ((equivalent_iff _ _).1 ⟨h1, h2⟩).symm (hx y (List.mem_cons_self _ _))

theorem insert_sorted {x : TraverseFunctionInfo} {l : TraverseSet}
    (hs : l.Pairwise TraverseFunctionInfoLess) (hx : ∀ y ∈ l, y.name ≠ x.name) :
    (TraverseSet.insert x l).Pairwise TraverseFunctionInfoLess := by
  induction l with
  | nil => simp [TraverseSet.insert]
  | cons y ys ih =>
    have hy := List.pairwise_cons.1 hs
    have hys : ∀ w ∈ ys, w.name ≠ x.name := fun w hw => hx w (List.mem_cons_of_mem _ hw)
    unfold TraverseSet.insert
    split
    · rename_i h1
      refine List.pairwise_cons.2 ⟨?_, hs⟩
      intro w hw
      rcases List.mem_cons.1 hw with e | e
      · subst e; exact h1
      · exact lt_trans ((less_iff _ _).1 h1) (hy.1 w e)
    · split
      · rename_i h1 h2
        refine List.pairwise_cons.2 ⟨?_, ih hy.2 hys⟩
        intro w hw
        rcases (mem_insert hys w).1 hw with e | e
        · subst e; exact h2
        · exact hy.1 w e
      · exact hs

theorem findOrCreate_none {n : String} {tf : TraverseSet}
    (h : TraverseSet.find { name := n } tf = none) :
    findOrCreateTraverseFunctionInfo n tf = ({ name := n }, tf) := by
  simp [findOrCreateTraverseFunctionInfo, h]

theorem findOrCreate_some {n : String} {tf : TraverseSet} {y : TraverseFunctionInfo}
    (h : TraverseSet.find { name := n } tf = some y) :
    findOrCreateTraverseFunctionInfo n tf = (y, TraverseSet.erase y tf) := by
  simp [findOrCreateTraverseFunctionInfo, h]

theorem mem_upsert {n : String} {f : TraverseFunctionInfo → TraverseFunctionInfo}
    {tf : TraverseSet} (hs : tf.Pairwise TraverseFunctionInfoLess)
    (hf : ∀ r, (f r).name = r.name) (z : TraverseFunctionInfo) :
    z ∈ upsert n f tf ↔
      (z ∈ tf ∧ z.name ≠ n) ∨
        z = f ((TraverseSet.find { name := n } tf).getD { name := n }) := by
  unfold upsert
  cases hfind : TraverseSet.find { name := n } tf with
  | none =>
    rw [findOrCreate_none hfind]
    have habs : ∀ y ∈ tf, y.name ≠ n := find_none hfind
    have habs1 : ∀ y ∈ tf, y.name ≠ (f { name := n }).name := by
      intro y hy; rw [hf]; exact habs y hy
    simp only [Option.getD_none]
    rw [mem_insert habs1]
    constructor
    · rintro (h | h)
      · exact Or.inr h
      · exact Or.inl ⟨h, habs z h⟩
    · rintro (h | h)
      · exact Or.inr h.1
      · exact Or.inl h
  | some y =>
    rw [findOrCreate_some hfind]
    have hy := find_some hfind
    have hyn : y.name = n := hy.2
    have habs1 : ∀ w ∈ TraverseSet.erase y tf, w.name ≠ (f y).name := by
      intro w hw; rw [hf]; exact ((mem_erase hs w).1 hw).2
    simp only [Option.getD_some]
    rw [mem_insert habs1, mem_erase hs, hyn]
    constructor
    · rintro (h | h)
      · exact Or.inr h
      · exact Or.inl h
    · rintro (h | h)
      · exact Or.inr h
      · exact Or.inl h

theorem upsert_sorted {n : String} {f : TraverseFunctionInfo → TraverseFunctionInfo}
    {tf : TraverseSet} (hs : tf.Pairwise TraverseFunctionInfoLess)
    (hf : ∀ r, (f r).name = r.name) :
    (upsert n f tf).Pairwise TraverseFunctionInfoLess := by
  unfold upsert
  cases hfind : TraverseSet.find { name := n } tf with
  | none =>
    rw [findOrCreate_none hfind]
    have habs1 : ∀ y ∈ tf, y.name ≠ (f { name := n }).name := by
      intro y hy; rw [hf]; exact find_none hfind y hy
    exact insert_sorted hs habs1
  | some y =>
    rw [findOrCreate_some hfind]
    have habs1 : ∀ w ∈ TraverseSet.erase y tf, w.name ≠ (f y).name := by
      intro w hw; rw [hf]; exact ((mem_erase hs w).1 hw).2
    exact insert_sorted (hs.sublist (erase_sublist y tf)) habs1

/-! ## Strings: cutting a prefix off -/

theorem substr_append (a x : String) : substr (a ++ x) a.length = x := by
  unfold substr
  apply String.ext
  rw [← String.length_data, String.data_append]
  simp

theorem append_right_cancel {a x y : String} (h : a ++ x = a ++ y) : x = y := by
  have := congrArg (fun t => substr t a.length) h
  simpa [substr_append] using this

theorem startswith_append {a b x : String} (h : startswith x b = true) :
    startswith (a ++ x) (a ++ b) = true := by
  obtain ⟨t, ht⟩ := (startswith_iff _ _).1 h
  exact (startswith_iff _ _).2 ⟨t, by simp [ht]⟩

/-- A string that starts with `a ++ b` is `a` followed by a string that starts
with `b`. -/
theorem cut_split {a b n : String} (h : startswith n (a ++ b) = true) :
    n = a ++ substr n a.length ∧ startswith (substr n a.length) b = true := by
  obtain ⟨t, ht⟩ := (startswith_iff _ _).1 h
  have hd : (substr n a.length).data = b.data ++ t := by
    rw [← String.length_data]
    simp [substr, ht]
  constructor
  · apply String.ext
    rw [String.data_append, hd, ht, String.data_append, List.append_assoc]
  · exact (startswith_iff _ _).2 ⟨t, hd⟩

theorem pre_split {n : String} (h : startswith n "PreTraverse" = true) :
    n = "Pre" ++ substr n 3 ∧ startswith (substr n 3) "Traverse" = true :=
  cut_split (a := "Pre") (b := "Traverse") h

theorem post_split {n : String} (h : startswith n "PostTraverse" = true) :
    n = "Post" ++ substr n 4 ∧ startswith (substr n 4) "Traverse" = true :=
  cut_split (a := "Post") (b := "Traverse") h

theorem startswith_pre {N : String} (h : startswith N "Traverse" = true) :
    startswith ("Pre" ++ N) "PreTraverse" = true :=
  startswith_append (a := "Pre") h

theorem startswith_post {N : String} (h : startswith N "Traverse" = true) :
    startswith ("Post" ++ N) "PostTraverse" = true :=
  startswith_append (a := "Post") h

/-! ## Canonical names -/

theorem canonicalName_of_traverse {n : String} (h : startswith n "Traverse" = true) :
    canonicalName n = n := by
  have h1 := startswith_excl (q := "PreTraverse") h (by decide)
  have h2 := startswith_excl (q := "PostTraverse") h (by decide)
  simp [canonicalName, h1, h2]

theorem canonicalName_of_pre {n : String} (h : startswith n "PreTraverse" = true) :
    canonicalName n = substr n 3 := by
  simp [canonicalName, h]

theorem canonicalName_of_post {n : String} (h : startswith n "PostTraverse" = true) :
    canonicalName n = substr n 4 := by
  have h1 := startswith_excl (q := "PreTraverse") h (by decide)
  simp [canonicalName, h, h1]

/-- The three shapes of a traverse name, told apart by the name itself. -/
theorem traverse_kinds {n : String} (h : isTraverseName n = true) :
    startswith (canonicalName n) "Traverse" = true ∧
      ((startswith n "Traverse" = true ∧ n = canonicalName n) ∨
        (startswith n "Traverse" = false ∧ startswith n "PreTraverse" = true
          ∧ n = "Pre" ++ canonicalName n) ∨
        (startswith n "Traverse" = false ∧ startswith n "PreTraverse" = false
          ∧ startswith n "PostTraverse" = true ∧ n = "Post" ++ canonicalName n)) := by
  unfold isTraverseName at h
  by_cases hT : startswith n "Traverse" = true
  · rw [canonicalName_of_traverse hT]
    exact ⟨hT, Or.inl ⟨hT, rfl⟩⟩
  · have hT1 : startswith n "Traverse" = false := by simpa using hT
    by_cases hP : startswith n "PreTraverse" = true
    · rw [canonicalName_of_pre hP]
      exact ⟨(pre_split hP).2, Or.inr (Or.inl ⟨hT1, hP, (pre_split hP).1⟩)⟩
    · have hP1 : startswith n "PreTraverse" = false := by simpa using hP
      have hQ : startswith n "PostTraverse" = true := by simpa [hT1, hP1] using h
      rw [canonicalName_of_post hQ]
      exact ⟨(post_split hQ).2, Or.inr (Or.inr ⟨hT1, hP1, hQ, (post_split hQ).1⟩)⟩

theorem canonicalName_pre_append {N : String} (h : startswith N "Traverse" = true) :
    canonicalName ("Pre" ++ N) = N := by
  rw [canonicalName_of_pre (startswith_pre h)]
  exact substr_append "Pre" N

theorem canonicalName_post_append {N : String} (h : startswith N "Traverse" = true) :
    canonicalName ("Post" ++ N) = N := by
  rw [canonicalName_of_post (startswith_post h)]
  exact substr_append "Post" N

theorem mem_canonicalNames (ms : List CXXMethodDecl) (N : String) :
    N ∈ canonicalNames ms ↔
      ∃ m ∈ ms, eligible m = true ∧ isTraverseName m.name = true ∧ canonicalName m.name = N := by
  simp [canonicalNames, List.mem_map, List.mem_filter, and_assoc]

theorem canonicalNames_startswith {ms : List CXXMethodDecl} {N : String}
    (h : N ∈ canonicalNames ms) : startswith N "Traverse" = true := by
  obtain ⟨m, _, _, ht, e⟩ := (mem_canonicalNames ms N).1 h
  rw [← e]
  exact (traverse_kinds ht).1

/-! ### Names that cannot coincide -/

theorem traverse_ne_pre {a b : String} (ha : startswith a "Traverse" = true)
    (hb : startswith b "Traverse" = true) : a ≠ "Pre" ++ b :=
  ne_of_startswith ha (startswith_excl (startswith_pre hb) (by decide))

theorem traverse_ne_post {a b : String} (ha : startswith a "Traverse" = true)
    (hb : startswith b "Traverse" = true) : a ≠ "Post" ++ b :=
  ne_of_startswith ha (startswith_excl (startswith_post hb) (by decide))

theorem pre_ne_post {a b : String} (ha : startswith a "Traverse" = true)
    (hb : startswith b "Traverse" = true) : "Pre" ++ a ≠ "Post" ++ b :=
  ne_of_startswith (startswith_pre ha) (startswith_excl (startswith_post hb) (by decide))

/-! ## Expected records along the declaration order -/

theorem expectedRecord_name (ms : List CXXMethodDecl) (N : String) :
    (expectedRecord ms N).name = N := rfl

theorem expectedRecord_concat (ms : List CXXMethodDecl) (m : CXXMethodDecl) (N : String) :
    expectedRecord (ms ++ [m]) N =
      { name := N,
        argument := if eligible m = true ∧ m.name = N then m.getParamType 0
                    else (expectedRecord ms N).argument,
        hasPre := (expectedRecord ms N).hasPre || (eligible m && decide (m.name = "Pre" ++ N)),
        hasPost := (expectedRecord ms N).hasPost
          || (eligible m && decide (m.name = "Post" ++ N)) } := by
  by_cases h : eligible m = true ∧ m.name = N
  · simp [expectedRecord, lastArgument, List.filter_append, List.getLast?_append, h,
      List.filter_cons]
  · have h1 : (eligible m && decide (m.name = N)) = false := by
      simpa using h
    simp [expectedRecord, lastArgument, List.filter_append, List.getLast?_append, h,
      List.filter_cons, h1]

theorem canonicalNames_concat (ms : List CXXMethodDecl) (m : CXXMethodDecl) (N : String) :
    N ∈ canonicalNames (ms ++ [m]) ↔
      N ∈ canonicalNames ms ∨
        (eligible m = true ∧ isTraverseName m.name = true ∧ canonicalName m.name = N) := by
  simp only [mem_canonicalNames, List.mem_append, List.mem_singleton]
  constructor
  · rintro ⟨x, hx | hx, h⟩
    · exact Or.inl ⟨x, hx, h⟩
    · subst hx; exact Or.inr h
  · rintro (⟨x, hx, h⟩ | h)
    · exact ⟨x, Or.inl hx, h⟩
    · exact ⟨m, Or.inr rfl, h⟩

/-- A name that is not canonical for `ms` has the fresh record as its expected
record. -/
theorem expectedRecord_fresh {ms : List CXXMethodDecl} {N : String}
    (hT : startswith N "Traverse" = true) (h : N ∉ canonicalNames ms) :
    expectedRecord ms N = { name := N } := by
  have key : ∀ m ∈ ms, eligible m = true →
      m.name ≠ N ∧ m.name ≠ "Pre" ++ N ∧ m.name ≠ "Post" ++ N := by
    intro m hm he
    refine ⟨?_, ?_, ?_⟩
    · intro e
      apply h
      refine (mem_canonicalNames ms N).2 ⟨m, hm, he, ?_, ?_⟩
      · simp [isTraverseName, e, hT]
      · rw [e]; exact canonicalName_of_traverse hT
    · intro e
      apply h
      refine (mem_canonicalNames ms N).2 ⟨m, hm, he, ?_, ?_⟩
      · simp [isTraverseName, e, startswith_pre hT]
      · rw [e]; exact canonicalName_pre_append hT
    · intro e
      apply h
      refine (mem_canonicalNames ms N).2 ⟨m, hm, he, ?_, ?_⟩
      · simp [isTraverseName, e, startswith_post hT]
      · rw [e]; exact canonicalName_post_append hT
  have hfil : ms.filter (fun m => eligible m && decide (m.name = N)) = [] := by
    rw [List.filter_eq_nil_iff]
    intro m hm
    by_cases he : eligible m = true
    · simp [he, (key m hm he).1]
    · simp [he]
  have hpre : ms.any (fun m => eligible m && decide (m.name = "Pre" ++ N)) = false := by
    rw [List.any_eq_false]
    intro m hm
    by_cases he : eligible m = true
    · simp [he, (key m hm he).2.1]
    · simp [he]
  have hpost : ms.any (fun m => eligible m && decide (m.name = "Post" ++ N)) = false := by
    rw [List.any_eq_false]
    intro m hm
    by_cases he : eligible m = true
    · simp [he, (key m hm he).2.2]
    · simp [he]
  simp [expectedRecord, lastArgument, hfil, hpre, hpost]

/-! ## The merge set after the loop -/

theorem mergeInv_upsert {ms : List CXXMethodDecl} {m : CXXMethodDecl} {N0 : String}
    {f : TraverseFunctionInfo → TraverseFunctionInfo} {tf : TraverseSet}
    (hT : startswith N0 "Traverse" = true)
    (hf : ∀ r, (f r).name = r.name)
    (hcanon : ∀ N, N ∈ canonicalNames (ms ++ [m]) ↔ N ∈ canonicalNames ms ∨ N = N0)
    (h1 : ∀ N, startswith N "Traverse" = true → N ≠ N0 →
      expectedRecord (ms ++ [m]) N = expectedRecord ms N)
    (h2 : expectedRecord (ms ++ [m]) N0 = f (expectedRecord ms N0))
    (inv : MergeInv ms tf) : MergeInv (ms ++ [m]) (upsert N0 f tf) := by
  obtain ⟨hs, hmem⟩ := inv
  refine ⟨upsert_sorted hs hf, fun z => ?_⟩
  have hold : (TraverseSet.find { name := N0 } tf).getD { name := N0 }
      = expectedRecord ms N0 := by
    cases hfind : TraverseSet.find { name := N0 } tf with
    | none =>
      rw [Option.getD_none]
      symm
      apply expectedRecord_fresh hT
      intro hc
      have hin : expectedRecord ms N0 ∈ tf := (hmem (expectedRecord ms N0)).2 ⟨hc, rfl⟩
      exact find_none hfind _ hin rfl
    | some y =>
      rw [Option.getD_some]
      have hy := find_some hfind
      have hyn : y.name = N0 := hy.2
      have := ((hmem y).1 hy.1).2
      rw [hyn] at this
      exact this
  rw [mem_upsert hs hf, hold, ← h2]
  constructor
  · rintro (⟨hz, hne⟩ | hz)
    · have hz1 := (hmem z).1 hz
      refine ⟨(hcanon _).2 (Or.inl hz1.1), ?_⟩
      rw [h1 _ (canonicalNames_startswith hz1.1) hne]
      exact hz1.2
    · rw [hz]
      exact ⟨(hcanon _).2 (Or.inr rfl), rfl⟩
  · rintro ⟨hc, hz⟩
    by_cases e : z.name = N0
    · right; rw [← e]; exact hz
    · left
      rcases (hcanon _).1 hc with h | h
      · refine ⟨(hmem z).2 ⟨h, ?_⟩, e⟩
        rw [← h1 _ (canonicalNames_startswith h) e]
        exact hz
      · exact absurd h e

theorem mergeInv_step {ms : List CXXMethodDecl} {tf : TraverseSet} (m : CXXMethodDecl)
    (inv : MergeInv ms tf) : MergeInv (ms ++ [m]) (mergeMethod m tf) := by
  by_cases hk : eligible m = true ∧ isTraverseName m.name = true
  · obtain ⟨he, ht⟩ := hk
    obtain ⟨hT0, hkind⟩ := traverse_kinds ht
    have hcanon : ∀ N, N ∈ canonicalNames (ms ++ [m]) ↔
        N ∈ canonicalNames ms ∨ N = canonicalName m.name := by
      intro N
      rw [canonicalNames_concat]
      simp [he, ht, eq_comm]
    obtain ⟨N0, hN0⟩ : ∃ N0, canonicalName m.name = N0 := ⟨_, rfl⟩
    rw [hN0] at hT0 hkind hcanon
    rcases hkind with ⟨hTm, hn⟩ | ⟨hTm, hPm, hn⟩ | ⟨hTm, hPm, hQm, hn⟩
    · have hmm : mergeMethod m tf
          = upsert N0 (fun r => { r with argument := m.getParamType 0 }) tf := by
        have hTm1 := hTm
        rw [hn] at hTm1
        simp [mergeMethod, he, hTm1, hn]
      rw [hmm]
      refine mergeInv_upsert hT0 (fun r => rfl) hcanon ?_ ?_ inv
      · intro N hTN hne
        have e1 : ¬ (N0 = N) := fun e => hne e.symm
        have e2 : ¬ (N0 = "Pre" ++ N) := traverse_ne_pre hT0 hTN
        have e3 : ¬ (N0 = "Post" ++ N) := traverse_ne_post hT0 hTN
        rw [expectedRecord_concat]
        simp [hn, e1, e2, e3]
        rfl
      · have e2 : ¬ (N0 = "Pre" ++ N0) := traverse_ne_pre hT0 hT0
        have e3 : ¬ (N0 = "Post" ++ N0) := traverse_ne_post hT0 hT0
        rw [expectedRecord_concat]
        simp [hn, he, e2, e3]
        rfl
    · have hmm : mergeMethod m tf = upsert N0 (fun r => { r with hasPre := true }) tf := by
        have : substr m.name 3 = N0 := by rw [← canonicalName_of_pre hPm]; exact hN0
        simp [mergeMethod, he, hTm, hPm, this]
      rw [hmm]
      refine mergeInv_upsert hT0 (fun r => rfl) hcanon ?_ ?_ inv
      · intro N hTN hne
        have e1 : ¬ ("Pre" ++ N0 = N) := fun e => traverse_ne_pre hTN hT0 e.symm
        have e2 : ¬ ("Pre" ++ N0 = "Pre" ++ N) := fun e => hne (append_right_cancel e).symm
        have e3 : ¬ ("Pre" ++ N0 = "Post" ++ N) := pre_ne_post hT0 hTN
        rw [expectedRecord_concat]
        simp [hn, e1, e2, e3]
        rfl
      · have e1 : ¬ ("Pre" ++ N0 = N0) := fun e => traverse_ne_pre hT0 hT0 e.symm
        have e3 : ¬ ("Pre" ++ N0 = "Post" ++ N0) := pre_ne_post hT0 hT0
        rw [expectedRecord_concat]
        simp [hn, he, e1, e3]
        rfl
    · have hmm : mergeMethod m tf = upsert N0 (fun r => { r with hasPost := true }) tf := by
        have : substr m.name 4 = N0 := by rw [← canonicalName_of_post hQm]; exact hN0
        simp [mergeMethod, he, hTm, hPm, hQm, this]
      rw [hmm]
      refine mergeInv_upsert hT0 (fun r => rfl) hcanon ?_ ?_ inv
      · intro N hTN hne
        have e1 : ¬ ("Post" ++ N0 = N) := fun e => traverse_ne_post hTN hT0 e.symm
        have e2 : ¬ ("Post" ++ N0 = "Post" ++ N) := fun e => hne (append_right_cancel e).symm
        have e3 : ¬ ("Post" ++ N0 = "Pre" ++ N) := fun e => pre_ne_post hTN hT0 e.symm
        rw [expectedRecord_concat]
        simp [hn, e1, e2, e3]
        rfl
      · have e1 : ¬ ("Post" ++ N0 = N0) := fun e => traverse_ne_post hT0 hT0 e.symm
        have e3 : ¬ ("Post" ++ N0 = "Pre" ++ N0) := fun e => pre_ne_post hT0 hT0 e.symm
        rw [expectedRecord_concat]
        simp [hn, he, e1, e3]
        rfl
  · have hmm : mergeMethod m tf = tf := by
      by_cases he : eligible m = true
      · have ht : isTraverseName m.name = false := by
          cases h : isTraverseName m.name with
          | false => rfl
          | true => exact absurd ⟨he, h⟩ hk
        unfold isTraverseName at ht
        simp only [Bool.or_eq_false_iff] at ht
        simp [mergeMethod, he, ht.1.1, ht.1.2, ht.2]
      · simp [mergeMethod, he]
    have hcanon : ∀ N, N ∈ canonicalNames (ms ++ [m]) ↔ N ∈ canonicalNames ms := by
      intro N
      rw [canonicalNames_concat]
      constructor
      · rintro (h | ⟨h1, h2, _⟩)
        · exact h
        · exact absurd ⟨h1, h2⟩ hk
      · exact Or.inl
    have hexp : ∀ N, startswith N "Traverse" = true →
        expectedRecord (ms ++ [m]) N = expectedRecord ms N := by
      intro N hTN
      have key : eligible m = true →
          m.name ≠ N ∧ m.name ≠ "Pre" ++ N ∧ m.name ≠ "Post" ++ N := by
        intro he
        refine ⟨?_, ?_, ?_⟩ <;> intro e <;> apply hk <;> refine ⟨he, ?_⟩
        · simp [isTraverseName, e, hTN]
        · simp [isTraverseName, e, startswith_pre hTN]
        · simp [isTraverseName, e, startswith_post hTN]
      rw [expectedRecord_concat]
      by_cases he : eligible m = true
      · simp [he, (key he).1, (key he).2.1, (key he).2.2]
        rfl
      · simp [he]
        rfl
    rw [hmm]
    obtain ⟨hs, hmem⟩ := inv
    refine ⟨hs, fun r => ?_⟩
    rw [hmem r, hcanon]
    constructor
    · rintro ⟨h1, h2⟩
      refine ⟨h1, ?_⟩
      rw [hexp _ (canonicalNames_startswith h1)]
      exact h2
    · rintro ⟨h1, h2⟩
      refine ⟨h1, ?_⟩
      rw [← hexp _ (canonicalNames_startswith h1)]
      exact h2

theorem mergeInv_nil : MergeInv [] [] := by
  refine ⟨List.Pairwise.nil, fun r => ?_⟩
  simp [canonicalNames]

theorem mergeMethods_concat (ms : List CXXMethodDecl) (m : CXXMethodDecl) (tf : TraverseSet) :
    mergeMethods (ms ++ [m]) tf = mergeMethod m (mergeMethods ms tf) := by
  simp [mergeMethods, List.foldl_append]

/-- After the loop over `ms`, started on the empty set, the merge set holds
exactly the expected records of the canonical names of `ms`, in increasing
order of name. -/
theorem mergeInv_mergeMethods (ms : List CXXMethodDecl) : MergeInv ms (mergeMethods ms []) := by
  induction ms using List.reverseRecOn with
  | nil => exact mergeInv_nil
  | append_singleton ms m ih =>
    rw [mergeMethods_concat]
    exact mergeInv_step m ih

/-! ## The class scan as a function of the declaration -/

theorem isPluginClass_eq_true (decl : CXXRecordDecl) :
    isPluginClass decl = true ↔
      isDerivedFrom decl inheritsPluginClassCheck = true ∧ decl.name ≠ "FilteringPlugin"
        ∧ decl.name ≠ "FilteringRewritePlugin" := by
  simp [isPluginClass, and_assoc]

theorem visit_not_plugin (decl : CXXRecordDecl) (s : State) (h : isPluginClass decl = false) :
    VisitCXXRecordDecl decl s = .ok s := by
  unfold VisitCXXRecordDecl
  by_cases h1 : isDerivedFrom decl inheritsPluginClassCheck = true
  · by_cases h2 : decl.name = "FilteringPlugin" ∨ decl.name = "FilteringRewritePlugin"
    · simp [h1, h2]
    · exfalso
      have : isPluginClass decl = true := by
        rw [isPluginClass_eq_true]
        exact ⟨h1, fun e => h2 (Or.inl e), fun e => h2 (Or.inr e)⟩
      rw [h] at this; cases this
  · simp [h1]

theorem visit_ok (decl : CXXRecordDecl) (s : State) (h : isPluginClass decl = true)
    (hf : ∀ m ∈ decl.methods, isFatal m = false) :
    VisitCXXRecordDecl decl s =
      .ok { cout := s.cout ++ headerLines decl.name ++ decl.methods.flatMap methodLines
                      ++ emitTraverseFunctions (mergeMethods decl.methods []) ++ ["InfoEnd"],
            cerr := s.cerr,
            traverseFunctions := mergeMethods decl.methods [],
            foundSomething := true } := by
  obtain ⟨h1, h2, h3⟩ := (isPluginClass_eq_true decl).1 h
  unfold VisitCXXRecordDecl
  simp [h1, h2, h3, scanMethods_ok _ _ _ hf, headerLines, List.append_assoc]

theorem visit_abort (decl : CXXRecordDecl) (s : State) (h : isPluginClass decl = true)
    (ms1 : List CXXMethodDecl) (m : CXXMethodDecl) (ms2 : List CXXMethodDecl)
    (e : decl.methods = ms1 ++ m :: ms2)
    (hf : ∀ x ∈ ms1, isFatal x = false) (hm : isFatal m = true) :
    VisitCXXRecordDecl decl s =
      .error { cout := s.cout ++ headerLines decl.name ++ ms1.flatMap methodLines,
               cerr := s.cerr ++ [fatalMessage decl.name m],
               traverseFunctions := mergeMethods ms1 [],
               foundSomething := s.foundSomething } := by
  obtain ⟨h1, h2, h3⟩ := (isPluginClass_eq_true decl).1 h
  unfold VisitCXXRecordDecl
  simp [h1, h2, h3, e, scanMethods_abort _ _ _ _ _ hf hm, headerLines, List.append_assoc]

theorem visit_error_iff (decl : CXXRecordDecl) (s : State) :
    (∃ s1, VisitCXXRecordDecl decl s = .error s1) ↔
      isPluginClass decl = true ∧ ∃ m ∈ decl.methods, isFatal m = true := by
  cases hp : isPluginClass decl with
  | false => simp [visit_not_plugin decl s hp]
  | true =>
    constructor
    · rintro ⟨s1, h1⟩
      refine ⟨rfl, ?_⟩
      by_contra hne
      have : ∀ m ∈ decl.methods, isFatal m = false := by
        intro m hm
        cases hf : isFatal m with
        | false => rfl
        | true => exact absurd ⟨m, hm, hf⟩ hne
      rw [visit_ok decl s hp this] at h1
      cases h1
    · rintro ⟨_, h⟩
      obtain ⟨ms1, m, ms2, e, h1, h2⟩ := exists_first_fatal _ h
      exact ⟨_, visit_abort decl s hp ms1 m ms2 e h1 h2⟩

/-- A scan that returns normally had no fatal method. -/
theorem no_fatal_of_ok {decl : CXXRecordDecl} {s s1 : State}
    (h : VisitCXXRecordDecl decl s = .ok s1) (hp : isPluginClass decl = true) :
    ∀ m ∈ decl.methods, isFatal m = false := by
  intro m hm
  cases hf : isFatal m with
  | false => rfl
  | true =>
    obtain ⟨s2, h2⟩ := (visit_error_iff decl s).2 ⟨hp, m, hm, hf⟩
    rw [h2] at h; cases h

theorem emitted_append (s : State) (s1 : State) (ls : List String)
    (h : s1.cout = s.cout ++ ls) : emitted s s1 = ls := by
  simp [emitted, h]

/-! ## Reading the report back -/

theorem startswith_append_self (a x : String) : startswith (a ++ x) a = true :=
  (startswith_iff _ _).2 ⟨x.data, by simp⟩

theorem key_line_ne {a c : String} (x : String) (h : startswith c a = false) : a ++ x ≠ c :=
  ne_of_startswith (startswith_append_self a x) h

theorem readTraverseRecords_cons_ne (l : String) (rest : List String)
    (h : l ≠ "TraverseFunctionStart") :
    readTraverseRecords (l :: rest) = readTraverseRecords rest := by
  conv_lhs => unfold readTraverseRecords
  simp only [if_neg h]

theorem readTraverseRecords_skip (pre rest : List String)
    (h : ∀ l ∈ pre, l ≠ "TraverseFunctionStart") :
    readTraverseRecords (pre ++ rest) = readTraverseRecords rest := by
  induction pre with
  | nil => rfl
  | cons l ls ih =>
    have hl : l ≠ "TraverseFunctionStart" := h l (List.mem_cons_self _ _)
    have hls : ∀ x ∈ ls, x ≠ "TraverseFunctionStart" :=
      fun x hx => h x (List.mem_cons_of_mem _ hx)
    rw [List.cons_append, readTraverseRecords_cons_ne _ _ hl]
    exact ih hls

theorem readTraverseRecords_block (r : TraverseFunctionInfo) (rest : List String) :
    readTraverseRecords (traverseBlock r ++ rest) = r.asRecord :: readTraverseRecords rest := by
  have e1 := substr_append "TraverseFunctionName:" r.name
  have e2 := substr_append "TraverseFunctionArgument:" r.argument
  have e3 := substr_append "TraverseFunctionHasPre:" (boolDigit r.hasPre)
  have e4 := substr_append "TraverseFunctionHasPost:" (boolDigit r.hasPost)
  simp only [traverseBlock, List.cons_append, List.nil_append, readTraverseRecords, if_true,
    e1, e2, e3, e4, TraverseFunctionInfo.asRecord]
  rfl

theorem readTraverseRecords_emit (tf : TraverseSet) :
    readTraverseRecords (emitTraverseFunctions tf ++ ["InfoEnd"]) = tf.map (·.asRecord) := by
  induction tf with
  | nil => simp [emitTraverseFunctions, readTraverseRecords]
  | cons r rest ih =>
    simp only [emitTraverseFunctions, List.append_assoc, readTraverseRecords_block, ih,
      List.map_cons]

theorem methodLines_ne_traverseStart (m : CXXMethodDecl) :
    ∀ l ∈ methodLines m, l ≠ "TraverseFunctionStart" := by
  intro l hl
  unfold methodLines at hl
  split at hl
  · split at hl
    · simp only [List.mem_cons, List.mem_singleton, List.not_mem_nil, or_false] at hl
      rcases hl with e | e | e | e
      · rw [e]; decide
      · rw [e]; exact key_line_ne _ (by decide)
      · rw [e]; exact key_line_ne _ (by decide)
      · rw [e]; decide
    · split at hl
      · simp only [List.mem_singleton] at hl
        rw [hl]; decide
      · split at hl
        · simp only [List.mem_singleton] at hl
          rw [hl]; decide
        · cases hl
  · cases hl

theorem headerLines_ne_traverseStart (className : String) :
    ∀ l ∈ headerLines className, l ≠ "TraverseFunctionStart" := by
  intro l hl
  simp only [headerLines, List.mem_cons, List.mem_singleton, List.not_mem_nil, or_false] at hl
  rcases hl with e | e | e | e
  · rw [e]; decide
  · rw [e]; decide
  · rw [e]; decide
  · rw [e]; exact key_line_ne _ (by decide)

/-- The traverse records read back from the lines of a finished record are
the records of the merge set, in its order. -/
theorem readTraverseRecords_record (className : String) (ms : List CXXMethodDecl)
    (tf : TraverseSet) :
    readTraverseRecords (headerLines className ++ ms.flatMap methodLines
        ++ emitTraverseFunctions tf ++ ["InfoEnd"]) = tf.map (·.asRecord) := by
  rw [List.append_assoc, readTraverseRecords_skip, readTraverseRecords_emit]
  intro l hl
  rcases List.mem_append.1 hl with h | h
  · exact headerLines_ne_traverseStart className l h
  · obtain ⟨m, _, hm⟩ := List.mem_flatMap.1 h
    exact methodLines_ne_traverseStart m l hm

/-! ## What a normal return leaves behind -/

theorem visit_ok_emitted {decl : CXXRecordDecl} {s s1 : State}
    (hp : isPluginClass decl = true) (h : VisitCXXRecordDecl decl s = .ok s1) :
    emitted s s1 = headerLines decl.name ++ decl.methods.flatMap methodLines
        ++ emitTraverseFunctions (mergeMethods decl.methods []) ++ ["InfoEnd"]
      ∧ s1.cout = s.cout ++ emitted s s1
      ∧ s1.traverseFunctions = mergeMethods decl.methods []
      ∧ s1.foundSomething = true ∧ s1.cerr = s.cerr := by
  have hf := no_fatal_of_ok h hp
  rw [visit_ok decl s hp hf] at h
  cases h
  have e : emitted s
      { cout := s.cout ++ headerLines decl.name ++ decl.methods.flatMap methodLines
                  ++ emitTraverseFunctions (mergeMethods decl.methods []) ++ ["InfoEnd"],
        cerr := s.cerr, traverseFunctions := mergeMethods decl.methods [],
        foundSomething := true }
      = headerLines decl.name ++ decl.methods.flatMap methodLines
        ++ emitTraverseFunctions (mergeMethods decl.methods []) ++ ["InfoEnd"] :=
    emitted_append _ _ _ (by simp [List.append_assoc])
  refine ⟨e, ?_, rfl, rfl, rfl⟩
  rw [e]
  simp [List.append_assoc]

theorem visit_ok_traverseRecords {decl : CXXRecordDecl} {s s1 : State}
    (hp : isPluginClass decl = true) (h : VisitCXXRecordDecl decl s = .ok s1) :
    readTraverseRecords (emitted s s1) = (mergeMethods decl.methods []).map (·.asRecord) := by
  rw [(visit_ok_emitted hp h).1]
  exact readTraverseRecords_record _ _ _

theorem boolDigit_eq_one (b : Bool) : boolDigit b = "1" ↔ b = true := by
  cases b <;> simp [boolDigit]

theorem boolDigit_eq_zero (b : Bool) : boolDigit b = "0" ↔ b = false := by
  cases b <;> simp [boolDigit]

theorem sorted_nodup {tf : TraverseSet} (hs : tf.Pairwise TraverseFunctionInfoLess) :
    (tf.map (·.name)).Nodup := by
  rw [List.Nodup, List.pairwise_map]
  exact hs.imp (fun h => ne_of_lt ((less_iff _ _).1 h))

/-- Two merge sets in increasing order with the same elements are the same
list. -/
theorem sorted_ext {l1 l2 : TraverseSet} (h1 : l1.Pairwise TraverseFunctionInfoLess)
    (h2 : l2.Pairwise TraverseFunctionInfoLess) (h : ∀ r, r ∈ l1 ↔ r ∈ l2) : l1 = l2 := by
  haveI : IsAntisymm TraverseFunctionInfo TraverseFunctionInfoLess :=
    ⟨fun a b hab hba => absurd ((less_iff _ _).1 hba) (lt_asymm ((less_iff _ _).1 hab))⟩
  have n1 : l1.Nodup := (sorted_nodup h1).of_map _
  have n2 : l2.Nodup := (sorted_nodup h2).of_map _
  exact List.eq_of_perm_of_sorted ((List.perm_ext_iff_of_nodup n1 n2).2 h) h1 h2

theorem mem_names_iff (ms : List CXXMethodDecl) (N : String) :
    N ∈ (mergeMethods ms []).map (·.name) ↔ N ∈ canonicalNames ms := by
  have inv := mergeInv_mergeMethods ms
  rw [List.mem_map]
  constructor
  · rintro ⟨r, hr, e⟩
    rw [← e]; exact ((inv.2 r).1 hr).1
  · intro h
    exact ⟨expectedRecord ms N, (inv.2 _).2 ⟨h, rfl⟩, rfl⟩

theorem any_eligible_named (ms : List CXXMethodDecl) (n : String) :
    ms.any (fun m => eligible m && decide (m.name = n)) = true ↔
      ∃ m ∈ ms, eligible m = true ∧ m.name = n := by
  simp [List.any_eq_true]

/-! ## Claims about the traverse records -/

/-- C1. For a plugin class whose scan returns normally, the traverse records
read back from the lines the scan wrote have pairwise distinct names; a name
occurs among them exactly when it is the canonical name of an eligible method
whose name starts with `Traverse`, `PreTraverse` or `PostTraverse`; and the
record of name `N` reads `TraverseFunctionHasPre:1` exactly when an eligible
method named `"Pre" ++ N` exists and `TraverseFunctionHasPre:0` exactly when
none exists, and likewise `TraverseFunctionHasPost` with `"Post" ++ N`. -/
theorem traverse_records_match_canonical_names (decl : CXXRecordDecl) (s s1 : State)
    (hp : isPluginClass decl = true) (h : VisitCXXRecordDecl decl s = .ok s1) :
    s1.cout = s.cout ++ emitted s s1 ∧
    ((readTraverseRecords (emitted s s1)).map (·.name)).Nodup ∧
    (∀ N, N ∈ (readTraverseRecords (emitted s s1)).map (·.name) ↔
      ∃ m ∈ decl.methods, eligible m = true ∧ isTraverseName m.name = true
        ∧ canonicalName m.name = N) ∧
    (∀ r ∈ readTraverseRecords (emitted s s1),
      (r.hasPre = "1" ↔ ∃ m ∈ decl.methods, eligible m = true ∧ m.name = "Pre" ++ r.name) ∧
      (r.hasPre = "0" ↔ ¬ ∃ m ∈ decl.methods, eligible m = true ∧ m.name = "Pre" ++ r.name) ∧
      (r.hasPost = "1" ↔ ∃ m ∈ decl.methods, eligible m = true ∧ m.name = "Post" ++ r.name) ∧
      (r.hasPost = "0" ↔
        ¬ ∃ m ∈ decl.methods, eligible m = true ∧ m.name = "Post" ++ r.name)) := by
  have inv := mergeInv_mergeMethods decl.methods
  have hnames : (readTraverseRecords (emitted s s1)).map (·.name)
      = (mergeMethods decl.methods []).map (·.name) := by
    rw [visit_ok_traverseRecords hp h, List.map_map]
    rfl
  refine ⟨(visit_ok_emitted hp h).2.1, ?_, ?_, ?_⟩
  · rw [hnames]; exact sorted_nodup inv.1
  · intro N
    rw [hnames, mem_names_iff, mem_canonicalNames]
  · intro r hr
    rw [visit_ok_traverseRecords hp h, List.mem_map] at hr
    obtain ⟨x, hx, e⟩ := hr
    have hx2 := ((inv.2 x).1 hx).2
    have hpre : x.hasPre = true ↔
        ∃ m ∈ decl.methods, eligible m = true ∧ m.name = "Pre" ++ x.name := by
      rw [← any_eligible_named]
      conv_lhs => rw [hx2]
      rfl
    have hpost : x.hasPost = true ↔
        ∃ m ∈ decl.methods, eligible m = true ∧ m.name = "Post" ++ x.name := by
      rw [← any_eligible_named]
      conv_lhs => rw [hx2]
      rfl
    subst e
    simp only [TraverseFunctionInfo.asRecord, boolDigit_eq_one, boolDigit_eq_zero]
    refine ⟨hpre, ?_, hpost, ?_⟩
    · rw [← hpre]; simp
    · rw [← hpost]; simp

theorem traverse_records_match_canonical_names_witness :
    isPluginClass stmtClass = true ∧ VisitCXXRecordDecl stmtClass initialState = .ok stmtFinal ∧
      ((readTraverseRecords (emitted initialState stmtFinal)).map (·.name)).Nodup :=
  ⟨by decide, by decide,
    (traverse_records_match_canonical_names stmtClass initialState stmtFinal
      (by decide) (by decide)).2.1⟩

/-- C2, counterexample. For `Foo = "Stmt"` and `X = "Stmt&"` the one traverse
record of the class reads `TraverseFunctionName:TraverseStmt`: its name is the
full method name, not `Stmt`. -/
theorem merged_record_name_counterexample :
    VisitCXXRecordDecl stmtClass initialState = .ok stmtFinal ∧
      readTraverseRecords (emitted initialState stmtFinal)
        = [{ name := "TraverseStmt", argument := "Stmt&", hasPre := "1", hasPost := "1" }] ∧
      readTraverseRecords (emitted initialState stmtFinal)
        ≠ [{ name := "Stmt", argument := "Stmt&", hasPre := "1", hasPost := "1" }] := by
  decide

theorem singleton_of_nodup {α : Type} {l : List α} {a : α} (hn : l.Nodup)
    (h : ∀ x, x ∈ l ↔ x = a) : l = [a] := by
  have : List.Perm l [a] :=
    (List.perm_ext_iff_of_nodup hn (List.nodup_singleton a)).2 (by simpa using h)
  exact List.perm_singleton.1 this

theorem pre_append_assoc (Foo : String) : "PreTraverse" ++ Foo = "Pre" ++ ("Traverse" ++ Foo) := by
  rw [← String.append_assoc]; rfl

theorem post_append_assoc (Foo : String) :
    "PostTraverse" ++ Foo = "Post" ++ ("Traverse" ++ Foo) := by
  rw [← String.append_assoc]; rfl

/-- C2, amended. For every `Foo`, `X` and every plugin class whose eligible
methods are `TraverseFoo(X)`, `PreTraverseFoo(..)` and `PostTraverseFoo(..)`
in any order, the scan returns normally and the traverse records read back
from its lines are the single record of name `TraverseFoo` (the full method
name), argument `X`, `TraverseFunctionHasPre:1`, `TraverseFunctionHasPost:1`. -/
theorem merged_record_any_order (decl : CXXRecordDecl) (s : State) (Foo X : String)
    (psPre psPost : List String) (hp : isPluginClass decl = true)
    (hm : List.Perm (decl.methods.filter eligible)
      [publicMethod ("Traverse" ++ Foo) [X], publicMethod ("PreTraverse" ++ Foo) psPre,
        publicMethod ("PostTraverse" ++ Foo) psPost]) :
    ∃ s1, VisitCXXRecordDecl decl s = .ok s1 ∧
      readTraverseRecords (emitted s s1)
        = [{ name := "Traverse" ++ Foo, argument := X, hasPre := "1", hasPost := "1" }] := by
  have hT : startswith ("Traverse" ++ Foo) "Traverse" = true := startswith_append_self _ _
  have hP : startswith ("PreTraverse" ++ Foo) "PreTraverse" = true := startswith_append_self _ _
  have hQ : startswith ("PostTraverse" ++ Foo) "PostTraverse" = true :=
    startswith_append_self _ _
  have hmem : ∀ m, (m ∈ decl.methods ∧ eligible m = true) ↔
      (m = publicMethod ("Traverse" ++ Foo) [X] ∨ m = publicMethod ("PreTraverse" ++ Foo) psPre
        ∨ m = publicMethod ("PostTraverse" ++ Foo) psPost) := by
    intro m
    rw [← List.mem_filter, hm.mem_iff]
    simp
  have hf : ∀ m ∈ decl.methods, isFatal m = false := by
    intro m hmm
    by_cases he : eligible m = true
    · rcases (hmem m).1 ⟨hmm, he⟩ with e | e | e
      · have h1 := startswith_excl (q := "Visit") hT (by decide)
        have h2 := startswith_excl (q := "WalkUp") hT (by decide)
        rw [e]
        simp [isFatal, publicMethod, h1, h2, CXXMethodDecl.getNumParams]
      · have h1 := startswith_excl (q := "Visit") hP (by decide)
        have h2 := startswith_excl (q := "WalkUp") hP (by decide)
        have h3 := startswith_excl (q := "Traverse") hP (by decide)
        rw [e]
        simp [isFatal, publicMethod, h1, h2, h3]
      · have h1 := startswith_excl (q := "Visit") hQ (by decide)
        have h2 := startswith_excl (q := "WalkUp") hQ (by decide)
        have h3 := startswith_excl (q := "Traverse") hQ (by decide)
        rw [e]
        simp [isFatal, publicMethod, h1, h2, h3]
    · simp [isFatal, he]
  have hok := visit_ok decl s hp hf
  refine ⟨_, hok, ?_⟩
  rw [visit_ok_traverseRecords hp hok]
  have inv := mergeInv_mergeMethods decl.methods
  have hcanon : ∀ N, N ∈ canonicalNames decl.methods ↔ N = "Traverse" ++ Foo := by
    intro N
    rw [mem_canonicalNames]
    constructor
    · rintro ⟨m, hmm, he, _, hc⟩
      rcases (hmem m).1 ⟨hmm, he⟩ with e | e | e
      · rw [← hc, e]; exact canonicalName_of_traverse hT
      · rw [← hc, e]
        show canonicalName ("PreTraverse" ++ Foo) = _
        rw [pre_append_assoc]; exact canonicalName_pre_append hT
      · rw [← hc, e]
        show canonicalName ("PostTraverse" ++ Foo) = _
        rw [post_append_assoc]; exact canonicalName_post_append hT
    · intro e
      refine ⟨publicMethod ("Traverse" ++ Foo) [X],
        ((hmem _).2 (Or.inl rfl)).1, ((hmem _).2 (Or.inl rfl)).2, ?_, ?_⟩
      · simp [isTraverseName, publicMethod, hT]
      · rw [e]; exact canonicalName_of_traverse hT
  have harg : lastArgument decl.methods ("Traverse" ++ Foo) = X := by
    have e1 : decl.methods.filter (fun m => eligible m && decide (m.name = "Traverse" ++ Foo))
        = (decl.methods.filter eligible).filter (fun m => decide (m.name = "Traverse" ++ Foo)) := by
      rw [List.filter_filter]
      congr 1
      funext m
      exact Bool.and_comm _ _
    have n1 : ¬ ("PreTraverse" ++ Foo = "Traverse" ++ Foo) := by
      rw [pre_append_assoc]; exact fun e => traverse_ne_pre hT hT e.symm
    have n2 : ¬ ("PostTraverse" ++ Foo = "Traverse" ++ Foo) := by
      rw [post_append_assoc]; exact fun e => traverse_ne_post hT hT e.symm
    have e2 : List.Perm
        ((decl.methods.filter eligible).filter (fun m => decide (m.name = "Traverse" ++ Foo)))
        [publicMethod ("Traverse" ++ Foo) [X]] := by
      have := hm.filter (fun m => decide (m.name = "Traverse" ++ Foo))
      simpa [List.filter_cons, publicMethod, n1, n2] using this
    unfold lastArgument
    rw [e1, List.perm_singleton.1 e2]
    simp [publicMethod, CXXMethodDecl.getParamType]
  have hpre : decl.methods.any
      (fun m => eligible m && decide (m.name = "Pre" ++ ("Traverse" ++ Foo))) = true := by
    rw [any_eligible_named]
    exact ⟨publicMethod ("PreTraverse" ++ Foo) psPre, ((hmem _).2 (Or.inr (Or.inl rfl))).1,
      ((hmem _).2 (Or.inr (Or.inl rfl))).2, pre_append_assoc Foo⟩
  have hpost : decl.methods.any
      (fun m => eligible m && decide (m.name = "Post" ++ ("Traverse" ++ Foo))) = true := by
    rw [any_eligible_named]
    exact ⟨publicMethod ("PostTraverse" ++ Foo) psPost, ((hmem _).2 (Or.inr (Or.inr rfl))).1,
      ((hmem _).2 (Or.inr (Or.inr rfl))).2, post_append_assoc Foo⟩
  have hexp : expectedRecord decl.methods ("Traverse" ++ Foo)
      = { name := "Traverse" ++ Foo, argument := X, hasPre := true, hasPost := true } := by
    simp only [expectedRecord, harg, hpre, hpost]
  have hset : mergeMethods decl.methods []
      = [{ name := "Traverse" ++ Foo, argument := X, hasPre := true, hasPost := true }] := by
    apply singleton_of_nodup ((sorted_nodup inv.1).of_map _)
    intro r
    rw [inv.2 r, hcanon]
    constructor
    · rintro ⟨h1, h2⟩
      rw [h2, h1, hexp]
    · intro e
      rw [e]
      exact ⟨rfl, hexp.symm⟩
  rw [hset]
  rfl

theorem merged_record_any_order_witness :
    isPluginClass stmtClass = true ∧
      List.Perm (stmtClass.methods.filter eligible)
        [publicMethod ("Traverse" ++ "Stmt") ["Stmt&"], publicMethod ("PreTraverse" ++ "Stmt") [],
          publicMethod ("PostTraverse" ++ "Stmt") []] ∧
      ∃ s1, VisitCXXRecordDecl stmtClass initialState = .ok s1 ∧
        readTraverseRecords (emitted initialState s1)
          = [{ name := "Traverse" ++ "Stmt", argument := "Stmt&", hasPre := "1",
               hasPost := "1" }] :=
  ⟨by decide, List.Perm.swap _ _ _,
    merged_record_any_order stmtClass initialState "Stmt" "Stmt&" [] [] (by decide)
      (List.Perm.swap _ _ _)⟩

/-! ### Order of declaration -/

theorem canonicalNames_perm {ms1 ms2 : List CXXMethodDecl} (hperm : List.Perm ms1 ms2)
    (N : String) : N ∈ canonicalNames ms1 ↔ N ∈ canonicalNames ms2 := by
  simp only [mem_canonicalNames]
  constructor
  · rintro ⟨m, hm, h⟩; exact ⟨m, hperm.mem_iff.1 hm, h⟩
  · rintro ⟨m, hm, h⟩; exact ⟨m, hperm.mem_iff.2 hm, h⟩

theorem any_perm {ms1 ms2 : List CXXMethodDecl} (hperm : List.Perm ms1 ms2)
    (p : CXXMethodDecl → Bool) : ms1.any p = ms2.any p := by
  rw [Bool.eq_iff_iff, List.any_eq_true, List.any_eq_true]
  constructor
  · rintro ⟨m, hm, h⟩; exact ⟨m, hperm.mem_iff.1 hm, h⟩
  · rintro ⟨m, hm, h⟩; exact ⟨m, hperm.mem_iff.2 hm, h⟩

/-- A list without repeated names has at most one element of a given name. -/
theorem length_le_one_of_names {l : List CXXMethodDecl} {N : String}
    (hn : (l.map (·.name)).Nodup) (h : ∀ m ∈ l, m.name = N) : l.length ≤ 1 := by
  match l, hn, h with
  | [], _, _ => simp
  | [_], _, _ => simp
  | a :: b :: rest, hn, h =>
    exfalso
    have ha : a.name = N := h a (by simp)
    have hb : b.name = N := h b (by simp)
    simp only [List.map_cons, List.nodup_cons, List.mem_cons] at hn
    exact hn.1 (Or.inl (ha.trans hb.symm))

theorem eq_of_perm_of_length_le_one {α : Type} {l1 l2 : List α} (hperm : List.Perm l1 l2)
    (h : l1.length ≤ 1) : l1 = l2 := by
  match l1, h with
  | [], _ => exact (List.nil_perm.1 hperm).symm
  | [a], _ => exact (List.perm_singleton.1 hperm.symm).symm
  | _ :: _ :: _, h => simp at h

theorem lastArgument_perm {ms1 ms2 : List CXXMethodDecl} (hperm : List.Perm ms1 ms2)
    (huniq : ((ms1.filter (fun m => eligible m && startswith m.name "Traverse")).map
      (·.name)).Nodup)
    {N : String} (hT : startswith N "Traverse" = true) :
    lastArgument ms1 N = lastArgument ms2 N := by
  have hsub : List.Sublist (ms1.filter (fun m => eligible m && decide (m.name = N)))
      (ms1.filter (fun m => eligible m && startswith m.name "Traverse")) := by
    apply List.monotone_filter_right
    intro m hm
    simp only [Bool.and_eq_true, decide_eq_true_eq] at hm ⊢
    exact ⟨hm.1, by rw [hm.2]; exact hT⟩
  have hn : ((ms1.filter (fun m => eligible m && decide (m.name = N))).map (·.name)).Nodup :=
    huniq.sublist (hsub.map _)
  have hall : ∀ m ∈ ms1.filter (fun m => eligible m && decide (m.name = N)), m.name = N := by
    intro m hm
    have := (List.mem_filter.1 hm).2
    simp only [Bool.and_eq_true, decide_eq_true_eq] at this
    exact this.2
  have hle := length_le_one_of_names hn hall
  unfold lastArgument
  rw [eq_of_perm_of_length_le_one (hperm.filter _) hle]

theorem expectedRecord_perm {ms1 ms2 : List CXXMethodDecl} (hperm : List.Perm ms1 ms2)
    (huniq : ((ms1.filter (fun m => eligible m && startswith m.name "Traverse")).map
      (·.name)).Nodup)
    {N : String} (hT : startswith N "Traverse" = true) :
    expectedRecord ms1 N = expectedRecord ms2 N := by
  unfold expectedRecord
  rw [lastArgument_perm hperm huniq hT, any_perm hperm, any_perm hperm]

theorem mergeMethods_perm {ms1 ms2 : List CXXMethodDecl} (hperm : List.Perm ms1 ms2)
    (huniq : ((ms1.filter (fun m => eligible m && startswith m.name "Traverse")).map
      (·.name)).Nodup) :
    mergeMethods ms1 [] = mergeMethods ms2 [] := by
  have inv1 := mergeInv_mergeMethods ms1
  have inv2 := mergeInv_mergeMethods ms2
  apply sorted_ext inv1.1 inv2.1
  intro r
  rw [inv1.2 r, inv2.2 r, canonicalNames_perm hperm]
  constructor
  · rintro ⟨h1, h2⟩
    refine ⟨h1, ?_⟩
    rw [← expectedRecord_perm hperm huniq (canonicalNames_startswith h1)]
    exact h2
  · rintro ⟨h1, h2⟩
    refine ⟨h1, ?_⟩
    rw [expectedRecord_perm hperm huniq (canonicalNames_startswith h1)]
    exact h2

/-- C3. Two method lists of one plugin class that are permutations of each
other, whose scans both return normally, and in which no two eligible
`Traverse*` methods have the same name, give the same sequence of traverse
records (names, arguments, `HasPre`, `HasPost` texts, in the same order) when
read back from the lines each scan wrote. -/
theorem traverse_records_order_independent (className : String) (ancestors : List BaseDecl)
    (ms1 ms2 : List CXXMethodDecl) (s sa sb : State)
    (hp : isPluginClass ⟨className, ancestors, ms1⟩ = true)
    (hperm : List.Perm ms1 ms2)
    (huniq : ((ms1.filter (fun m => eligible m && startswith m.name "Traverse")).map
      (·.name)).Nodup)
    (ha : VisitCXXRecordDecl ⟨className, ancestors, ms1⟩ s = .ok sa)
    (hb : VisitCXXRecordDecl ⟨className, ancestors, ms2⟩ s = .ok sb) :
    readTraverseRecords (emitted s sa) = readTraverseRecords (emitted s sb) := by
  have hp2 : isPluginClass ⟨className, ancestors, ms2⟩ = true := hp
  rw [visit_ok_traverseRecords hp ha, visit_ok_traverseRecords hp2 hb]
  show (mergeMethods ms1 []).map _ = (mergeMethods ms2 []).map _
  rw [mergeMethods_perm hperm huniq]

theorem traverse_records_order_independent_witness :
    isPluginClass scenarioClass = true ∧
      List.Perm scenarioClass.methods scenarioClassReversed.methods ∧
      ((scenarioClass.methods.filter
        (fun m => eligible m && startswith m.name "Traverse")).map (·.name)).Nodup ∧
      VisitCXXRecordDecl scenarioClass initialState
        = .ok (stateOf (VisitCXXRecordDecl scenarioClass initialState)) ∧
      VisitCXXRecordDecl scenarioClassReversed initialState
        = .ok (stateOf (VisitCXXRecordDecl scenarioClassReversed initialState)) ∧
      stateOf (VisitCXXRecordDecl scenarioClass initialState)
        ≠ stateOf (VisitCXXRecordDecl scenarioClassReversed initialState) ∧
      readTraverseRecords
          (emitted initialState (stateOf (VisitCXXRecordDecl scenarioClass initialState)))
        = readTraverseRecords
          (emitted initialState
            (stateOf (VisitCXXRecordDecl scenarioClassReversed initialState))) :=
  ⟨by decide, (List.reverse_perm _).symm, by decide, by decide, by decide, by decide,
    traverse_records_order_independent "Foo" [⟨"FilteringPlugin", ["loplugin"]⟩]
      scenarioClass.methods scenarioClassReversed.methods initialState _ _
      (by decide) (List.reverse_perm _).symm (by decide) (by decide) (by decide)⟩

/-! ## Claims about abnormal termination -/

theorem isFatal_iff (m : CXXMethodDecl) :
    isFatal m = true ↔
      eligible m = true ∧
        ((startswith m.name "Visit" = true ∧ m.getNumParams ≠ 1)
          ∨ (startswith m.name "Traverse" = true ∧ m.getNumParams ≠ 1)
          ∨ startswith m.name "WalkUp" = true) := by
  simp [isFatal, or_assoc]

theorem scanMethod_ok_of_not_fatal (className : String) (m : CXXMethodDecl) (t : State)
    (h : isFatal m = false) : ∃ t1, scanMethod className m t = .ok t1 := by
  rw [scanMethod_eq, h]
  exact ⟨_, rfl⟩

/-- C4. The scan of a plugin class ends in `abort()` exactly when some
eligible method has a name starting with `Visit` and a parameter count other
than 1, or a name starting with `Traverse` and a parameter count other than 1,
or a name starting with `WalkUp`. A method whose name starts with
`PreTraverse` or `PostTraverse`, or is `shouldVisitTemplateInstantiations` or
`shouldVisitImplicitCode`, never makes the loop body abort, whatever its
parameters. -/
theorem abort_iff_fatal_method (decl : CXXRecordDecl) (s : State)
    (hp : isPluginClass decl = true) :
    ((∃ s1, VisitCXXRecordDecl decl s = .error s1) ↔
      ∃ m ∈ decl.methods, eligible m = true ∧
        ((startswith m.name "Visit" = true ∧ m.getNumParams ≠ 1)
          ∨ (startswith m.name "Traverse" = true ∧ m.getNumParams ≠ 1)
          ∨ startswith m.name "WalkUp" = true)) ∧
    (∀ (m : CXXMethodDecl) (t : State),
      (startswith m.name "PreTraverse" = true ∨ startswith m.name "PostTraverse" = true
        ∨ m.name = "shouldVisitTemplateInstantiations" ∨ m.name = "shouldVisitImplicitCode") →
      ∃ t1, scanMethod decl.name m t = .ok t1) := by
  constructor
  · rw [visit_error_iff]
    simp only [hp, true_and, isFatal_iff]
  · intro m t hm
    apply scanMethod_ok_of_not_fatal
    have key : startswith m.name "Visit" = false ∧ startswith m.name "Traverse" = false
        ∧ startswith m.name "WalkUp" = false := by
      rcases hm with h | h | h | h
      · exact ⟨startswith_excl h (by decide), startswith_excl h (by decide),
          startswith_excl h (by decide)⟩
      · exact ⟨startswith_excl h (by decide), startswith_excl h (by decide),
          startswith_excl h (by decide)⟩
      · rw [h]; decide
      · rw [h]; decide
    simp [isFatal, key.1, key.2.1, key.2.2]

/-- A plugin class with the single public method `WalkUpStmt()`. -/
theorem abort_iff_fatal_method_witness :
    isPluginClass
        { name := "Foo", ancestors := [⟨"FilteringPlugin", ["loplugin"]⟩],
          methods := [publicMethod "WalkUpStmt" []] } = true ∧
      ∃ s1, VisitCXXRecordDecl
        { name := "Foo", ancestors := [⟨"FilteringPlugin", ["loplugin"]⟩],
          methods := [publicMethod "WalkUpStmt" []] } initialState = .error s1 :=
  ⟨by decide,
    ((abort_iff_fatal_method
      { name := "Foo", ancestors := [⟨"FilteringPlugin", ["loplugin"]⟩],
        methods := [publicMethod "WalkUpStmt" []] } initialState (by decide)).1).2
      ⟨publicMethod "WalkUpStmt" [], by decide, by decide, Or.inr (Or.inr (by decide))⟩⟩

/-- C5, counterexample. A plugin class whose only method is a private
`WalkUpStmt()`: the method list contains a method named `WalkUpStmt`, and the
scan returns normally with a complete record. -/
theorem private_walkUp_counterexample :
    isPluginClass privateWalkUpClass = true ∧
      (∃ m ∈ privateWalkUpClass.methods, m.name = "WalkUpStmt") ∧
      VisitCXXRecordDecl privateWalkUpClass initialState =
        .ok { cout := headerLines "Foo" ++ ["InfoEnd"], cerr := [], traverseFunctions := [],
              foundSomething := true } := by
  decide

/-- C5, amended. A plugin class whose method list contains an eligible
(identifier-named, non-static, public) method named `WalkUpStmt` aborts,
whatever other methods it has and wherever the method stands. -/
theorem walkUp_aborts (decl : CXXRecordDecl) (s : State) (hp : isPluginClass decl = true)
    (h : ∃ m ∈ decl.methods, eligible m = true ∧ m.name = "WalkUpStmt") :
    ∃ s1, VisitCXXRecordDecl decl s = .error s1 := by
  obtain ⟨m, hm, he, hn⟩ := h
  refine (visit_error_iff decl s).2 ⟨hp, m, hm, ?_⟩
  have hw : startswith m.name "WalkUp" = true := by rw [hn]; decide
  simp [isFatal, he, hw]

theorem walkUp_aborts_witness :
    isPluginClass
        { name := "Foo", ancestors := [⟨"FilteringPlugin", ["loplugin"]⟩],
          methods := [publicMethod "VisitDecl" ["Decl&"], publicMethod "WalkUpStmt" ["Stmt*"]] }
        = true ∧
      ∃ s1, VisitCXXRecordDecl
        { name := "Foo", ancestors := [⟨"FilteringPlugin", ["loplugin"]⟩],
          methods := [publicMethod "VisitDecl" ["Decl&"], publicMethod "WalkUpStmt" ["Stmt*"]] }
        initialState = .error s1 :=
  ⟨by decide,
    walkUp_aborts
      { name := "Foo", ancestors := [⟨"FilteringPlugin", ["loplugin"]⟩],
        methods := [publicMethod "VisitDecl" ["Decl&"], publicMethod "WalkUpStmt" ["Stmt*"]] }
      initialState (by decide) ⟨publicMethod "WalkUpStmt" ["Stmt*"], by decide, by decide, rfl⟩⟩

/-! ## Claims about the visit records and the flag lines -/

theorem readVisitRecords_cons_ne (l : String) (rest : List String)
    (h : l ≠ "VisitFunctionStart") :
    readVisitRecords (l :: rest) = readVisitRecords rest := by
  conv_lhs => unfold readVisitRecords
  simp only [if_neg h]

theorem readVisitRecords_skip (pre rest : List String)
    (h : ∀ l ∈ pre, l ≠ "VisitFunctionStart") :
    readVisitRecords (pre ++ rest) = readVisitRecords rest := by
  induction pre with
  | nil => rfl
  | cons l ls ih =>
    have hl : l ≠ "VisitFunctionStart" := h l (List.mem_cons_self _ _)
    have hls : ∀ x ∈ ls, x ≠ "VisitFunctionStart" :=
      fun x hx => h x (List.mem_cons_of_mem _ hx)
    rw [List.cons_append, readVisitRecords_cons_ne _ _ hl]
    exact ih hls

theorem readVisitRecords_nil_of_ne (ls : List String)
    (h : ∀ l ∈ ls, l ≠ "VisitFunctionStart") : readVisitRecords ls = [] := by
  have := readVisitRecords_skip ls [] h
  rw [List.append_nil] at this
  rw [this]; rfl

theorem readVisitRecords_block (n a : String) (rest : List String) :
    readVisitRecords ("VisitFunctionStart" :: ("VisitFunctionName:" ++ n)
        :: ("VisitFunctionArgument:" ++ a) :: "VisitFunctionEnd" :: rest)
      = (n, a) :: readVisitRecords rest := by
  have e1 := substr_append "VisitFunctionName:" n
  have e2 := substr_append "VisitFunctionArgument:" a
  conv_lhs => unfold readVisitRecords
  simp only [if_true, e1, e2]

theorem traverseBlock_startswith (r : TraverseFunctionInfo) :
    ∀ l ∈ traverseBlock r, startswith l "TraverseFunction" = true := by
  intro l hl
  simp only [traverseBlock, List.mem_cons, List.mem_singleton, List.not_mem_nil, or_false] at hl
  rcases hl with e | e | e | e | e | e
  · rw [e]; decide
  · rw [e]; exact startswith_append_self "TraverseFunction" ("Name:" ++ r.name)
  · rw [e]; exact startswith_append_self "TraverseFunction" ("Argument:" ++ r.argument)
  · rw [e]; exact startswith_append_self "TraverseFunction" ("HasPre:" ++ boolDigit r.hasPre)
  · rw [e]; exact startswith_append_self "TraverseFunction" ("HasPost:" ++ boolDigit r.hasPost)
  · rw [e]; decide

theorem emitTraverseFunctions_startswith (tf : TraverseSet) :
    ∀ l ∈ emitTraverseFunctions tf, startswith l "TraverseFunction" = true := by
  induction tf with
  | nil => intro l hl; cases hl
  | cons r rest ih =>
    intro l hl
    simp only [emitTraverseFunctions, List.mem_append] at hl
    rcases hl with h | h
    · exact traverseBlock_startswith r l h
    · exact ih l h

theorem readVisitRecords_methodLines (ms : List CXXMethodDecl) (rest : List String) :
    readVisitRecords (ms.flatMap methodLines ++ rest) =
      (ms.filter (fun m => eligible m && startswith m.name "Visit")).map
          (fun m => (m.name, m.getParamType 0))
        ++ readVisitRecords rest := by
  induction ms with
  | nil => rfl
  | cons m ms ih =>
    rw [List.flatMap_cons, List.append_assoc]
    by_cases hv : (eligible m && startswith m.name "Visit") = true
    · have hv1 := hv
      simp only [Bool.and_eq_true] at hv1
      rw [List.filter_cons, if_pos hv]
      simp only [methodLines, hv1.1, hv1.2, if_true, List.cons_append, List.nil_append,
        List.map_cons]
      rw [readVisitRecords_block, ih]
    · rw [List.filter_cons, if_neg hv, readVisitRecords_skip, ih]
      intro l hl
      unfold methodLines at hl
      split at hl
      · rename_i he
        have hV : startswith m.name "Visit" = false := by
          cases h : startswith m.name "Visit" with
          | false => rfl
          | true => exact absurd (by simp [he, h]) hv
        simp only [hV, Bool.false_eq_true, if_false] at hl
        split at hl
        · simp only [List.mem_singleton] at hl
          rw [hl]; decide
        · split at hl
          · simp only [List.mem_singleton] at hl
            rw [hl]; decide
          · cases hl
      · cases hl

theorem readVisitRecords_record (className : String) (ms : List CXXMethodDecl)
    (tf : TraverseSet) :
    readVisitRecords (headerLines className ++ ms.flatMap methodLines
        ++ emitTraverseFunctions tf ++ ["InfoEnd"]) =
      (ms.filter (fun m => eligible m && startswith m.name "Visit")).map
        (fun m => (m.name, m.getParamType 0)) := by
  have hhead : ∀ l ∈ headerLines className, l ≠ "VisitFunctionStart" := by
    intro l hl
    simp only [headerLines, List.mem_cons, List.mem_singleton, List.not_mem_nil, or_false] at hl
    rcases hl with e | e | e | e
    · rw [e]; decide
    · rw [e]; decide
    · rw [e]; decide
    · rw [e]; exact key_line_ne _ (by decide)
  have htail : ∀ l ∈ emitTraverseFunctions tf ++ ["InfoEnd"], l ≠ "VisitFunctionStart" := by
    intro l hl
    rcases List.mem_append.1 hl with h | h
    · exact ne_of_startswith (emitTraverseFunctions_startswith tf l h) (by decide)
    · simp only [List.mem_singleton] at h
      rw [h]; decide
  rw [List.append_assoc, List.append_assoc, readVisitRecords_skip _ _ hhead,
    readVisitRecords_methodLines, readVisitRecords_nil_of_ne _ htail, List.append_nil]

/-- C6. For a plugin class whose scan returns normally, the visit records read
back from the lines the scan wrote are, in the same order, the pairs (method
name, type of parameter 0) of the eligible methods whose names start with
`Visit`, taken in declaration order; each of these methods has exactly one
parameter. -/
theorem visit_records_in_declaration_order (decl : CXXRecordDecl) (s s1 : State)
    (hp : isPluginClass decl = true) (h : VisitCXXRecordDecl decl s = .ok s1) :
    readVisitRecords (emitted s s1) =
        (decl.methods.filter (fun m => eligible m && startswith m.name "Visit")).map
          (fun m => (m.name, m.getParamType 0)) ∧
      ∀ m ∈ decl.methods, eligible m = true → startswith m.name "Visit" = true →
        m.params = [m.getParamType 0] := by
  constructor
  · rw [(visit_ok_emitted hp h).1]
    exact readVisitRecords_record _ _ _
  · intro m hm he hv
    have hf := no_fatal_of_ok h hp m hm
    have hn : m.getNumParams = 1 := by
      by_contra hne
      have : isFatal m = true := (isFatal_iff m).2 ⟨he, Or.inl ⟨hv, hne⟩⟩
      rw [hf] at this; cases this
    unfold CXXMethodDecl.getNumParams at hn
    unfold CXXMethodDecl.getParamType
    match hps : m.params, hn with
    | [p], _ => simp
    | [], hn => simp at hn
    | _ :: _ :: _, hn => simp at hn

theorem visit_records_in_declaration_order_witness :
    isPluginClass scenarioClass = true ∧
      VisitCXXRecordDecl scenarioClass initialState
        = .ok (stateOf (VisitCXXRecordDecl scenarioClass initialState)) ∧
      readVisitRecords
          (emitted initialState (stateOf (VisitCXXRecordDecl scenarioClass initialState)))
        = [("VisitDecl", "Decl&"), ("VisitStmt", "Stmt*")] :=
  ⟨by decide, by decide,
    (visit_records_in_declaration_order scenarioClass initialState _ (by decide)
      (by decide)).1⟩

theorem mem_methodLines_templateFlag (m : CXXMethodDecl) :
    "ShouldVisitTemplateInstantiations:1" ∈ methodLines m ↔
      eligible m = true ∧ m.name = "shouldVisitTemplateInstantiations" := by
  unfold methodLines
  by_cases he : eligible m = true
  · by_cases hv : startswith m.name "Visit" = true
    · have n1 : m.name ≠ "shouldVisitTemplateInstantiations" := ne_of_startswith hv (by decide)
      have a1 : ¬ ("ShouldVisitTemplateInstantiations:1" = "VisitFunctionName:" ++ m.name) :=
        fun e => key_line_ne _ (by decide) e.symm
      have a2 : ¬ ("ShouldVisitTemplateInstantiations:1"
          = "VisitFunctionArgument:" ++ m.getParamType 0) :=
        fun e => key_line_ne _ (by decide) e.symm
      simp [he, hv, n1, a1, a2]
    · have d1 : startswith "shouldVisitTemplateInstantiations" "Visit" = false := by decide
      have d2 : startswith "shouldVisitImplicitCode" "Visit" = false := by decide
      by_cases n1 : m.name = "shouldVisitTemplateInstantiations"
      · simp [he, n1, d1]
      · by_cases n2 : m.name = "shouldVisitImplicitCode"
        · simp [he, n2, d2]
        · simp [he, hv, n1, n2]
  · simp [he]

theorem mem_methodLines_implicitFlag (m : CXXMethodDecl) :
    "ShouldVisitImplicitCode:1" ∈ methodLines m ↔
      eligible m = true ∧ m.name = "shouldVisitImplicitCode" := by
  unfold methodLines
  by_cases he : eligible m = true
  · by_cases hv : startswith m.name "Visit" = true
    · have n1 : m.name ≠ "shouldVisitImplicitCode" := ne_of_startswith hv (by decide)
      have a1 : ¬ ("ShouldVisitImplicitCode:1" = "VisitFunctionName:" ++ m.name) :=
        fun e => key_line_ne _ (by decide) e.symm
      have a2 : ¬ ("ShouldVisitImplicitCode:1"
          = "VisitFunctionArgument:" ++ m.getParamType 0) :=
        fun e => key_line_ne _ (by decide) e.symm
      simp [he, hv, n1, a1, a2]
    · have d1 : startswith "shouldVisitTemplateInstantiations" "Visit" = false := by decide
      have d2 : startswith "shouldVisitImplicitCode" "Visit" = false := by decide
      by_cases n1 : m.name = "shouldVisitTemplateInstantiations"
      · simp [he, n1, d1]
      · by_cases n2 : m.name = "shouldVisitImplicitCode"
        · simp [he, n2, d2]
        · simp [he, hv, n1, n2]
  · simp [he]

/-- A line that is none of the header lines and does not start with
`TraverseFunction` is in a finished record exactly when some method wrote it
during the loop. -/
theorem mem_record_iff (className : String) (ms : List CXXMethodDecl) (tf : TraverseSet)
    (l : String) (h1 : ∀ x ∈ headerLines className, x ≠ l)
    (h2 : startswith l "TraverseFunction" = false) (h3 : l ≠ "InfoEnd") :
    l ∈ headerLines className ++ ms.flatMap methodLines ++ emitTraverseFunctions tf ++ ["InfoEnd"]
      ↔ ∃ m ∈ ms, l ∈ methodLines m := by
  simp only [List.mem_append, List.mem_flatMap, List.mem_singleton]
  constructor
  · rintro (((h | h) | h) | h)
    · exact absurd rfl (h1 l h)
    · exact h
    · rw [emitTraverseFunctions_startswith tf l h] at h2; cases h2
    · exact absurd h h3
  · intro h
    exact Or.inl (Or.inl (Or.inr h))

theorem headerLines_ne (className : String) (l : String)
    (h : startswith l "#" = false ∧ l ≠ "InfoVersion:1" ∧ startswith l "ClassName:" = false) :
    ∀ x ∈ headerLines className, x ≠ l := by
  intro x hx
  simp only [headerLines, List.mem_cons, List.mem_singleton, List.not_mem_nil, or_false] at hx
  rcases hx with e | e | e | e
  · rw [e]; exact ne_of_startswith (by decide) h.1
  · rw [e]; exact ne_of_startswith (by decide) h.1
  · rw [e]; exact fun e1 => h.2.1 e1.symm
  · rw [e]; exact key_line_ne _ h.2.2

/-- C8. For a plugin class whose scan returns normally, the lines the scan
wrote contain `ShouldVisitTemplateInstantiations:1` exactly when the class has
an eligible method named `shouldVisitTemplateInstantiations` (no condition on
its parameters), and contain `ShouldVisitImplicitCode:1` exactly when it has
an eligible method named `shouldVisitImplicitCode`. -/
theorem flag_lines_iff_flag_methods (decl : CXXRecordDecl) (s s1 : State)
    (hp : isPluginClass decl = true) (h : VisitCXXRecordDecl decl s = .ok s1) :
    ("ShouldVisitTemplateInstantiations:1" ∈ emitted s s1 ↔
        ∃ m ∈ decl.methods, eligible m = true ∧ m.name = "shouldVisitTemplateInstantiations") ∧
      ("ShouldVisitImplicitCode:1" ∈ emitted s s1 ↔
        ∃ m ∈ decl.methods, eligible m = true ∧ m.name = "shouldVisitImplicitCode") := by
  rw [(visit_ok_emitted hp h).1]
  constructor
  · rw [mem_record_iff _ _ _ _ (headerLines_ne _ _ (by decide)) (by decide) (by decide)]
    simp only [mem_methodLines_templateFlag]
  · rw [mem_record_iff _ _ _ _ (headerLines_ne _ _ (by decide)) (by decide) (by decide)]
    simp only [mem_methodLines_implicitFlag]

theorem flag_lines_iff_flag_methods_witness :
    isPluginClass scenarioClass = true ∧
      VisitCXXRecordDecl scenarioClass initialState
        = .ok (stateOf (VisitCXXRecordDecl scenarioClass initialState)) ∧
      "ShouldVisitTemplateInstantiations:1"
        ∈ emitted initialState (stateOf (VisitCXXRecordDecl scenarioClass initialState)) :=
  ⟨by decide, by decide,
    ((flag_lines_iff_flag_methods scenarioClass initialState _ (by decide) (by decide)).1).2
      ⟨publicMethod "shouldVisitTemplateInstantiations" [], by decide, by decide, rfl⟩⟩

/-! ## The order of the fields -/

theorem visitBlock_startswith (v : String × String) :
    ∀ l ∈ visitBlock v, startswith l "VisitFunction" = true := by
  intro l hl
  simp only [visitBlock, List.mem_cons, List.mem_singleton, List.not_mem_nil, or_false] at hl
  rcases hl with e | e | e | e
  · rw [e]; decide
  · rw [e]; exact startswith_append_self "VisitFunction" ("Name:" ++ v.1)
  · rw [e]; exact startswith_append_self "VisitFunction" ("Argument:" ++ v.2)
  · rw [e]; decide

/-- C7, counterexample. A plugin class declaring `VisitDecl(Decl&)` and then
`shouldVisitTemplateInstantiations()`: the scan returns normally and writes
the flag line after the visit block, so the record is not in the fixed field
order. -/
theorem flag_after_visit_block_counterexample :
    isPluginClass flagAfterVisitClass = true ∧
      VisitCXXRecordDecl flagAfterVisitClass initialState = .ok flagAfterVisitFinal ∧
      emitted initialState flagAfterVisitFinal =
        [ "# This file is autogenerated. Do not modify.",
          "# Generated by compilerplugins/clang/sharedvisitor/analyzer.cxx .",
          "InfoVersion:1",
          "ClassName:Foo",
          "VisitFunctionStart",
          "VisitFunctionName:VisitDecl",
          "VisitFunctionArgument:Decl&",
          "VisitFunctionEnd",
          "ShouldVisitTemplateInstantiations:1",
          "InfoEnd" ] ∧
      ¬ FixedFieldOrder "Foo" (emitted initialState flagAfterVisitFinal) := by
  refine ⟨by decide, by decide, by decide, ?_⟩
  rintro ⟨t, i, visits, travs, ht, hi, e⟩
  have e0 : emitted initialState flagAfterVisitFinal =
      [ "# This file is autogenerated. Do not modify.",
        "# Generated by compilerplugins/clang/sharedvisitor/analyzer.cxx .",
        "InfoVersion:1", "ClassName:Foo", "VisitFunctionStart", "VisitFunctionName:VisitDecl",
        "VisitFunctionArgument:Decl&", "VisitFunctionEnd",
        "ShouldVisitTemplateInstantiations:1", "InfoEnd" ] := by decide
  rw [e0] at e
  rcases ht with ht | ht
  · rcases hi with hi | hi
    · have hin : "ShouldVisitTemplateInstantiations:1" ∈
          headerLines "Foo" ++ t ++ i ++ visits.flatMap visitBlock
            ++ emitTraverseFunctions travs ++ ["InfoEnd"] := by
        rw [← e]; decide
      rw [ht, hi] at hin
      simp only [List.append_nil, List.mem_append, List.mem_flatMap, List.mem_singleton] at hin
      rcases hin with ((h | ⟨v, _, h⟩) | h) | h
      · revert h; decide
      · have := visitBlock_startswith v _ h
        revert this; decide
      · have := emitTraverseFunctions_startswith travs _ h
        revert this; decide
      · revert h; decide
    · rw [ht, hi] at e
      simp only [headerLines, List.append_nil, List.cons_append, List.nil_append,
        List.cons.injEq] at e
      have := e.2.2.2.2.1
      revert this; decide
  · rw [ht] at e
    simp only [headerLines, List.cons_append, List.nil_append, List.cons.injEq] at e
    have := e.2.2.2.2.1
    revert this; decide

theorem methodLines_shape (m : CXXMethodDecl) :
    methodLines m = [] ∨ methodLines m = ["ShouldVisitTemplateInstantiations:1"]
      ∨ methodLines m = ["ShouldVisitImplicitCode:1"]
      ∨ methodLines m = visitBlock (m.name, m.getParamType 0) := by
  unfold methodLines
  split
  · split
    · exact Or.inr (Or.inr (Or.inr rfl))
    · split
      · exact Or.inr (Or.inl rfl)
      · split
        · exact Or.inr (Or.inr (Or.inl rfl))
        · exact Or.inl rfl
  · exact Or.inl rfl

/-- C7, amended. The lines written by the scan of a plugin class that returns
normally are: the two header comment lines, `InfoVersion:1`,
`ClassName:<name>`; then, method by method in declaration order, what each
method contributes, which is nothing, one flag line, or one visit block; then
the traverse blocks of the merge set; then `InfoEnd`. -/
theorem record_field_order (decl : CXXRecordDecl) (s s1 : State)
    (hp : isPluginClass decl = true) (h : VisitCXXRecordDecl decl s = .ok s1) :
    emitted s s1 = headerLines decl.name ++ decl.methods.flatMap methodLines
        ++ emitTraverseFunctions s1.traverseFunctions ++ ["InfoEnd"] ∧
      ∀ m ∈ decl.methods,
        methodLines m = [] ∨ methodLines m = ["ShouldVisitTemplateInstantiations:1"]
          ∨ methodLines m = ["ShouldVisitImplicitCode:1"]
          ∨ methodLines m = visitBlock (m.name, m.getParamType 0) := by
  refine ⟨?_, fun m _ => methodLines_shape m⟩
  rw [(visit_ok_emitted hp h).2.2.1]
  exact (visit_ok_emitted hp h).1

theorem record_field_order_witness :
    isPluginClass flagAfterVisitClass = true ∧
      VisitCXXRecordDecl flagAfterVisitClass initialState = .ok flagAfterVisitFinal ∧
      emitted initialState flagAfterVisitFinal =
        headerLines "Foo" ++ visitBlock ("VisitDecl", "Decl&")
          ++ ["ShouldVisitTemplateInstantiations:1"] ++ [] ++ ["InfoEnd"] :=
  ⟨by decide, by decide,
    (record_field_order flagAfterVisitClass initialState flagAfterVisitFinal (by decide)
      (by decide)).1⟩

/-! ## Methods the loop does not react to -/

theorem scanMethod_unknown (className : String) (m : CXXMethodDecl) (t : State)
    (hu : unknownName m.name = true) : scanMethod className m t = .ok t := by
  simp only [unknownName, Bool.and_eq_true, Bool.not_eq_true', decide_eq_true_eq] at hu
  obtain ⟨⟨⟨⟨⟨⟨h1, h2⟩, h3⟩, h4⟩, h5⟩, h6⟩, h7⟩ := hu
  rw [scanMethod_eq]
  simp [isFatal, methodLines, mergeMethod, h1, h2, h3, h4, h5, h6, h7]

theorem scanMethods_unknown (className : String) (ms1 ms2 : List CXXMethodDecl)
    (m : CXXMethodDecl) (t : State) (hu : unknownName m.name = true) :
    scanMethods className (ms1 ++ m :: ms2) t = scanMethods className (ms1 ++ ms2) t := by
  induction ms1 generalizing t with
  | nil => simp [scanMethods, scanMethod_unknown className m t hu]
  | cons x rest ih =>
    simp only [List.cons_append, scanMethods]
    cases scanMethod className x t with
    | ok t1 => exact ih t1
    | error t1 => rfl

/-- C9. A method whose name starts with none of `Visit`, `Traverse`,
`PreTraverse`, `PostTraverse`, `WalkUp` and is neither
`shouldVisitTemplateInstantiations` nor `shouldVisitImplicitCode`, put at any
position of the method list of a class, with any parameters, visibility and
staticness, changes nothing: the scan ends the same way, normally or by
`abort()`, in the same state (same standard output, standard error, merge
set and flag). -/
theorem unknown_method_ignored (className : String) (ancestors : List BaseDecl)
    (ms1 ms2 : List CXXMethodDecl) (m : CXXMethodDecl) (s : State)
    (hu : unknownName m.name = true) :
    VisitCXXRecordDecl ⟨className, ancestors, ms1 ++ m :: ms2⟩ s
      = VisitCXXRecordDecl ⟨className, ancestors, ms1 ++ ms2⟩ s := by
  unfold VisitCXXRecordDecl
  simp only [scanMethods_unknown className ms1 ms2 m _ hu]
  rfl

theorem unknown_method_ignored_witness :
    unknownName "run" = true ∧
      VisitCXXRecordDecl ⟨"Foo", [⟨"FilteringPlugin", ["loplugin"]⟩],
          [publicMethod "VisitDecl" ["Decl&"]] ++ publicMethod "run" [] ::
            [publicMethod "TraverseStmt" ["Stmt&"]]⟩ initialState
        = VisitCXXRecordDecl ⟨"Foo", [⟨"FilteringPlugin", ["loplugin"]⟩],
          [publicMethod "VisitDecl" ["Decl&"]] ++ [publicMethod "TraverseStmt" ["Stmt&"]]⟩
          initialState :=
  ⟨by decide,
    unknown_method_ignored "Foo" [⟨"FilteringPlugin", ["loplugin"]⟩]
      [publicMethod "VisitDecl" ["Decl&"]] [publicMethod "TraverseStmt" ["Stmt&"]]
      (publicMethod "run" []) initialState (by decide)⟩

/-! ## Which classes get a record -/

/-- C10, counterexample. A class `Foo` derived from `loplugin::FilteringPlugin`
with a public method `WalkUpStmt()`: the ancestor query and the name check
both pass, yet the visit writes the four opening lines and aborts; no record
is completed and the found-something flag stays `false`. -/
theorem fatal_plugin_class_counterexample :
    isDerivedFrom walkUpClass inheritsPluginClassCheck = true ∧
      walkUpClass.name ≠ "FilteringPlugin" ∧ walkUpClass.name ≠ "FilteringRewritePlugin" ∧
      VisitCXXRecordDecl walkUpClass initialState =
        .error
          { cout :=
              [ "# This file is autogenerated. Do not modify.",
                "# Generated by compilerplugins/clang/sharedvisitor/analyzer.cxx .",
                "InfoVersion:1",
                "ClassName:Foo" ],
            cerr := [ "WalkUp function not supported for shared visitor: Foo::WalkUpStmt" ],
            traverseFunctions := [],
            foundSomething := false } := by
  decide

/-- C10, amended. A class that the ancestor query does not report as derived
from `loplugin::FilteringPlugin` or `loplugin::FilteringRewritePlugin`, or
that is named `FilteringPlugin` or `FilteringRewritePlugin`, is visited
without any effect: the visit returns normally in the state it started in (no
output, flag and merge set unchanged), whatever its methods. Any other class
gets the four opening lines; if none of its methods is fatal the visit
returns normally with a record that ends in `InfoEnd` and with the
found-something flag set; if some method is fatal the visit aborts and the
flag is left as it was. -/
theorem record_iff_plugin_class (decl : CXXRecordDecl) (s : State) :
    (isPluginClass decl = true ↔
      (isDerivedFrom decl inheritsPluginClassCheck = true ∧ decl.name ≠ "FilteringPlugin"
        ∧ decl.name ≠ "FilteringRewritePlugin")) ∧
    (isPluginClass decl = false → VisitCXXRecordDecl decl s = .ok s) ∧
    ((decl.name = "FilteringPlugin" ∨ decl.name = "FilteringRewritePlugin") →
      VisitCXXRecordDecl decl s = .ok s) ∧
    (isPluginClass decl = true → (∀ m ∈ decl.methods, isFatal m = false) →
      ∃ s1, VisitCXXRecordDecl decl s = .ok s1 ∧ s1.foundSomething = true ∧
        s1.cout = s.cout ++ emitted s s1 ∧
        emitted s s1 = headerLines decl.name ++ decl.methods.flatMap methodLines
          ++ emitTraverseFunctions s1.traverseFunctions ++ ["InfoEnd"]) ∧
    (isPluginClass decl = true → (∃ m ∈ decl.methods, isFatal m = true) →
      ∃ s1, VisitCXXRecordDecl decl s = .error s1 ∧ s1.foundSomething = s.foundSomething ∧
        ∃ rest, s1.cout = s.cout ++ headerLines decl.name ++ rest) := by
  refine ⟨isPluginClass_eq_true decl, visit_not_plugin decl s, ?_, ?_, ?_⟩
  · intro hn
    apply visit_not_plugin
    cases hpc : isPluginClass decl with
    | false => rfl
    | true =>
      obtain ⟨_, h2, h3⟩ := (isPluginClass_eq_true decl).1 hpc
      rcases hn with e | e
      · exact absurd e h2
      · exact absurd e h3
  · intro hp hf
    have hok := visit_ok decl s hp hf
    refine ⟨_, hok, rfl, (visit_ok_emitted hp hok).2.1, ?_⟩
    exact (visit_ok_emitted hp hok).1
  · intro hp hf
    obtain ⟨ms1, m, ms2, e, h1, h2⟩ := exists_first_fatal _ hf
    exact ⟨_, visit_abort decl s hp ms1 m ms2 e h1 h2, rfl, _, rfl⟩

/-! ## The lines of a record -/

theorem methodLines_kinds (m : CXXMethodDecl) :
    ∀ l ∈ methodLines m,
      startswith l "VisitFunction" = true ∨ startswith l "ShouldVisit" = true := by
  intro l hl
  rcases methodLines_shape m with h | h | h | h
  · rw [h] at hl; cases hl
  · rw [h, List.mem_singleton] at hl; rw [hl]; exact Or.inr (by decide)
  · rw [h, List.mem_singleton] at hl; rw [hl]; exact Or.inr (by decide)
  · rw [h] at hl; exact Or.inl (visitBlock_startswith _ l hl)

/-- Every line between the opening lines and `InfoEnd` starts with
`VisitFunction`, `ShouldVisit` or `TraverseFunction`. -/
theorem middle_lines_kinds (ms : List CXXMethodDecl) (tf : TraverseSet) :
    ∀ l ∈ ms.flatMap methodLines ++ emitTraverseFunctions tf,
      startswith l "VisitFunction" = true ∨ startswith l "ShouldVisit" = true
        ∨ startswith l "TraverseFunction" = true := by
  intro l hl
  rcases List.mem_append.1 hl with h | h
  · obtain ⟨m, _, hm⟩ := List.mem_flatMap.1 h
    rcases methodLines_kinds m l hm with h1 | h1
    · exact Or.inl h1
    · exact Or.inr (Or.inl h1)
  · exact Or.inr (Or.inr (emitTraverseFunctions_startswith tf l h))

theorem middle_lines_not_startswith (ms : List CXXMethodDecl) (tf : TraverseSet) (q : String)
    (h1 : (startswith q "VisitFunction" || startswith "VisitFunction" q) = false)
    (h2 : (startswith q "ShouldVisit" || startswith "ShouldVisit" q) = false)
    (h3 : (startswith q "TraverseFunction" || startswith "TraverseFunction" q) = false) :
    ∀ l ∈ ms.flatMap methodLines ++ emitTraverseFunctions tf, startswith l q = false := by
  intro l hl
  rcases middle_lines_kinds ms tf l hl with h | h | h
  · exact startswith_excl h h1
  · exact startswith_excl h h2
  · exact startswith_excl h h3

theorem middle_lines_ne (ms : List CXXMethodDecl) (tf : TraverseSet) (c : String)
    (h1 : startswith c "VisitFunction" = false) (h2 : startswith c "ShouldVisit" = false)
    (h3 : startswith c "TraverseFunction" = false) :
    c ∉ ms.flatMap methodLines ++ emitTraverseFunctions tf := by
  intro hl
  rcases middle_lines_kinds ms tf c hl with h | h | h
  · rw [h1] at h; cases h
  · rw [h2] at h; cases h
  · rw [h3] at h; cases h

theorem count_middle (ms : List CXXMethodDecl) (tf : TraverseSet) (c : String)
    (h1 : startswith c "VisitFunction" = false) (h2 : startswith c "ShouldVisit" = false)
    (h3 : startswith c "TraverseFunction" = false) :
    (ms.flatMap methodLines ++ emitTraverseFunctions tf).count c = 0 :=
  List.count_eq_zero.2 (middle_lines_ne ms tf c h1 h2 h3)

/-- C11. For a plugin class whose scan returns normally, exactly one of the
lines the scan wrote starts with `ClassName:`, and it is `ClassName:` followed
by the name of the class; exactly one line is `InfoEnd`, and it is the last
line; the first three lines are the two header comment lines and
`InfoVersion:1`, and each of the three occurs once among the lines of the
record. -/
theorem record_has_one_class_name_and_end (decl : CXXRecordDecl) (s s1 : State)
    (hp : isPluginClass decl = true) (h : VisitCXXRecordDecl decl s = .ok s1) :
    (emitted s s1).filter (fun l => startswith l "ClassName:") = ["ClassName:" ++ decl.name] ∧
      (emitted s s1).count "InfoEnd" = 1 ∧
      (emitted s s1).getLast? = some "InfoEnd" ∧
      (emitted s s1).take 3 =
        [ "# This file is autogenerated. Do not modify.",
          "# Generated by compilerplugins/clang/sharedvisitor/analyzer.cxx .",
          "InfoVersion:1" ] ∧
      (emitted s s1).count "# This file is autogenerated. Do not modify." = 1 ∧
      (emitted s s1).count
        "# Generated by compilerplugins/clang/sharedvisitor/analyzer.cxx ." = 1 ∧
      (emitted s s1).count "InfoVersion:1" = 1 := by
  have e : emitted s s1 = headerLines decl.name
      ++ (decl.methods.flatMap methodLines ++ emitTraverseFunctions (mergeMethods decl.methods []))
      ++ ["InfoEnd"] := by
    rw [(visit_ok_emitted hp h).1]; simp only [List.append_assoc]
  have hc : startswith ("ClassName:" ++ decl.name) "ClassName:" = true :=
    startswith_append_self _ _
  have c1 : "ClassName:" ++ decl.name ≠ "InfoEnd" := key_line_ne _ (by decide)
  have c2 : "ClassName:" ++ decl.name ≠ "# This file is autogenerated. Do not modify." :=
    key_line_ne _ (by decide)
  have c3 : "ClassName:" ++ decl.name
      ≠ "# Generated by compilerplugins/clang/sharedvisitor/analyzer.cxx ." :=
    key_line_ne _ (by decide)
  have c4 : "ClassName:" ++ decl.name ≠ "InfoVersion:1" := key_line_ne _ (by decide)
  have d1 : startswith "# This file is autogenerated. Do not modify." "ClassName:" = false := by
    decide
  have d2 : startswith "# Generated by compilerplugins/clang/sharedvisitor/analyzer.cxx ."
      "ClassName:" = false := by decide
  have d3 : startswith "InfoVersion:1" "ClassName:" = false := by decide
  have d4 : startswith "InfoEnd" "ClassName:" = false := by decide
  have hmid : (decl.methods.flatMap methodLines
      ++ emitTraverseFunctions (mergeMethods decl.methods [])).filter
        (fun l => startswith l "ClassName:") = [] := by
    rw [List.filter_eq_nil_iff]
    intro l hl
    rw [middle_lines_not_startswith _ _ "ClassName:" (by decide) (by decide) (by decide) l hl]
    exact Bool.false_ne_true
  rw [e]
  refine ⟨?_, ?_, ?_, ?_, ?_, ?_, ?_⟩
  · rw [List.filter_append, List.filter_append, hmid]
    simp [headerLines, List.filter_cons, hc, d1, d2, d3, d4]
  · rw [List.count_append, List.count_append,
      count_middle _ _ _ (by decide) (by decide) (by decide)]
    simp [headerLines, List.count_cons, c1]
  · simp
  · simp [headerLines]
  · rw [List.count_append, List.count_append,
      count_middle _ _ _ (by decide) (by decide) (by decide)]
    simp [headerLines, List.count_cons, c2]
  · rw [List.count_append, List.count_append,
      count_middle _ _ _ (by decide) (by decide) (by decide)]
    simp [headerLines, List.count_cons, c3]
  · rw [List.count_append, List.count_append,
      count_middle _ _ _ (by decide) (by decide) (by decide)]
    simp [headerLines, List.count_cons, c4]

theorem record_has_one_class_name_and_end_witness :
    isPluginClass scenarioClass = true ∧
      VisitCXXRecordDecl scenarioClass initialState
        = .ok (stateOf (VisitCXXRecordDecl scenarioClass initialState)) ∧
      (emitted initialState (stateOf (VisitCXXRecordDecl scenarioClass initialState))).filter
        (fun l => startswith l "ClassName:") = ["ClassName:Foo"] :=
  ⟨by decide, by decide,
    (record_has_one_class_name_and_end scenarioClass initialState _ (by decide)
      (by decide)).1⟩

/-! ## The merge set during the scan -/

theorem findOrCreate_sorted (n : String) {tf : TraverseSet}
    (hs : tf.Pairwise TraverseFunctionInfoLess) :
    (findOrCreateTraverseFunctionInfo n tf).2.Pairwise TraverseFunctionInfoLess := by
  cases hfind : TraverseSet.find { name := n } tf with
  | none => rw [findOrCreate_none hfind]; exact hs
  | some y => rw [findOrCreate_some hfind]; exact hs.sublist (erase_sublist y tf)

theorem mergeMethod_sorted (m : CXXMethodDecl) {tf : TraverseSet}
    (hs : tf.Pairwise TraverseFunctionInfoLess) :
    (mergeMethod m tf).Pairwise TraverseFunctionInfoLess := by
  unfold mergeMethod
  split
  · split
    · exact upsert_sorted hs (fun _ => rfl)
    · split
      · exact upsert_sorted hs (fun _ => rfl)
      · split
        · exact upsert_sorted hs (fun _ => rfl)
        · exact hs
  · exact hs

theorem mergeMethods_sorted (ms : List CXXMethodDecl) {tf : TraverseSet}
    (hs : tf.Pairwise TraverseFunctionInfoLess) :
    (mergeMethods ms tf).Pairwise TraverseFunctionInfoLess := by
  induction ms generalizing tf with
  | nil => exact hs
  | cons m rest ih => exact ih (mergeMethod_sorted m hs)

theorem scanMethod_ok_state {className : String} {m : CXXMethodDecl} {t t1 : State}
    (h : scanMethod className m t = .ok t1) :
    isFatal m = false ∧
      t1 = { t with cout := t.cout ++ methodLines m,
                    traverseFunctions := mergeMethod m t.traverseFunctions } := by
  rw [scanMethod_eq] at h
  cases hf : isFatal m with
  | true => rw [hf] at h; cases h
  | false =>
    rw [hf] at h
    simp only [Bool.false_eq_true, if_false, Except.ok.injEq] at h
    exact ⟨rfl, h.symm⟩

theorem scanMethods_ok_state {className : String} {ms : List CXXMethodDecl} {t t1 : State}
    (h : scanMethods className ms t = .ok t1) :
    (∀ m ∈ ms, isFatal m = false) ∧
      t1 = { t with cout := t.cout ++ ms.flatMap methodLines,
                    traverseFunctions := mergeMethods ms t.traverseFunctions } := by
  have hf : ∀ m ∈ ms, isFatal m = false := by
    intro m hm
    cases hfm : isFatal m with
    | false => rfl
    | true =>
      obtain ⟨t2, h2⟩ := (scanMethods_error_iff className ms t).2 ⟨m, hm, hfm⟩
      rw [h2] at h; cases h
  rw [scanMethods_ok className ms t hf] at h
  simp only [Except.ok.injEq] at h
  exact ⟨hf, h.symm⟩

theorem scanMethods_append (className : String) (ms1 ms2 : List CXXMethodDecl) (t t1 : State)
    (h : scanMethods className ms1 t = .ok t1) :
    scanMethods className (ms1 ++ ms2) t = scanMethods className ms2 t1 := by
  induction ms1 generalizing t with
  | nil =>
    simp only [scanMethods, Except.ok.injEq] at h
    rw [h]; rfl
  | cons m rest ih =>
    simp only [List.cons_append, scanMethods] at h ⊢
    cases hm : scanMethod className m t with
    | ok t2 => rw [hm] at h; exact ih t2 h
    | error t2 => rw [hm] at h; cases h

theorem names_sorted {tf : TraverseSet} (hs : tf.Pairwise TraverseFunctionInfoLess) :
    (tf.map (·.name)).Pairwise (· < ·) := by
  rw [List.pairwise_map]
  exact hs

/-- C12. At every point of a class scan the merge set is in strictly
increasing order of name, so it holds at most one record per name: this holds
for the state after any number of methods of the class (the loop over a
longer list goes on from exactly that state), and the loop body keeps it,
also between the look-up and the insertion. In the record of a plugin class
whose scan returns normally, the names of the traverse blocks, read back in
order, are strictly increasing in the order of strings, hence pairwise
distinct. -/
theorem merge_set_one_record_per_name (decl : CXXRecordDecl) (s : State) :
    (∀ ms1 ms2 t, decl.methods = ms1 ++ ms2 →
      scanMethods decl.name ms1 (loopStart decl s) = .ok t →
        t.traverseFunctions.Pairwise (fun a b => a.name < b.name)
          ∧ (t.traverseFunctions.map (·.name)).Nodup
          ∧ scanMethods decl.name decl.methods (loopStart decl s)
              = scanMethods decl.name ms2 t) ∧
    (∀ (className : String) (m : CXXMethodDecl) (t t1 : State),
      t.traverseFunctions.Pairwise (fun a b => a.name < b.name) →
      scanMethod className m t = .ok t1 →
        t1.traverseFunctions.Pairwise (fun a b => a.name < b.name)
          ∧ (findOrCreateTraverseFunctionInfo (canonicalName m.name)
              t.traverseFunctions).2.Pairwise (fun a b => a.name < b.name)) ∧
    (∀ s1, isPluginClass decl = true → VisitCXXRecordDecl decl s = .ok s1 →
      ((readTraverseRecords (emitted s s1)).map (·.name)).Pairwise (· < ·)
        ∧ ((readTraverseRecords (emitted s s1)).map (·.name)).Nodup) := by
  refine ⟨?_, ?_, ?_⟩
  · intro ms1 ms2 t e h
    have ht := (scanMethods_ok_state h).2
    have hs : t.traverseFunctions.Pairwise TraverseFunctionInfoLess := by
      rw [ht]
      exact mergeMethods_sorted ms1 List.Pairwise.nil
    refine ⟨hs, sorted_nodup hs, ?_⟩
    rw [e]
    exact scanMethods_append _ _ _ _ _ h
  · intro className m t t1 hs h
    have ht := (scanMethod_ok_state h).2
    refine ⟨?_, findOrCreate_sorted _ hs⟩
    rw [ht]
    exact mergeMethod_sorted m hs
  · intro s1 hp h
    have inv := mergeInv_mergeMethods decl.methods
    have hnames : (readTraverseRecords (emitted s s1)).map (·.name)
        = (mergeMethods decl.methods []).map (·.name) := by
      rw [visit_ok_traverseRecords hp h, List.map_map]
      rfl
    rw [hnames]
    exact ⟨names_sorted inv.1, sorted_nodup inv.1⟩

/-! ## The argument of a traverse record -/

/-- Two records of a merge set with the same name are the same record. -/
theorem eq_of_name_eq {tf : TraverseSet} (hs : tf.Pairwise TraverseFunctionInfoLess)
    {a b : TraverseFunctionInfo} (ha : a ∈ tf) (hb : b ∈ tf) (h : a.name = b.name) : a = b := by
  induction tf with
  | nil => cases ha
  | cons x xs ih =>
    have hx := List.pairwise_cons.1 hs
    rcases List.mem_cons.1 ha with ea | ea <;> rcases List.mem_cons.1 hb with eb | eb
    · rw [ea, eb]
    · subst ea
      exact absurd h (ne_of_lt ((less_iff _ _).1 (hx.1 b eb)))
    · subst eb
      exact absurd h.symm (ne_of_lt ((less_iff _ _).1 (hx.1 a ea)))
    · exact ih hx.2 ea eb

theorem lastArgument_of_last {ms1 ms2 : List CXXMethodDecl} {m : CXXMethodDecl} {N : String}
    (he : eligible m = true) (hn : m.name = N)
    (h2 : ∀ x ∈ ms2, ¬ (eligible x = true ∧ x.name = N)) :
    lastArgument (ms1 ++ m :: ms2) N = m.getParamType 0 := by
  have hfil : ms2.filter (fun x => eligible x && decide (x.name = N)) = [] := by
    rw [List.filter_eq_nil_iff]
    intro x hx
    simpa using h2 x hx
  have hm : (eligible m && decide (m.name = N)) = true := by simp [he, hn]
  unfold lastArgument
  rw [List.filter_append, List.filter_cons, if_pos hm, hfil, List.getLast?_append]
  simp

theorem lastArgument_of_none {ms : List CXXMethodDecl} {N : String}
    (h : ∀ m ∈ ms, ¬ (eligible m = true ∧ m.name = N)) : lastArgument ms N = "" := by
  have hfil : ms.filter (fun x => eligible x && decide (x.name = N)) = [] := by
    rw [List.filter_eq_nil_iff]
    intro x hx
    simpa using h x hx
  unfold lastArgument
  rw [hfil]
  rfl

theorem params_of_one {m : CXXMethodDecl} (h : m.getNumParams = 1) :
    m.params = [m.getParamType 0] := by
  unfold CXXMethodDecl.getNumParams at h
  unfold CXXMethodDecl.getParamType
  match hps : m.params, h with
  | [p], _ => simp
  | [], h => simp at h
  | _ :: _ :: _, h => simp at h

/-- C16. For a plugin class whose scan returns normally and every traverse
record read back from its lines: the argument of the record is the type of
the single parameter of the last eligible method, in declaration order, that
has the name of the record, and it is the empty string when no eligible method
has that name (only `PreTraverse`/`PostTraverse` methods gave the record). A
`Traverse*` method met when the merge set already holds a record of its name
replaces the argument of that record and keeps its `hasPre` and `hasPost`. -/
theorem argument_is_last_traverse_declaration (decl : CXXRecordDecl) (s s1 : State)
    (hp : isPluginClass decl = true) (h : VisitCXXRecordDecl decl s = .ok s1) :
    (∀ r ∈ readTraverseRecords (emitted s s1),
      (∀ ms1 m ms2, decl.methods = ms1 ++ m :: ms2 → eligible m = true → m.name = r.name →
        (∀ x ∈ ms2, ¬ (eligible x = true ∧ x.name = r.name)) →
          r.argument = m.getParamType 0 ∧ m.params = [r.argument]) ∧
      ((∀ m ∈ decl.methods, ¬ (eligible m = true ∧ m.name = r.name)) → r.argument = "")) ∧
    (∀ (className : String) (m : CXXMethodDecl) (t t1 : State) (r : TraverseFunctionInfo),
      t.traverseFunctions.Pairwise (fun a b => a.name < b.name) → r ∈ t.traverseFunctions →
      eligible m = true → startswith m.name "Traverse" = true → r.name = m.name →
      scanMethod className m t = .ok t1 →
        { r with argument := m.getParamType 0 } ∈ t1.traverseFunctions ∧
          ∀ z ∈ t1.traverseFunctions, z.name = m.name →
            z = { r with argument := m.getParamType 0 }) := by
  have inv := mergeInv_mergeMethods decl.methods
  constructor
  · intro r hr
    rw [visit_ok_traverseRecords hp h, List.mem_map] at hr
    obtain ⟨x, hx, e⟩ := hr
    have hx1 := (inv.2 x).1 hx
    have harg : x.argument = lastArgument decl.methods x.name := by
      conv_lhs => rw [hx1.2]
      rfl
    subst e
    simp only [TraverseFunctionInfo.asRecord]
    constructor
    · intro ms1 m ms2 hd he hn hlast
      have e1 : x.argument = m.getParamType 0 := by
        rw [harg, hd]
        exact lastArgument_of_last he hn hlast
      refine ⟨e1, ?_⟩
      rw [e1]
      apply params_of_one
      have hmem : m ∈ decl.methods := by rw [hd]; simp
      have hf := no_fatal_of_ok h hp m hmem
      have hT : startswith m.name "Traverse" = true := by
        rw [hn]; exact canonicalNames_startswith hx1.1
      by_contra hne
      have : isFatal m = true := (isFatal_iff m).2 ⟨he, Or.inr (Or.inl ⟨hT, hne⟩)⟩
      rw [hf] at this; cases this
    · intro hnone
      rw [harg]
      exact lastArgument_of_none hnone
  · intro className m t t1 r hs hr he hT hrn hok
    have ht := (scanMethod_ok_state hok).2
    have hmm : mergeMethod m t.traverseFunctions
        = upsert m.name (fun r => { r with argument := m.getParamType 0 })
            t.traverseFunctions := by
      simp [mergeMethod, he, hT]
    have hfind : TraverseSet.find { name := m.name } t.traverseFunctions = some r := by
      cases hf : TraverseSet.find { name := m.name } t.traverseFunctions with
      | none => exact absurd hrn (find_none hf r hr)
      | some y =>
        have hy := find_some hf
        have hyn : y.name = m.name := hy.2
        rw [eq_of_name_eq hs hy.1 hr (hyn.trans hrn.symm)]
    have hmem := mem_upsert (n := m.name)
      (f := fun r => { r with argument := m.getParamType 0 }) hs (fun _ => rfl)
    rw [ht]
    simp only
    rw [hmm]
    constructor
    · rw [hmem, hfind]
      exact Or.inr rfl
    · intro z hz hzn
      rw [hmem, hfind] at hz
      rcases hz with ⟨_, hne⟩ | hz
      · exact absurd hzn hne
      · exact hz

theorem argument_is_last_traverse_declaration_witness :
    isPluginClass overwriteClass = true ∧
      VisitCXXRecordDecl overwriteClass initialState
        = .ok (stateOf (VisitCXXRecordDecl overwriteClass initialState)) ∧
      readTraverseRecords
          (emitted initialState (stateOf (VisitCXXRecordDecl overwriteClass initialState)))
        = [{ name := "TraverseStmt", argument := "Expr*", hasPre := "1", hasPost := "0" }] ∧
      ∀ r ∈ readTraverseRecords
          (emitted initialState (stateOf (VisitCXXRecordDecl overwriteClass initialState))),
        r.name = "TraverseStmt" → r.argument = "Expr*" :=
  ⟨by decide, by decide, by decide,
    fun r hr hn =>
      (((argument_is_last_traverse_declaration overwriteClass initialState _ (by decide)
        (by decide)).1 r hr).1
          [publicMethod "TraverseStmt" ["Stmt&"], publicMethod "PreTraverseStmt" []]
          (publicMethod "TraverseStmt" ["Expr*"]) [] rfl (by decide) hn.symm
          (fun x hx => absurd hx (List.not_mem_nil x))).1⟩

/-! ## Look up or create -/

theorem erase_eq_filter {tf : TraverseSet} (hs : tf.Pairwise TraverseFunctionInfoLess)
    {y : TraverseFunctionInfo} (hy : y ∈ tf) :
    TraverseSet.erase y tf = tf.filter (fun z => decide (z.name ≠ y.name)) := by
  induction tf with
  | nil => cases hy
  | cons x xs ih =>
    have hx := List.pairwise_cons.1 hs
    unfold TraverseSet.erase
    split
    · rename_i he
      have e : y.name = x.name := (equivalent_iff _ _).1 he
      have hxf : decide (x.name ≠ y.name) = false := by simp [e]
      rw [List.filter_cons, hxf]
      simp only [Bool.false_eq_true, if_false]
      symm
      rw [List.filter_eq_self]
      intro z hz
      have : x.name < z.name := hx.1 z hz
      rw [e]
      simpa using (ne_of_gt this)
    · rename_i he
      have e : y.name ≠ x.name := fun e => he ((equivalent_iff _ _).2 e)
      have hyx : y ∈ xs := by
        rcases List.mem_cons.1 hy with h | h
        · rw [h] at e; exact absurd rfl e
        · exact h
      have hxf : decide (x.name ≠ y.name) = true := by simpa using (fun e1 => e e1.symm)
      rw [List.filter_cons, hxf, if_pos rfl, ih hx.2 hyx]

theorem length_erase {tf : TraverseSet} {y : TraverseFunctionInfo} (hy : y ∈ tf) :
    (TraverseSet.erase y tf).length + 1 = tf.length := by
  induction tf with
  | nil => cases hy
  | cons x xs ih =>
    unfold TraverseSet.erase
    split
    · rfl
    · rename_i he
      have hyx : y ∈ xs := by
        rcases List.mem_cons.1 hy with h | h
        · rw [h] at he; exact absurd ((equivalent_iff x x).2 rfl) he
        · exact h
      simp only [List.length_cons, ih hyx]

theorem length_insert {x : TraverseFunctionInfo} {l : TraverseSet}
    (hx : ∀ y ∈ l, y.name ≠ x.name) : (TraverseSet.insert x l).length = l.length + 1 := by
  induction l with
  | nil => rfl
  | cons y ys ih =>
    have hys : ∀ w ∈ ys, w.name ≠ x.name := fun w hw => hx w (List.mem_cons_of_mem _ hw)
    unfold TraverseSet.insert
    split
    · rfl
    · split
      · simp only [List.length_cons, ih hys]
      · rename_i h1 h2
        exact absurd ((equivalent_iff _ _).1 ⟨h1, h2⟩).symm (hx y (List.mem_cons_self _ _))

theorem length_upsert {n : String} {f : TraverseFunctionInfo → TraverseFunctionInfo}
    {tf : TraverseSet} (hs : tf.Pairwise TraverseFunctionInfoLess)
    (hf : ∀ r, (f r).name = r.name) :
    (upsert n f tf).length = if (∃ y ∈ tf, y.name = n) then tf.length else tf.length + 1 := by
  unfold upsert
  cases hfind : TraverseSet.find { name := n } tf with
  | none =>
    rw [findOrCreate_none hfind]
    have habs : ∀ y ∈ tf, y.name ≠ n := find_none hfind
    have habs1 : ∀ y ∈ tf, y.name ≠ (f { name := n }).name := by
      intro y hy; rw [hf]; exact habs y hy
    have hno : ¬ ∃ y ∈ tf, y.name = n := fun ⟨y, hy, e⟩ => habs y hy e
    rw [if_neg hno]
    exact length_insert habs1
  | some y =>
    rw [findOrCreate_some hfind]
    have hy := find_some hfind
    have habs1 : ∀ w ∈ TraverseSet.erase y tf, w.name ≠ (f y).name := by
      intro w hw; rw [hf]; exact ((mem_erase hs w).1 hw).2
    have hyes : ∃ y ∈ tf, y.name = n := ⟨y, hy.1, hy.2⟩
    rw [if_pos hyes]
    show (TraverseSet.insert (f y) (TraverseSet.erase y tf)).length = tf.length
    rw [length_insert habs1]
    exact length_erase hy.1

/-- What the loop body does to the merge set on an eligible method with a
traverse name: look up or create under the canonical name, set the field of
the kind of the method, put back. -/
theorem mergeMethod_of_traverse {m : CXXMethodDecl} (tf : TraverseSet)
    (he : eligible m = true) (ht : isTraverseName m.name = true) :
    (startswith m.name "Traverse" = true ∧
        mergeMethod m tf = upsert (canonicalName m.name)
          (fun r => { r with argument := m.getParamType 0 }) tf) ∨
      (startswith m.name "PreTraverse" = true ∧
        mergeMethod m tf = upsert (canonicalName m.name)
          (fun r => { r with hasPre := true }) tf) ∨
      (startswith m.name "PostTraverse" = true ∧
        mergeMethod m tf = upsert (canonicalName m.name)
          (fun r => { r with hasPost := true }) tf) := by
  rcases (traverse_kinds ht).2 with ⟨hT, _⟩ | ⟨hT, hP, _⟩ | ⟨hT, hP, hQ, _⟩
  · refine Or.inl ⟨hT, ?_⟩
    rw [canonicalName_of_traverse hT]
    simp [mergeMethod, he, hT]
  · refine Or.inr (Or.inl ⟨hP, ?_⟩)
    rw [canonicalName_of_pre hP]
    simp [mergeMethod, he, hT, hP]
  · refine Or.inr (Or.inr ⟨hQ, ?_⟩)
    rw [canonicalName_of_post hQ]
    simp [mergeMethod, he, hT, hP, hQ]

/-- C17. On a merge set (in increasing order of name),
`findOrCreateTraverseFunctionInfo( N )` returns the record stored under `N`
and the set without it (all other records, in their order) when there is one,
and the fresh record of name `N`, empty argument, `hasPre` and `hasPost` false
with the set unchanged when there is none. So the loop body, on an eligible
method with a traverse name of canonical name `N` on which it does not abort,
leaves the records of other names as they are, puts under `N` the looked-up
record with the one field of the kind of the method set (the argument for
`Traverse*`, `hasPre` for `PreTraverse*`, `hasPost` for `PostTraverse*`), and
the number of records stays the same if `N` was present and grows by one if
not. -/
theorem lookup_touches_only_addressed_record (tf : TraverseSet) (N : String)
    (hs : tf.Pairwise (fun a b => a.name < b.name)) :
    (∀ y ∈ tf, y.name = N →
      findOrCreateTraverseFunctionInfo N tf
        = (y, tf.filter (fun z => decide (z.name ≠ N)))) ∧
    ((∀ y ∈ tf, y.name ≠ N) →
      findOrCreateTraverseFunctionInfo N tf
        = ({ name := N, argument := "", hasPre := false, hasPost := false }, tf)) ∧
    (∀ (className : String) (m : CXXMethodDecl) (t t1 : State),
      t.traverseFunctions = tf → eligible m = true → isTraverseName m.name = true →
      canonicalName m.name = N → scanMethod className m t = .ok t1 →
        ∃ new : TraverseFunctionInfo,
          ((startswith m.name "Traverse" = true ∧
              new = { (findOrCreateTraverseFunctionInfo N tf).1 with
                        argument := m.getParamType 0 }) ∨
            (startswith m.name "PreTraverse" = true ∧
              new = { (findOrCreateTraverseFunctionInfo N tf).1 with hasPre := true }) ∨
            (startswith m.name "PostTraverse" = true ∧
              new = { (findOrCreateTraverseFunctionInfo N tf).1 with hasPost := true })) ∧
          new.name = N ∧
          (∀ z, z ∈ t1.traverseFunctions ↔ (z ∈ tf ∧ z.name ≠ N) ∨ z = new) ∧
          (∀ z, z.name ≠ N → (z ∈ t1.traverseFunctions ↔ z ∈ tf)) ∧
          t1.traverseFunctions.length
            = if (∃ y ∈ tf, y.name = N) then tf.length else tf.length + 1) := by
  have hs1 : tf.Pairwise TraverseFunctionInfoLess := hs
  have hfst : (findOrCreateTraverseFunctionInfo N tf).1
      = (TraverseSet.find { name := N } tf).getD { name := N } := by
    cases hfind : TraverseSet.find { name := N } tf with
    | none => rw [findOrCreate_none hfind]; rfl
    | some y => rw [findOrCreate_some hfind]; rfl
  have hname : (findOrCreateTraverseFunctionInfo N tf).1.name = N := by
    cases hfind : TraverseSet.find { name := N } tf with
    | none => rw [findOrCreate_none hfind]
    | some y => rw [findOrCreate_some hfind]; exact (find_some hfind).2
  refine ⟨?_, ?_, ?_⟩
  · intro y hy hn
    cases hfind : TraverseSet.find { name := N } tf with
    | none => exact absurd hn (find_none hfind y hy)
    | some w =>
      have hw := find_some hfind
      have hwn : w.name = N := hw.2
      have hwy : w = y := eq_of_name_eq hs1 hw.1 hy (hwn.trans hn.symm)
      rw [findOrCreate_some hfind, erase_eq_filter hs1 hw.1, hwn, hwy]
  · intro hnone
    cases hfind : TraverseSet.find { name := N } tf with
    | none => rw [findOrCreate_none hfind]
    | some w => exact absurd (find_some hfind).2 (hnone w (find_some hfind).1)
  · intro className m t t1 htf he ht hc hok
    have hst := (scanMethod_ok_state hok).2
    have htf1 : t1.traverseFunctions = mergeMethod m tf := by rw [hst, htf]
    have key : ∀ f : TraverseFunctionInfo → TraverseFunctionInfo, (∀ r, (f r).name = r.name) →
        mergeMethod m tf = upsert N f tf →
        (f (findOrCreateTraverseFunctionInfo N tf).1).name = N ∧
          (∀ z, z ∈ t1.traverseFunctions ↔
            (z ∈ tf ∧ z.name ≠ N) ∨ z = f (findOrCreateTraverseFunctionInfo N tf).1) ∧
          (∀ z, z.name ≠ N → (z ∈ t1.traverseFunctions ↔ z ∈ tf)) ∧
          t1.traverseFunctions.length
            = if (∃ y ∈ tf, y.name = N) then tf.length else tf.length + 1 := by
      intro f hf hmm
      have hmem : ∀ z, z ∈ t1.traverseFunctions ↔
          (z ∈ tf ∧ z.name ≠ N) ∨ z = f (findOrCreateTraverseFunctionInfo N tf).1 := by
        intro z
        rw [htf1, hmm, mem_upsert hs1 hf, hfst]
      have hnew : (f (findOrCreateTraverseFunctionInfo N tf).1).name = N := by
        rw [hf, hname]
      refine ⟨hnew, hmem, ?_, ?_⟩
      · intro z hz
        rw [hmem]
        constructor
        · rintro (h | h)
          · exact h.1
          · rw [h, hnew] at hz; exact absurd rfl hz
        · intro h
          exact Or.inl ⟨h, hz⟩
      · rw [htf1, hmm]
        exact length_upsert hs1 hf
    rcases mergeMethod_of_traverse tf he ht with ⟨hk, hmm⟩ | ⟨hk, hmm⟩ | ⟨hk, hmm⟩
    · rw [hc] at hmm
      exact ⟨_, Or.inl ⟨hk, rfl⟩,
        key (fun r => { r with argument := m.getParamType 0 }) (fun _ => rfl) hmm⟩
    · rw [hc] at hmm
      exact ⟨_, Or.inr (Or.inl ⟨hk, rfl⟩),
        key (fun r => { r with hasPre := true }) (fun _ => rfl) hmm⟩
    · rw [hc] at hmm
      exact ⟨_, Or.inr (Or.inr ⟨hk, rfl⟩),
        key (fun r => { r with hasPost := true }) (fun _ => rfl) hmm⟩

theorem lookup_touches_only_addressed_record_witness :
    List.Pairwise TraverseFunctionInfoLess
        [{ name := "TraverseDecl", argument := "Decl*" },
          { name := "TraverseStmt", argument := "Stmt*", hasPre := true }] ∧
      findOrCreateTraverseFunctionInfo "TraverseStmt"
          [{ name := "TraverseDecl", argument := "Decl*" },
            { name := "TraverseStmt", argument := "Stmt*", hasPre := true }]
        = ({ name := "TraverseStmt", argument := "Stmt*", hasPre := true },
            [{ name := "TraverseDecl", argument := "Decl*" }]) :=
  ⟨by decide,
    (lookup_touches_only_addressed_record
      [{ name := "TraverseDecl", argument := "Decl*" },
        { name := "TraverseStmt", argument := "Stmt*", hasPre := true }] "TraverseStmt"
      (show List.Pairwise TraverseFunctionInfoLess _ from by decide)).1
      { name := "TraverseStmt", argument := "Stmt*", hasPre := true } (by decide) rfl⟩

/-! ## The output of an aborted scan -/

theorem headerLines_kinds (className : String) :
    ∀ l ∈ headerLines className,
      startswith l "#" = true ∨ l = "InfoVersion:1" ∨ startswith l "ClassName:" = true := by
  intro l hl
  simp only [headerLines, List.mem_cons, List.mem_singleton, List.not_mem_nil, or_false] at hl
  rcases hl with e | e | e | e
  · rw [e]; exact Or.inl (by decide)
  · rw [e]; exact Or.inl (by decide)
  · exact Or.inr (Or.inl e)
  · rw [e]; exact Or.inr (Or.inr (startswith_append_self _ _))

/-- What an aborted scan has written: the opening lines and what the methods
before the first fatal one contributed; no line of a traverse block, no
`InfoEnd`. -/
theorem visit_abort_emitted {decl : CXXRecordDecl} {s : State}
    (hp : isPluginClass decl = true)
    {ms1 : List CXXMethodDecl} {m : CXXMethodDecl} {ms2 : List CXXMethodDecl}
    (e : decl.methods = ms1 ++ m :: ms2)
    (hf : ∀ x ∈ ms1, isFatal x = false) (hm : isFatal m = true) :
    ∃ s1, VisitCXXRecordDecl decl s = .error s1 ∧
      s1.cout = s.cout ++ emitted s s1 ∧
      emitted s s1 = headerLines decl.name ++ ms1.flatMap methodLines ∧
      (∀ l ∈ emitted s s1, startswith l "TraverseFunction" = false) ∧
      "InfoEnd" ∉ emitted s s1 ∧
      readTraverseRecords (emitted s s1) = [] := by
  have hab := visit_abort decl s hp ms1 m ms2 e hf hm
  have hem : emitted s
      { cout := s.cout ++ headerLines decl.name ++ ms1.flatMap methodLines,
        cerr := s.cerr ++ [fatalMessage decl.name m],
        traverseFunctions := mergeMethods ms1 [],
        foundSomething := s.foundSomething }
      = headerLines decl.name ++ ms1.flatMap methodLines :=
    emitted_append _ _ _ (by simp [List.append_assoc])
  have hkind : ∀ l ∈ headerLines decl.name ++ ms1.flatMap methodLines,
      startswith l "TraverseFunction" = false ∧ l ≠ "InfoEnd" := by
    intro l hl
    rcases List.mem_append.1 hl with h | h
    · rcases headerLines_kinds decl.name l h with h1 | h1 | h1
      · exact ⟨startswith_excl h1 (by decide), ne_of_startswith h1 (by decide)⟩
      · rw [h1]; exact ⟨by decide, by decide⟩
      · exact ⟨startswith_excl h1 (by decide), ne_of_startswith h1 (by decide)⟩
    · obtain ⟨x, _, hx⟩ := List.mem_flatMap.1 h
      rcases methodLines_kinds x l hx with h1 | h1
      · exact ⟨startswith_excl h1 (by decide), ne_of_startswith h1 (by decide)⟩
      · exact ⟨startswith_excl h1 (by decide), ne_of_startswith h1 (by decide)⟩
  refine ⟨_, hab, ?_, hem, ?_, ?_, ?_⟩
  · rw [hem]; simp [List.append_assoc]
  · rw [hem]; exact fun l hl => (hkind l hl).1
  · rw [hem]; exact fun hin => (hkind _ hin).2 rfl
  · rw [hem]
    have hne : ∀ l ∈ headerLines decl.name ++ ms1.flatMap methodLines,
        l ≠ "TraverseFunctionStart" := by
      intro l hl e1
      have h1 := (hkind l hl).1
      rw [e1] at h1
      revert h1; decide
    have := readTraverseRecords_skip (headerLines decl.name ++ ms1.flatMap methodLines) [] hne
    rw [List.append_nil] at this
    rw [this]; rfl

/-- C18. A plugin class whose scan aborts at its first fatal method has
written, at that moment, the three header lines and the `ClassName` line,
followed by what the methods declared before the fatal one contributed (each
nothing, one flag line or one visit block, in declaration order), and nothing
else: no line of a traverse block and no `InfoEnd`. -/
theorem aborted_scan_output (decl : CXXRecordDecl) (s : State)
    (ms1 : List CXXMethodDecl) (m : CXXMethodDecl) (ms2 : List CXXMethodDecl)
    (hp : isPluginClass decl = true) (e : decl.methods = ms1 ++ m :: ms2)
    (hf : ∀ x ∈ ms1, isFatal x = false) (hm : isFatal m = true) :
    ∃ s1, VisitCXXRecordDecl decl s = .error s1 ∧
      s1.cout = s.cout ++ emitted s s1 ∧
      emitted s s1 =
        [ "# This file is autogenerated. Do not modify.",
          "# Generated by compilerplugins/clang/sharedvisitor/analyzer.cxx .",
          "InfoVersion:1",
          "ClassName:" ++ decl.name ] ++ ms1.flatMap methodLines ∧
      (∀ x ∈ ms1,
        methodLines x = [] ∨ methodLines x = ["ShouldVisitTemplateInstantiations:1"]
          ∨ methodLines x = ["ShouldVisitImplicitCode:1"]
          ∨ (eligible x = true ∧ startswith x.name "Visit" = true
              ∧ methodLines x = visitBlock (x.name, x.getParamType 0))) ∧
      (∀ l ∈ emitted s s1, startswith l "TraverseFunction" = false) ∧
      "InfoEnd" ∉ emitted s s1 ∧
      readTraverseRecords (emitted s s1) = [] := by
  obtain ⟨s1, h1, h2, h3, h4, h5, h6⟩ := visit_abort_emitted (s := s) hp e hf hm
  refine ⟨s1, h1, h2, h3, ?_, h4, h5, h6⟩
  intro x _
  unfold methodLines
  split
  · rename_i he
    split
    · rename_i hv
      exact Or.inr (Or.inr (Or.inr ⟨he, hv, rfl⟩))
    · split
      · exact Or.inr (Or.inl rfl)
      · split
        · exact Or.inr (Or.inr (Or.inl rfl))
        · exact Or.inl rfl
  · exact Or.inl rfl

theorem aborted_scan_output_witness :
    isPluginClass abortingClass = true ∧
      abortingClass.methods
        = [publicMethod "VisitDecl" ["Decl&"], publicMethod "PreTraverseStmt" []]
          ++ publicMethod "TraverseStmt" [] :: [publicMethod "VisitStmt" ["Stmt*"]] ∧
      isFatal (publicMethod "TraverseStmt" []) = true ∧
      ∃ s1, VisitCXXRecordDecl abortingClass initialState = .error s1 ∧
        emitted initialState s1 =
          [ "# This file is autogenerated. Do not modify.",
            "# Generated by compilerplugins/clang/sharedvisitor/analyzer.cxx .",
            "InfoVersion:1",
            "ClassName:Foo",
            "VisitFunctionStart",
            "VisitFunctionName:VisitDecl",
            "VisitFunctionArgument:Decl&",
            "VisitFunctionEnd" ] :=
  ⟨by decide, rfl, by decide,
    (aborted_scan_output abortingClass initialState
      [publicMethod "VisitDecl" ["Decl&"], publicMethod "PreTraverseStmt" []]
      (publicMethod "TraverseStmt" []) [publicMethod "VisitStmt" ["Stmt*"]]
      (by decide) rfl (by decide) (by decide)).imp (fun _ h => ⟨h.1, h.2.2.1⟩)⟩

/-! ## The key space of the merge set -/

theorem emitted_self (s : State) : emitted s s = [] := by
  simp [emitted]

/-- C19. Every traverse record that a visit of a class writes, whatever the
class and the state the visit starts in and however the visit ends, has a name
that starts with `Traverse`. A name that starts with `PreTraverse` is `Pre`
followed by its `substr( 3 )`, which starts with `Traverse`; a name that
starts with `PostTraverse` is `Post` followed by its `substr( 4 )`, which
starts with `Traverse`. -/
theorem traverse_names_start_with_traverse (decl : CXXRecordDecl) (s : State) :
    (∀ r ∈ readTraverseRecords (emitted s (stateOf (VisitCXXRecordDecl decl s))),
      startswith r.name "Traverse" = true) ∧
    (∀ n, startswith n "PreTraverse" = true →
      n = "Pre" ++ substr n 3 ∧ startswith (substr n 3) "Traverse" = true) ∧
    (∀ n, startswith n "PostTraverse" = true →
      n = "Post" ++ substr n 4 ∧ startswith (substr n 4) "Traverse" = true) := by
  refine ⟨?_, fun n h => pre_split h, fun n h => post_split h⟩
  intro r hr
  cases hp : isPluginClass decl with
  | false =>
    rw [visit_not_plugin decl s hp] at hr
    simp only [stateOf, emitted_self, readTraverseRecords] at hr
    cases hr
  | true =>
    by_cases hfat : ∃ m ∈ decl.methods, isFatal m = true
    · obtain ⟨ms1, m, ms2, e, h1, h2⟩ := exists_first_fatal _ hfat
      obtain ⟨s1, hs1, _, _, _, _, hnone⟩ := visit_abort_emitted (s := s) hp e h1 h2
      rw [hs1] at hr
      simp only [stateOf, hnone] at hr
      cases hr
    · have hf : ∀ m ∈ decl.methods, isFatal m = false := by
        intro m hm
        cases hfm : isFatal m with
        | false => rfl
        | true => exact absurd ⟨m, hm, hfm⟩ hfat
      have hok := visit_ok decl s hp hf
      have hrec := visit_ok_traverseRecords hp hok
      rw [hok] at hr
      simp only [stateOf] at hr
      rw [hrec, List.mem_map] at hr
      obtain ⟨x, hx, ex⟩ := hr
      have inv := mergeInv_mergeMethods decl.methods
      have := canonicalNames_startswith ((inv.2 x).1 hx).1
      rw [← ex]
      exact this

/-! ## The merge set does not carry over -/

/-- The visit of a plugin class does not read the merge set it starts with. -/
theorem visit_plugin_eq {decl : CXXRecordDecl} {s t : State}
    (hp : isPluginClass decl = true) (h : sameButMergeSet s t) :
    VisitCXXRecordDecl decl s = VisitCXXRecordDecl decl t := by
  obtain ⟨h1, h2, h3⟩ := h
  by_cases hfat : ∃ m ∈ decl.methods, isFatal m = true
  · obtain ⟨ms1, m, ms2, e, hf, hm⟩ := exists_first_fatal _ hfat
    rw [visit_abort decl s hp ms1 m ms2 e hf hm, visit_abort decl t hp ms1 m ms2 e hf hm,
      h1, h2, h3]
  · have hf : ∀ m ∈ decl.methods, isFatal m = false := by
      intro m hm
      cases hfm : isFatal m with
      | false => rfl
      | true => exact absurd ⟨m, hm, hfm⟩ hfat
    rw [visit_ok decl s hp hf, visit_ok decl t hp hf, h1, h2]

theorem sameOutcome_refl (r : Except State State) : sameOutcome r r := by
  cases r <;> exact ⟨rfl, rfl, rfl⟩

theorem visit_same (decl : CXXRecordDecl) {s t : State} (h : sameButMergeSet s t) :
    sameOutcome (VisitCXXRecordDecl decl s) (VisitCXXRecordDecl decl t) := by
  cases hp : isPluginClass decl with
  | false =>
    rw [visit_not_plugin decl s hp, visit_not_plugin decl t hp]
    exact h
  | true =>
    rw [visit_plugin_eq hp h]
    exact sameOutcome_refl _

theorem traverseDecl_same (classes : List CXXRecordDecl) {s t : State}
    (h : sameButMergeSet s t) :
    sameOutcome (TraverseDecl classes s) (TraverseDecl classes t) := by
  induction classes generalizing s t with
  | nil => exact h
  | cons decl rest ih =>
    have hv := visit_same decl h
    unfold TraverseDecl
    cases h1 : VisitCXXRecordDecl decl s with
    | ok s1 =>
      cases h2 : VisitCXXRecordDecl decl t with
      | ok t1 =>
        rw [h1, h2] at hv
        exact ih hv
      | error t1 => rw [h1, h2] at hv; exact hv.elim
    | error s1 =>
      cases h2 : VisitCXXRecordDecl decl t with
      | ok t1 => rw [h1, h2] at hv; exact hv.elim
      | error t1 => rw [h1, h2] at hv; exact hv

/-! ### The driver, file by file -/

theorem string_empty_append (x : String) : "" ++ x = x := by
  apply String.ext
  rw [String.data_append]
  rfl

theorem readLines_eq (ls : List String) (acc : String × Bool) :
    readLines ls acc
      = (acc.1 ++ linesText ls, acc.2 || ls.any (fun l => startswith l guardMarker)) := by
  induction ls generalizing acc with
  | nil =>
    simp only [readLines, linesText, List.any_nil, Bool.or_false]
    have : acc.1 ++ "" = acc.1 := by
      apply String.ext
      rw [String.data_append]
      simp
    rw [this]
  | cons l rest ih =>
    rw [readLines, ih]
    simp only [linesText, List.any_cons, String.append_assoc]
    cases hb : startswith l guardMarker <;> cases acc.2 <;> simp

theorem linesText_ne_empty {ls : List String} (h : ls ≠ []) : linesText ls ≠ "" := by
  cases ls with
  | nil => exact absurd rfl h
  | cons l rest =>
    intro e
    have := congrArg String.length e
    simp only [linesText, String.length_append] at this
    have h1 : ("\n" : String).length = 1 := rfl
    have h0 : ("" : String).length = 0 := rfl
    omega

/-- What `readSourceFile` returns for a file that opens: the text of the file
if the file passes the gate, the empty string if not. -/
theorem readSourceFile_eq (f : SourceFile) (s : State) (ho : f.canOpen = true) :
    readSourceFile f s = .ok (if passesGate f = true then linesText f.lines else "") := by
  unfold readSourceFile
  simp only [ho, Bool.not_true, Bool.false_eq_true, if_false, readLines_eq, Bool.false_or,
    string_empty_append, passesGate, readable, hasMarker, Bool.true_and]
  split <;> rfl

theorem readSourceFile_closed (f : SourceFile) (s : State) (ho : f.canOpen = false) :
    readSourceFile f s
      = .error { s with cerr := s.cerr ++ [ "Failed to open: " ++ f.filename ] } := by
  unfold readSourceFile
  simp [ho]

theorem passesGate_text {f : SourceFile} (h : passesGate f = true) : linesText f.lines ≠ "" := by
  apply linesText_ne_empty
  intro e
  simp [passesGate, hasMarker, e] at h

theorem main_closed (f : SourceFile) (rest : List SourceFile) (s : State)
    (ho : f.canOpen = false) :
    main (f :: rest) s
      = .ok ({ s with cerr := s.cerr ++ [ "Failed to open: " ++ f.filename ] }, 1) := by
  rw [main, readSourceFile_closed f s ho]

theorem main_skip (f : SourceFile) (rest : List SourceFile) (s : State)
    (ho : f.canOpen = true) (hg : passesGate f = false) :
    main (f :: rest) s = main rest s := by
  rw [main, readSourceFile_eq f s ho, hg]
  simp

theorem main_gate (f : SourceFile) (rest : List SourceFile) (s : State)
    (hg : passesGate f = true) :
    main (f :: rest) s =
      match TraverseDecl f.classes { s with foundSomething := false } with
      | .error s2 => .error s2
      | .ok s2 =>
        if f.toolOk = false then
          .ok ({ s2 with cerr := s2.cerr ++ [ "Failed to analyze: " ++ f.filename ] }, 2)
        else if s2.foundSomething = false then
          .ok ({ s2 with cerr := s2.cerr ++ [ "Failed to find code: " ++ f.filename ] }, 2)
        else main rest s2 := by
  have ho : f.canOpen = true := by
    simp only [passesGate, readable, Bool.and_eq_true] at hg
    exact hg.1.1
  rw [main, readSourceFile_eq f s ho, hg]
  simp only [if_true, passesGate_text hg, if_false, runToolOnCodeWithArgs]
  cases TraverseDecl f.classes { s with foundSomething := false } with
  | error s2 => rfl
  | ok s2 =>
    simp only
    cases f.toolOk <;> cases s2.foundSomething <;> simp

theorem main_same (files : List SourceFile) {s t : State} (h : sameButMergeSet s t) :
    sameRun (main files s) (main files t) := by
  induction files generalizing s t with
  | nil => exact ⟨h, rfl⟩
  | cons f rest ih =>
    cases ho : f.canOpen with
    | false =>
      rw [main_closed f rest s ho, main_closed f rest t ho]
      exact ⟨⟨h.1, by simp [h.2.1], h.2.2⟩, rfl⟩
    | true =>
      cases hg : passesGate f with
      | false =>
        rw [main_skip f rest s ho hg, main_skip f rest t ho hg]
        exact ih h
      | true =>
        rw [main_gate f rest s hg, main_gate f rest t hg]
        have h0 : sameButMergeSet { s with foundSomething := false }
            { t with foundSomething := false } := ⟨h.1, h.2.1, rfl⟩
        have htd := traverseDecl_same f.classes h0
        cases h1 : TraverseDecl f.classes { s with foundSomething := false } with
        | error s1 =>
          cases h2 : TraverseDecl f.classes { t with foundSomething := false } with
          | error t1 => rw [h1, h2] at htd; exact htd
          | ok t1 => rw [h1, h2] at htd; exact htd.elim
        | ok s1 =>
          cases h2 : TraverseDecl f.classes { t with foundSomething := false } with
          | error t1 => rw [h1, h2] at htd; exact htd.elim
          | ok t1 =>
            rw [h1, h2] at htd
            obtain ⟨e1, e2, e3⟩ := htd
            simp only
            rw [e3]
            split
            · exact ⟨⟨e1, by simp [e2], rfl⟩, rfl⟩
            · split
              · exact ⟨⟨e1, by simp [e2], rfl⟩, rfl⟩
              · exact ih ⟨e1, e2, e3⟩

/-- C13. The visit of a class started with two different contents of the merge
set `traverseFunctions` (everything else in the state the same) ends the same
way, normally or by `abort()`, with the same standard output, the same
diagnostics and the same found-something flag; for a plugin class the two
results are equal altogether. The same holds for a whole run over any list
of files: same exit status or both aborted, same output. -/
theorem no_leak_between_class_scans (decl : CXXRecordDecl) (s : State)
    (tf1 tf2 : TraverseSet) :
    aborted (VisitCXXRecordDecl decl { s with traverseFunctions := tf1 })
        = aborted (VisitCXXRecordDecl decl { s with traverseFunctions := tf2 }) ∧
      (stateOf (VisitCXXRecordDecl decl { s with traverseFunctions := tf1 })).cout
        = (stateOf (VisitCXXRecordDecl decl { s with traverseFunctions := tf2 })).cout ∧
      (stateOf (VisitCXXRecordDecl decl { s with traverseFunctions := tf1 })).cerr
        = (stateOf (VisitCXXRecordDecl decl { s with traverseFunctions := tf2 })).cerr ∧
      (stateOf (VisitCXXRecordDecl decl { s with traverseFunctions := tf1 })).foundSomething
        = (stateOf (VisitCXXRecordDecl decl
            { s with traverseFunctions := tf2 })).foundSomething ∧
      (isPluginClass decl = true →
        VisitCXXRecordDecl decl { s with traverseFunctions := tf1 }
          = VisitCXXRecordDecl decl { s with traverseFunctions := tf2 }) ∧
      (∀ files : List SourceFile,
        sameRun (main files { s with traverseFunctions := tf1 })
          (main files { s with traverseFunctions := tf2 })) := by
  have h0 : sameButMergeSet { s with traverseFunctions := tf1 }
      { s with traverseFunctions := tf2 } := ⟨rfl, rfl, rfl⟩
  have hv := visit_same decl h0
  refine ⟨?_, ?_, ?_, ?_, fun hp => visit_plugin_eq hp h0, fun files => main_same files h0⟩
  all_goals
    cases h1 : VisitCXXRecordDecl decl { s with traverseFunctions := tf1 } with
    | ok s1 =>
      cases h2 : VisitCXXRecordDecl decl { s with traverseFunctions := tf2 } with
      | ok t1 =>
        rw [h1, h2] at hv
        first
          | rfl
          | exact hv.1
          | exact hv.2.1
          | exact hv.2.2
      | error t1 => rw [h1, h2] at hv; exact hv.elim
    | error s1 =>
      cases h2 : VisitCXXRecordDecl decl { s with traverseFunctions := tf2 } with
      | ok t1 => rw [h1, h2] at hv; exact hv.elim
      | error t1 =>
        rw [h1, h2] at hv
        first
          | rfl
          | exact hv.1
          | exact hv.2.1
          | exact hv.2.2

/-! ## The gate -/

/-- C14. A file that opens and reads to its end and none of whose lines
begins with the marker: `readSourceFile` returns the empty string, and the
run goes on with the next file in the state it was in (nothing written, the
classes and the verdict of the declaration source for the file play no part).
A run over files that are all of this kind ends with exit status 0 in the
state it started in. A file that opens and reads to its end and has a line
that begins with the marker: `readSourceFile` returns the text made of every
line followed by a newline, which is not empty. -/
theorem file_without_marker_is_skipped (s : State) :
    (∀ f : SourceFile, f.canOpen = true → f.eof = true →
      (∀ l ∈ f.lines, startswith l "#ifndef LO_CLANG_SHARED_PLUGINS" = false) →
        readSourceFile f s = .ok "" ∧ ∀ rest, main (f :: rest) s = main rest s) ∧
    (∀ files : List SourceFile,
      (∀ f ∈ files, f.canOpen = true ∧ f.eof = true ∧
        ∀ l ∈ f.lines, startswith l "#ifndef LO_CLANG_SHARED_PLUGINS" = false) →
        main files s = .ok (s, 0)) ∧
    (∀ f : SourceFile, f.canOpen = true → f.eof = true →
      (∃ l ∈ f.lines, startswith l "#ifndef LO_CLANG_SHARED_PLUGINS" = true) →
        readSourceFile f s = .ok (linesText f.lines) ∧ linesText f.lines ≠ "") := by
  have hgate : ∀ f : SourceFile,
      (∀ l ∈ f.lines, startswith l "#ifndef LO_CLANG_SHARED_PLUGINS" = false) →
        passesGate f = false := by
    intro f hl
    have : hasMarker f = false := by
      unfold hasMarker
      rw [List.any_eq_false]
      intro l hin
      rw [show guardMarker = "#ifndef LO_CLANG_SHARED_PLUGINS" from rfl, hl l hin]
      exact Bool.false_ne_true
    simp [passesGate, this]
  refine ⟨?_, ?_, ?_⟩
  · intro f ho _ hl
    have hg := hgate f hl
    refine ⟨?_, fun rest => main_skip f rest s ho hg⟩
    rw [readSourceFile_eq f s ho, hg]
    rfl
  · intro files
    induction files with
    | nil => intro _; rfl
    | cons f rest ih =>
      intro h
      have hf := h f (List.mem_cons_self _ _)
      rw [main_skip f rest s hf.1 (hgate f hf.2.2)]
      exact ih (fun g hg => h g (List.mem_cons_of_mem _ hg))
  · intro f ho he hl
    have hg : passesGate f = true := by
      obtain ⟨l, hin, hl1⟩ := hl
      have : hasMarker f = true := by
        unfold hasMarker
        rw [List.any_eq_true]
        exact ⟨l, hin, hl1⟩
      simp [passesGate, readable, ho, he, this]
    refine ⟨?_, passesGate_text hg⟩
    rw [readSourceFile_eq f s ho, hg]
    rfl

/-! ## The exit status -/

theorem traverseDecl_no_plugin (classes : List CXXRecordDecl) (s : State)
    (h : classes.any isPluginClass = false) : TraverseDecl classes s = .ok s := by
  induction classes with
  | nil => rfl
  | cons decl rest ih =>
    simp only [List.any_cons, Bool.or_eq_false_iff] at h
    rw [TraverseDecl, visit_not_plugin decl s h.1]
    exact ih h.2

theorem traverseDecl_ok (classes : List CXXRecordDecl) (s : State)
    (h : ∀ decl ∈ classes, isPluginClass decl = true → ∀ m ∈ decl.methods, isFatal m = false) :
    ∃ s2, TraverseDecl classes s = .ok s2 ∧
      s2.foundSomething = (s.foundSomething || classes.any isPluginClass) := by
  induction classes generalizing s with
  | nil => exact ⟨s, rfl, by simp⟩
  | cons decl rest ih =>
    have hrest : ∀ d ∈ rest, isPluginClass d = true → ∀ m ∈ d.methods, isFatal m = false :=
      fun d hd => h d (List.mem_cons_of_mem _ hd)
    cases hp : isPluginClass decl with
    | false =>
      obtain ⟨s2, h2, h3⟩ := ih s hrest
      refine ⟨s2, ?_, ?_⟩
      · rw [TraverseDecl, visit_not_plugin decl s hp]; exact h2
      · rw [h3]; simp [hp]
    | true =>
      have hok := visit_ok decl s hp (h decl (List.mem_cons_self _ _) hp)
      obtain ⟨s2, h2, h3⟩ := ih _ hrest
      refine ⟨s2, ?_, ?_⟩
      · rw [TraverseDecl, hok]; exact h2
      · rw [h3]; simp [hp]

/-- A file with a fatal condition ends the run, whatever follows it. -/
theorem main_fatal_file (f : SourceFile) (post : List SourceFile) (s : State)
    (hfat : fileFatal f ≠ none) : main (f :: post) s = main [f] s := by
  cases ho : f.canOpen with
  | false => rw [main_closed f post s ho, main_closed f [] s ho]
  | true =>
    cases hg : passesGate f with
    | false => simp [fileFatal, ho, hg] at hfat
    | true =>
      rw [main_gate f post s hg, main_gate f [] s hg]
      cases ht : TraverseDecl f.classes { s with foundSomething := false } with
      | error s2 => rfl
      | ok s2 =>
        simp only
        cases hk : f.toolOk with
        | false => simp
        | true =>
          have hnp : f.classes.any isPluginClass = false := by
            cases hany : f.classes.any isPluginClass with
            | false => rfl
            | true => simp [fileFatal, ho, hg, hk, hany] at hfat
          rw [traverseDecl_no_plugin _ _ hnp] at ht
          cases ht
          simp

theorem main_append_fatal (pre : List SourceFile) (f : SourceFile) (post : List SourceFile)
    (s : State) (hfat : fileFatal f ≠ none) :
    main (pre ++ f :: post) s = main (pre ++ [f]) s := by
  induction pre generalizing s with
  | nil => exact main_fatal_file f post s hfat
  | cons g rest ih =>
    simp only [List.cons_append]
    cases ho : g.canOpen with
    | false => rw [main_closed g _ s ho, main_closed g _ s ho]
    | true =>
      cases hg : passesGate g with
      | false => rw [main_skip g _ s ho hg, main_skip g _ s ho hg]; exact ih s
      | true =>
        rw [main_gate g _ s hg, main_gate g _ s hg]
        cases TraverseDecl g.classes { s with foundSomething := false } with
        | error s2 => rfl
        | ok s2 =>
          simp only
          split
          · rfl
          · split
            · rfl
            · exact ih s2

/-- The run over files none of which has a fatal condition, and in which no
class scan aborts, returns 0. -/
theorem main_no_fatal (files : List SourceFile) (s : State)
    (hab : ∀ f ∈ files, noAbort f) (h : ∀ f ∈ files, fileFatal f = none) :
    ∃ s1, main files s = .ok (s1, 0) := by
  induction files generalizing s with
  | nil => exact ⟨s, rfl⟩
  | cons f rest ih =>
    have hf := h f (List.mem_cons_self _ _)
    have hrest : ∀ g ∈ rest, fileFatal g = none := fun g hg => h g (List.mem_cons_of_mem _ hg)
    have habr : ∀ g ∈ rest, noAbort g := fun g hg => hab g (List.mem_cons_of_mem _ hg)
    cases ho : f.canOpen with
    | false => simp [fileFatal, ho] at hf
    | true =>
      cases hg : passesGate f with
      | false => rw [main_skip f rest s ho hg]; exact ih s habr hrest
      | true =>
        have hk : f.toolOk = true ∧ f.classes.any isPluginClass = true := by
          cases hk1 : f.toolOk <;> cases hk2 : f.classes.any isPluginClass <;>
            simp [fileFatal, ho, hg, hk1, hk2] at hf ⊢
        obtain ⟨s2, h2, h3⟩ := traverseDecl_ok f.classes { s with foundSomething := false }
          (hab f (List.mem_cons_self _ _))
        have hfound : s2.foundSomething = true := by rw [h3, hk.2]; rfl
        rw [main_gate f rest s hg, h2]
        simp only [hk.1, hfound, Bool.true_eq_false, if_false]
        exact ih s2 habr hrest

/-- The run over one file with a fatal condition, in which no class scan
aborts, returns the status of the condition. -/
theorem main_single_fatal (f : SourceFile) (s : State) (n : Nat)
    (hab : noAbort f) (hfat : fileFatal f = some n) : ∃ s1, main [f] s = .ok (s1, n) := by
  cases ho : f.canOpen with
  | false =>
    have : n = 1 := by simpa [fileFatal, ho] using hfat.symm
    rw [main_closed f [] s ho, this]
    exact ⟨_, rfl⟩
  | true =>
    cases hg : passesGate f with
    | false => simp [fileFatal, ho, hg] at hfat
    | true =>
      obtain ⟨s2, h2, h3⟩ := traverseDecl_ok f.classes { s with foundSomething := false } hab
      rw [main_gate f [] s hg, h2]
      simp only
      cases hk : f.toolOk with
      | false =>
        have : n = 2 := by simpa [fileFatal, ho, hg, hk] using hfat.symm
        rw [this, if_pos rfl]
        exact ⟨_, rfl⟩
      | true =>
        cases hany : f.classes.any isPluginClass with
        | true => simp [fileFatal, ho, hg, hk, hany] at hfat
        | false =>
          have : n = 2 := by simpa [fileFatal, ho, hg, hk, hany] using hfat.symm
          have hfound : s2.foundSomething = false := by rw [h3, hany]; rfl
          rw [this, if_neg (by simp), if_pos hfound]
          exact ⟨_, rfl⟩

theorem main_first_fatal (pre : List SourceFile) (f : SourceFile) (s : State) (n : Nat)
    (hab : ∀ g ∈ pre ++ [f], noAbort g) (hpre : ∀ g ∈ pre, fileFatal g = none)
    (hfat : fileFatal f = some n) : ∃ s1, main (pre ++ [f]) s = .ok (s1, n) := by
  induction pre generalizing s with
  | nil => exact main_single_fatal f s n (hab f (by simp)) hfat
  | cons g rest ih =>
    have hg0 := hpre g (List.mem_cons_self _ _)
    have hrest : ∀ x ∈ rest, fileFatal x = none := fun x hx => hpre x (List.mem_cons_of_mem _ hx)
    have habr : ∀ x ∈ rest ++ [f], noAbort x :=
      fun x hx => hab x (List.mem_cons_of_mem _ hx)
    simp only [List.cons_append]
    cases ho : g.canOpen with
    | false => simp [fileFatal, ho] at hg0
    | true =>
      cases hg : passesGate g with
      | false => rw [main_skip g _ s ho hg]; exact ih s habr hrest
      | true =>
        have hk : g.toolOk = true ∧ g.classes.any isPluginClass = true := by
          cases hk1 : g.toolOk <;> cases hk2 : g.classes.any isPluginClass <;>
            simp [fileFatal, ho, hg, hk1, hk2] at hg0 ⊢
        obtain ⟨s2, h2, h3⟩ := traverseDecl_ok g.classes { s with foundSomething := false }
          (hab g (List.mem_cons_self _ _))
        have hfound : s2.foundSomething = true := by rw [h3, hk.2]; rfl
        rw [main_gate g _ s hg, h2]
        simp only [hk.1, hfound, Bool.true_eq_false, if_false]
        exact ih s2 habr hrest

theorem exists_first_fatal_file (files : List SourceFile)
    (h : ∃ f ∈ files, fileFatal f ≠ none) :
    ∃ pre f post n, files = pre ++ f :: post ∧ (∀ g ∈ pre, fileFatal g = none)
      ∧ fileFatal f = some n := by
  induction files with
  | nil => obtain ⟨f, hf, _⟩ := h; cases hf
  | cons x rest ih =>
    cases hx : fileFatal x with
    | some n => exact ⟨[], x, rest, n, rfl, by simp, hx⟩
    | none =>
      have : ∃ f ∈ rest, fileFatal f ≠ none := by
        obtain ⟨f, hf, hne⟩ := h
        rcases List.mem_cons.1 hf with e | e
        · rw [e] at hne; exact absurd hx hne
        · exact ⟨f, e, hne⟩
      obtain ⟨pre, f, post, n, e, h1, h2⟩ := ih this
      refine ⟨x :: pre, f, post, n, by simp [e], ?_, h2⟩
      intro g hg
      rcases List.mem_cons.1 hg with e1 | e1
      · rw [e1]; exact hx
      · exact h1 g e1

theorem fileFatal_one_iff (f : SourceFile) : fileFatal f = some 1 ↔ f.canOpen = false := by
  unfold fileFatal
  cases f.canOpen <;> simp

theorem fileFatal_two_iff (f : SourceFile) :
    fileFatal f = some 2 ↔
      (f.canOpen = true ∧ f.eof = true
        ∧ (∃ l ∈ f.lines, startswith l "#ifndef LO_CLANG_SHARED_PLUGINS" = true)
        ∧ (f.toolOk = false ∨ ∀ decl ∈ f.classes, isPluginClass decl = false)) := by
  have hm : hasMarker f = true ↔
      ∃ l ∈ f.lines, startswith l "#ifndef LO_CLANG_SHARED_PLUGINS" = true := by
    unfold hasMarker
    rw [List.any_eq_true]
    rfl
  have hc : f.classes.any isPluginClass = false ↔
      ∀ decl ∈ f.classes, isPluginClass decl = false := by
    rw [List.any_eq_false]
    constructor
    · intro h d hd
      cases hp : isPluginClass d with
      | false => rfl
      | true => exact absurd hp (h d hd)
    · intro h d hd
      rw [h d hd]
      exact Bool.false_ne_true
  rw [← hm, ← hc]
  unfold fileFatal passesGate readable
  cases f.canOpen <;> cases f.eof <;> cases hasMarker f <;> cases f.toolOk <;>
    cases f.classes.any isPluginClass <;> simp

theorem fileFatal_cases (f : SourceFile) (n : Nat) (h : fileFatal f = some n) :
    n = 1 ∨ n = 2 := by
  unfold fileFatal at h
  split at h
  · left; simpa using h.symm
  · split at h
    · right; simpa using h.symm
    · cases h

theorem traverseDecl_found (classes : List CXXRecordDecl) (s s2 : State)
    (h : TraverseDecl classes s = .ok s2) :
    s2.foundSomething = (s.foundSomething || classes.any isPluginClass) := by
  induction classes generalizing s with
  | nil =>
    simp only [TraverseDecl, Except.ok.injEq] at h
    rw [← h]; simp
  | cons decl rest ih =>
    rw [TraverseDecl] at h
    cases hv : VisitCXXRecordDecl decl s with
    | error s1 => rw [hv] at h; cases h
    | ok s1 =>
      rw [hv] at h
      have h3 := ih s1 h
      cases hp : isPluginClass decl with
      | false =>
        rw [visit_not_plugin decl s hp] at hv
        cases hv
        rw [h3]; simp [hp]
      | true =>
        have hf := (visit_ok_emitted hp hv).2.2.2.1
        rw [h3, hf]; simp [hp]

/-- A run that ends by a return, reached through files without fatal
condition up to a file with one, returns the status of that condition. -/
theorem main_ok_first_fatal (pre : List SourceFile) (f : SourceFile) (post : List SourceFile)
    (n : Nat) (s s1 : State) (k : Nat)
    (hpre : ∀ g ∈ pre, fileFatal g = none) (hfat : fileFatal f = some n)
    (h : main (pre ++ f :: post) s = .ok (s1, k)) : k = n := by
  induction pre generalizing s with
  | nil =>
    rw [List.nil_append] at h
    cases ho : f.canOpen with
    | false =>
      have hn : n = 1 := by simpa [fileFatal, ho] using hfat.symm
      rw [main_closed f post s ho] at h
      simp only [Except.ok.injEq, Prod.mk.injEq] at h
      omega
    | true =>
      cases hg : passesGate f with
      | false => simp [fileFatal, ho, hg] at hfat
      | true =>
        rw [main_gate f post s hg] at h
        cases ht : TraverseDecl f.classes { s with foundSomething := false } with
        | error s2 => rw [ht] at h; cases h
        | ok s2 =>
          rw [ht] at h
          simp only at h
          cases hk : f.toolOk with
          | false =>
            have hn : n = 2 := by simpa [fileFatal, ho, hg, hk] using hfat.symm
            rw [hk, if_pos rfl] at h
            simp only [Except.ok.injEq, Prod.mk.injEq] at h
            omega
          | true =>
            cases hany : f.classes.any isPluginClass with
            | true => simp [fileFatal, ho, hg, hk, hany] at hfat
            | false =>
              have hn : n = 2 := by simpa [fileFatal, ho, hg, hk, hany] using hfat.symm
              have hfound : s2.foundSomething = false := by
                rw [traverseDecl_found _ _ _ ht, hany]; rfl
              rw [hk, if_neg (by simp), if_pos hfound] at h
              simp only [Except.ok.injEq, Prod.mk.injEq] at h
              omega
  | cons g rest ih =>
    have hg0 := hpre g (List.mem_cons_self _ _)
    have hrest : ∀ x ∈ rest, fileFatal x = none := fun x hx => hpre x (List.mem_cons_of_mem _ hx)
    rw [List.cons_append] at h
    cases ho : g.canOpen with
    | false => simp [fileFatal, ho] at hg0
    | true =>
      cases hg : passesGate g with
      | false =>
        rw [main_skip g _ s ho hg] at h
        exact ih s hrest h
      | true =>
        have hk : g.toolOk = true ∧ g.classes.any isPluginClass = true := by
          cases hk1 : g.toolOk <;> cases hk2 : g.classes.any isPluginClass <;>
            simp [fileFatal, ho, hg, hk1, hk2] at hg0 ⊢
        rw [main_gate g _ s hg] at h
        cases ht : TraverseDecl g.classes { s with foundSomething := false } with
        | error s2 => rw [ht] at h; cases h
        | ok s2 =>
          rw [ht] at h
          have hfound : s2.foundSomething = true := by
            rw [traverseDecl_found _ _ _ ht, hk.2]; rfl
          simp only [hk.1, hfound, Bool.true_eq_false, if_false] at h
          exact ih s2 hrest h

/-- A run over files without fatal condition that ends by a return returns
0. -/
theorem main_ok_no_fatal (files : List SourceFile) (s s1 : State) (k : Nat)
    (hnone : ∀ f ∈ files, fileFatal f = none) (h : main files s = .ok (s1, k)) : k = 0 := by
  induction files generalizing s with
  | nil =>
    simp only [main, Except.ok.injEq, Prod.mk.injEq] at h
    exact h.2.symm
  | cons g rest ih =>
    have hg0 := hnone g (List.mem_cons_self _ _)
    have hrest : ∀ x ∈ rest, fileFatal x = none :=
      fun x hx => hnone x (List.mem_cons_of_mem _ hx)
    cases ho : g.canOpen with
    | false => simp [fileFatal, ho] at hg0
    | true =>
      cases hg : passesGate g with
      | false =>
        rw [main_skip g _ s ho hg] at h
        exact ih s hrest h
      | true =>
        have hk : g.toolOk = true ∧ g.classes.any isPluginClass = true := by
          cases hk1 : g.toolOk <;> cases hk2 : g.classes.any isPluginClass <;>
            simp [fileFatal, ho, hg, hk1, hk2] at hg0 ⊢
        rw [main_gate g _ s hg] at h
        cases ht : TraverseDecl g.classes { s with foundSomething := false } with
        | error s2 => rw [ht] at h; cases h
        | ok s2 =>
          rw [ht] at h
          have hfound : s2.foundSomething = true := by
            rw [traverseDecl_found _ _ _ ht, hk.2]; rfl
          simp only [hk.1, hfound, Bool.true_eq_false, if_false] at h
          exact ih s2 hrest h

theorem main_returns_of_not_aborted {files : List SourceFile} {s : State}
    (h : runAborted (main files s) = false) : ∃ s1 k, main files s = .ok (s1, k) := by
  cases hm : main files s with
  | error s1 => rw [hm] at h; cases h
  | ok r => exact ⟨r.1, r.2, rfl⟩

/-- C15. In a run that does not end by `abort()` inside a class scan, the
files are taken in argument order and the first file with a fatal condition
decides the exit status: 1 if it cannot be opened, 2 if it passes the gate
(opens, reads to its end, has a line that begins with the marker) and the
declaration source reports failure or none of its classes is a plugin class,
whatever was found in earlier files. The files after it play no part in the
result (this needs no condition on the run). The exit status is 0 exactly
when no file has a fatal condition. A run in which no plugin class of any
file has a fatal method does not end by `abort()`. -/
theorem exit_status_first_fatal_file (files : List SourceFile) (s : State)
    (hrun : runAborted (main files s) = false) :
    (∀ pre f post n, files = pre ++ f :: post → (∀ g ∈ pre, fileFatal g = none) →
      fileFatal f = some n →
        (∃ s1, main files s = .ok (s1, n)) ∧ main files s = main (pre ++ [f]) s) ∧
    ((∃ s1, main files s = .ok (s1, 0)) ↔ ∀ f ∈ files, fileFatal f = none) ∧
    (∀ f : SourceFile, fileFatal f = none ∨ fileFatal f = some 1 ∨ fileFatal f = some 2) ∧
    (∀ f : SourceFile, fileFatal f = some 1 ↔ f.canOpen = false) ∧
    (∀ f : SourceFile, fileFatal f = some 2 ↔
      (f.canOpen = true ∧ f.eof = true
        ∧ (∃ l ∈ f.lines, startswith l "#ifndef LO_CLANG_SHARED_PLUGINS" = true)
        ∧ (f.toolOk = false ∨ ∀ decl ∈ f.classes, isPluginClass decl = false))) ∧
    (∀ (files1 : List SourceFile) (t : State), (∀ f ∈ files1, noAbort f) →
      runAborted (main files1 t) = false) := by
  obtain ⟨s0, k, hm⟩ := main_returns_of_not_aborted hrun
  have hfirst : ∀ pre f post n, files = pre ++ f :: post → (∀ g ∈ pre, fileFatal g = none) →
      fileFatal f = some n →
        (∃ s1, main files s = .ok (s1, n)) ∧ main files s = main (pre ++ [f]) s := by
    intro pre f post n e hpre hfat
    have hne : fileFatal f ≠ none := by rw [hfat]; exact Option.some_ne_none n
    have hcut : main files s = main (pre ++ [f]) s := by
      rw [e]; exact main_append_fatal pre f post s hne
    refine ⟨⟨s0, ?_⟩, hcut⟩
    have hk : k = n := main_ok_first_fatal pre f post n s s0 k hpre hfat (by rw [← e]; exact hm)
    rw [hm, hk]
  refine ⟨hfirst, ?_, ?_, fileFatal_one_iff, fileFatal_two_iff, ?_⟩
  · constructor
    · rintro ⟨s1, h1⟩ f hf
      by_contra hne
      obtain ⟨pre, g, post, n, e, hpre, hfat⟩ := exists_first_fatal_file files ⟨f, hf, hne⟩
      obtain ⟨⟨s2, h2⟩, _⟩ := hfirst pre g post n e hpre hfat
      rw [h1] at h2
      simp only [Except.ok.injEq, Prod.mk.injEq] at h2
      rcases fileFatal_cases g n hfat with h | h <;> omega
    · intro h
      refine ⟨s0, ?_⟩
      rw [hm, main_ok_no_fatal files s s0 k h hm]
  · intro f
    cases h : fileFatal f with
    | none => exact Or.inl rfl
    | some n =>
      rcases fileFatal_cases f n h with e | e
      · rw [e]; exact Or.inr (Or.inl rfl)
      · rw [e]; exact Or.inr (Or.inr rfl)
  · intro files1 t hab
    by_cases hex : ∃ f ∈ files1, fileFatal f ≠ none
    · obtain ⟨pre, g, post, n, e, hpre, hfat⟩ := exists_first_fatal_file files1 hex
      have hne : fileFatal g ≠ none := by rw [hfat]; exact Option.some_ne_none n
      have hab1 : ∀ x ∈ pre ++ [g], noAbort x := by
        intro x hx
        apply hab x
        rw [e]
        rcases List.mem_append.1 hx with h | h
        · exact List.mem_append.2 (Or.inl h)
        · rw [List.mem_singleton] at h
          rw [h]; simp
      obtain ⟨s1, h1⟩ := main_first_fatal pre g t n hab1 hpre hfat
      rw [e, main_append_fatal pre g post t hne, h1]
      rfl
    · have hnone : ∀ f ∈ files1, fileFatal f = none := by
        intro f hf
        by_contra hne
        exact hex ⟨f, hf, hne⟩
      obtain ⟨s1, h1⟩ := main_no_fatal files1 t hab hnone
      rw [h1]
      rfl

theorem exit_status_first_fatal_file_witness :
    runAborted (main [walkNoMarkerFile, pluginFile, emptyPluginFile, missingFile, walkFile]
        initialState) = false ∧
      (∀ g ∈ [walkNoMarkerFile, pluginFile], fileFatal g = none) ∧
      fileFatal emptyPluginFile = some 2 ∧
      (∃ s1, main [walkNoMarkerFile, pluginFile, emptyPluginFile, missingFile, walkFile]
        initialState = .ok (s1, 2)) :=
  ⟨by decide, by decide, by decide,
    ((exit_status_first_fatal_file
      [walkNoMarkerFile, pluginFile, emptyPluginFile, missingFile, walkFile]
      initialState (by decide)).1 [walkNoMarkerFile, pluginFile] emptyPluginFile
      [missingFile, walkFile] 2 rfl (by decide) (by decide)).1⟩

end Analyzer
